import Mathlib

/-!
Verification of the `martens` in-memory tabular data engine
(`src/martens/martens.py`) against its natural-language specification.

A `Dataset` in the source is a Python `dict` subclass mapping column names
to equal-length lists of cell values.  Cells are opaque Python values:
`None`, numbers, arbitrary atoms, or (after `group_by`) lists of values.
We model cells by the inductive type `Value α` below, where `α` is an
arbitrary linearly ordered type of atoms; the Python ints produced by the
engine itself (the `count` column of `group_by`) get their own
constructor so that they exist for every `α`.

Python's comparison of heterogeneous values raises `TypeError`; the spec
(§4.2) requires the implementation to expose a total, consistent,
documented order instead.  We fix the total order
`null < int _ < atom _ < vlist _` (the natural order inside each
constructor, lexicographic on lists, a strict prefix being smaller),
which agrees with Python wherever Python defines the comparison that the
claims exercise.
-/

namespace Martens

inductive Value (α : Type) where
  | null : Value α
  | int (n : Int) : Value α
  | atom (a : α) : Value α
  | vlist (vs : List (Value α)) : Value α

variable {α : Type} [LinearOrder α]
variable {β : Type}

mutual

/-- Total comparison on cell values (see the header comment): the
documented total order used for every key comparison of the engine. -/
def valueCmp : Value α → Value α → Ordering
  | .null, .null => .eq
  | .null, .int _ => .lt
  | .null, .atom _ => .lt
  | .null, .vlist _ => .lt
  | .int _, .null => .gt
  | .int n, .int m => compare n m
  | .int _, .atom _ => .lt
  | .int _, .vlist _ => .lt
  | .atom _, .null => .gt
  | .atom _, .int _ => .gt
  | .atom a, .atom b => compare a b
  | .atom _, .vlist _ => .lt
  | .vlist _, .null => .gt
  | .vlist _, .int _ => .gt
  | .vlist _, .atom _ => .gt
  | .vlist xs, .vlist ys => listCmp xs ys

/-- Lexicographic comparison of value tuples/lists, mirroring Python's
tuple and list comparison. -/
def listCmp : List (Value α) → List (Value α) → Ordering
  | [], [] => .eq
  | [], _ :: _ => .lt
  | _ :: _, [] => .gt
  | x :: xs, y :: ys =>
    match valueCmp x y with
    | .eq => listCmp xs ys
    | o => o

end

mutual

def valueDecEq : (a b : Value α) → Decidable (a = b)
  | .null, .null => isTrue rfl
  | .null, .int _ => isFalse (fun h => Value.noConfusion h)
  | .null, .atom _ => isFalse (fun h => Value.noConfusion h)
  | .null, .vlist _ => isFalse (fun h => Value.noConfusion h)
  | .int _, .null => isFalse (fun h => Value.noConfusion h)
  | .int n, .int m =>
    match decEq n m with
    | isTrue h => isTrue (h ▸ rfl)
    | isFalse h => isFalse (fun hh => h (Value.int.inj hh))
  | .int _, .atom _ => isFalse (fun h => Value.noConfusion h)
  | .int _, .vlist _ => isFalse (fun h => Value.noConfusion h)
  | .atom _, .null => isFalse (fun h => Value.noConfusion h)
  | .atom _, .int _ => isFalse (fun h => Value.noConfusion h)
  | .atom a, .atom b =>
    match decEq a b with
    | isTrue h => isTrue (h ▸ rfl)
    | isFalse h => isFalse (fun hh => h (Value.atom.inj hh))
  | .atom _, .vlist _ => isFalse (fun h => Value.noConfusion h)
  | .vlist _, .null => isFalse (fun h => Value.noConfusion h)
  | .vlist _, .int _ => isFalse (fun h => Value.noConfusion h)
  | .vlist _, .atom _ => isFalse (fun h => Value.noConfusion h)
  | .vlist xs, .vlist ys =>
    match listDecEq xs ys with
    | isTrue h => isTrue (h ▸ rfl)
    | isFalse h => isFalse (fun hh => h (Value.vlist.inj hh))

def listDecEq : (xs ys : List (Value α)) → Decidable (xs = ys)
  | [], [] => isTrue rfl
  | [], _ :: _ => isFalse (fun h => List.noConfusion h)
  | _ :: _, [] => isFalse (fun h => List.noConfusion h)
  | x :: xs, y :: ys =>
    match valueDecEq x y, listDecEq xs ys with
    | isTrue h1, isTrue h2 => isTrue (h1 ▸ h2 ▸ rfl)
    | isFalse h1, _ => isFalse (fun hh => h1 (List.head_eq_of_cons_eq hh))
    | _, isFalse h2 => isFalse (fun hh => h2 (List.tail_eq_of_cons_eq hh))

end

instance : DecidableEq (Value α) := valueDecEq

/-- A column (or a row, or a key tuple): a list of cell values. -/
abbrev Col (α : Type) := List (Value α)

/-- Non-strict Boolean comparison of value tuples (rows, keys). -/
def tupLeB (xs ys : Col α) : Bool :=
  match listCmp xs ys with
  | .gt => false
  | _ => true

/-- The sort key used by `Dataset.sort`: Python's
`key=lambda x: x[0:len(names)]` compares the first `k` entries of each
row lexicographically. -/
def keyLeB (k : Nat) (r s : Col α) : Bool := tupLeB (r.take k) (s.take k)

/-!
Python's `sorted` is a stable sort (Timsort).  Any two stable sorts with
respect to the same total preorder agree extensionally, so we model
`sorted` by a stable insertion sort, proved below to be a permutation,
to be sorted, and to be stable (it preserves the relative order of any
class of mutually `le`-equivalent elements, expressed by
`filter_sortS`).
-/

/-- Insert `x` before the first element `y` with `le x y` (so after every
strictly smaller prefix): the stable insertion step. -/
def insertS (le : β → β → Bool) (x : β) : List β → List β
  | [] => [x]
  | y :: ys => if le x y then x :: y :: ys else y :: insertS le x ys

/-- Stable insertion sort: the model of Python's stable `sorted`. -/
def sortS (le : β → β → Bool) : List β → List β
  | [] => []
  | x :: xs => insertS le x (sortS le xs)

/-! ## Python container helpers -/

/-- First-occurrence deduplication: our model of reading the distinct
elements of a Python `set` built from a list.  The engine only uses set
cardinality, membership, and the ascending sorted list of the distinct
elements, all of which are independent of the arbitrary iteration order
of a real Python set (the one order-sensitive use, `record_profiles[0]`
in `Dataset.__init__`, is documented at `fromRecords`). -/
def pyDedupAux {β : Type} [DecidableEq β] (seen : List β) : List β → List β
  | [] => []
  | x :: xs => if x ∈ seen then pyDedupAux seen xs else x :: pyDedupAux (x :: seen) xs

def pyDedup {β : Type} [DecidableEq β] (l : List β) : List β := pyDedupAux [] l

/-- One Python `dict` assignment `d[k] = v`: update the value in place
(keeping the key's position) if the key exists, else append at the end. -/
def dinsert {β : Type} (m : List (String × β)) (k : String) (v : β) : List (String × β) :=
  if m.any (fun p => p.1 == k) then
    m.map (fun p => if p.1 == k then (k, v) else p)
  else m ++ [(k, v)]

/-- A Python dict literal or comprehension, built from its key-value
pairs in order by repeated assignment. -/
def dictOf {β : Type} (ps : List (String × β)) : List (String × β) :=
  ps.foldl (fun m p => dinsert m p.1 p.2) []

/-- Python `m[k]` as an `Option` (`none` models a raised `KeyError`). -/
def dget {β : Type} (m : List (String × β)) (k : String) : Option β :=
  (m.find? (fun p => p.1 == k)).map Prod.snd

/-- Update the value stored at key `k` (no-op for an absent key; call
sites always look the key up first). -/
def dset {β : Type} (m : List (String × β)) (k : String) (v : β) : List (String × β) :=
  m.map (fun p => if p.1 == k then (k, v) else p)

/-! ## The Dataset model -/

/-- The `Dataset` data model (source line 13): a Python `dict` subclass
mapping column names, in insertion order, to columns.  Mutations of the
underlying dict in the source are modelled by rebuilding this
association list. -/
structure Dataset (α : Type) where
  cols : List (String × Col α)

instance : DecidableEq (Dataset α) := fun d e =>
  match d, e with
  | ⟨c1⟩, ⟨c2⟩ =>
    match decEq c1 c2 with
    | isTrue h => isTrue (h ▸ rfl)
    | isFalse h => isFalse (fun hh => h (congrArg Dataset.cols hh))

/-- Python `self.columns`: the column names in insertion order. -/
def Dataset.colNames (d : Dataset α) : List String := d.cols.map Prod.fst

/-- Python `self[col]` at call sites where the engine has already
ensured the column exists (missing names yield `[]`; every call site
where Python could raise `KeyError` is modelled with `dget` instead). -/
def Dataset.getCol (d : Dataset α) (c : String) : Col α :=
  ((d.cols.find? (fun p => p.1 == c)).map Prod.snd).getD []

/-- Python `zip(*lists)`: truncates to the shortest input; `zip()` of an
empty argument list is empty. -/
def minLen {β : Type} (ls : List (List β)) : Nat :=
  match ls with
  | [] => 0
  | l :: ls' => ls'.foldl (fun n l' => min n l'.length) l.length

def pyZip (ls : List (Col α)) : List (Col α) :=
  (List.range (minLen ls)).map (fun i => ls.map (fun l => l.getD i .null))

/-- The rows of the table (Python `self.rows`/`zip(*columns)`). -/
def Dataset.rows (d : Dataset α) : List (Col α) := pyZip (d.cols.map Prod.snd)

/-- Python `self.records`: one dict per row. -/
def Dataset.records (d : Dataset α) : List (List (String × Value α)) :=
  d.rows.map (fun r => d.colNames.zip r)

/-- Python `self.record_length` (`len(self.records)`). -/
def Dataset.recordCount (d : Dataset α) : Nat := d.rows.length

/-- Invariant I1 (rectangularity): all columns have equal length. -/
def Dataset.rect (d : Dataset α) : Bool :=
  match d.cols with
  | [] => true
  | c :: cs => cs.all (fun p => p.2.length == c.2.length)

/-- Source `Dataset.__init__` from a column map (source lines 23-32,
`sanitise_names=False`): asserts that the number of distinct column
lengths is at most one (`len(list(set(...))) <= 1`). -/
def mkDataset (cols : List (String × Col α)) : Option (Dataset α) :=
  if (pyDedup (cols.map (fun p => p.2.length))).length ≤ 1 then some (Dataset.mk cols) else none

/-! ## sort -/

/-- Source `Dataset.sort` (source lines 232-238) with the default
`reverse=False` (the only value the claims and the internal callers
`group_by`/`merge` use).  Python's stable `sorted` is modelled by
`sortS`; the key `lambda x: x[0:len(names)]` is `keyLeB names.length`.
Note the final comprehension `{col: rtn[col] for col in sort_order}`
raises `KeyError` whenever `sorted_data` is empty while `sort_order` is
not (a 0-row table with at least one column): `rtn` is then the empty
dict.  The `none` results model exactly the raised exceptions. -/
def sortOrder (d : Dataset α) (names : List String) : List String :=
  names ++ d.colNames.filter (fun c => !names.contains c)

/-- The rows of `d` read in the column order `order`
(`zip(*[self[col] for col in order])`). -/
def rowsOrdered (d : Dataset α) (order : List String) : List (Col α) :=
  pyZip (order.map d.getCol)

def sortD (d : Dataset α) (names : List String) : Option (Dataset α) :=
  if names.all (fun n => d.colNames.contains n) then
    let order := sortOrder d names
    let sortedRows := sortS (keyLeB names.length) (rowsOrdered d order)
    let rtn := dictOf (order.zip (pyZip sortedRows))
    match order.mapM (fun c => dget rtn c) with
    | some vals => mkDataset (dictOf (order.zip vals))
    | none => none
  else none

/-- The common column length of a rectangular table (0 if no columns). -/
def Dataset.colLen (d : Dataset α) : Nat :=
  match d.cols with
  | [] => 0
  | c :: _ => c.2.length

/-! ## group_by -/

/-- Python `rtn[col].append(v)` (`KeyError` when the column is absent). -/
def appendAt (m : List (String × Col α)) (k : String) (v : Value α) :
    Option (List (String × Col α)) :=
  (dget m k).bind (fun l => some (dset m k (l ++ [v])))

/-- Python `rtn[o][-1].append(v)`: the last cell of column `o` must be a
list cell (otherwise Python raises `AttributeError`). -/
def appendLastAt (m : List (String × Col α)) (k : String) (v : Value α) :
    Option (List (String × Col α)) :=
  (dget m k).bind (fun l =>
    match l.getLast? with
    | some (.vlist vs) => some (dset m k (l.dropLast ++ [.vlist (vs ++ [v])]))
    | _ => none)

/-- Python `rtn[count][-1] = rtn[count][-1] + 1`: the last cell of the
count column must be an int (otherwise Python raises `TypeError`). -/
def incrLastAt (m : List (String × Col α)) (k : String) :
    Option (List (String × Col α)) :=
  (dget m k).bind (fun l =>
    match l.getLast? with
    | some (.int n) => some (dset m k (l.dropLast ++ [.int (n + 1)]))
    | _ => none)

/-- The `[count]`/`[]` appendix of the dict key list. -/
def cntList (cnt : Option String) : List String :=
  match cnt with
  | some c => [c]
  | none => []

/-- One iteration of the `for rec in sorts.records` loop of `group_by`
(source lines 255-269); the state is `(last_grouped, rtn)`. -/
def groupStep (gcols ocols : List String) (cnt : Option String)
    (st : Option (List (Value α)) × List (String × Col α))
    (rec : List (String × Value α)) :
    Option (Option (List (Value α)) × List (String × Col α)) := do
  let grouped ← gcols.mapM (fun g => dget rec g)
  if some grouped = st.1 then
    let rtn ← ocols.foldlM (fun m o => do appendLastAt m o (← dget rec o)) st.2
    let rtn ← cnt.elim (pure rtn) (fun c => incrLastAt rtn c)
    pure (some grouped, rtn)
  else
    let rtn ← gcols.foldlM (fun m g => do appendAt m g (← dget rec g)) st.2
    let rtn ← ocols.foldlM (fun m o => do appendAt m o (.vlist [← dget rec o])) rtn
    let rtn ← cnt.elim (pure rtn) (fun c => appendAt rtn c (.int 1))
    pure (some grouped, rtn)

/-- Source `Dataset.group_by` (source lines 240-271).  `ocolsOpt = none` models
the Python default `other_cols=None` (all non-grouping columns). -/
def groupByD (d : Dataset α) (gcols : List String)
    (ocolsOpt : Option (List String)) (cnt : Option String) : Option (Dataset α) :=
  let ocols := match ocolsOpt with
    | none => d.colNames.filter (fun c => !gcols.contains c)
    | some oc => oc
  match sortD d gcols with
  | none => none
  | some sorts => do
    let init := dictOf ((gcols ++ ocols ++ cntList cnt).map (fun c => (c, ([] : Col α))))
    let st ← sorts.records.foldlM (groupStep gcols ocols cnt)
      ((none, init) : Option (List (Value α)) × List (String × Col α))
    mkDataset st.2

/-! Claim-level descriptions of the group-by result. -/

/-- The grouping-key tuple of row `i` of `d`. -/
def Dataset.keyAt (d : Dataset α) (gcols : List String) (i : Nat) : Col α :=
  gcols.map (fun g => (d.getCol g).getD i .null)

/-- The key tuples of all rows of `d`, in row order. -/
def Dataset.keysOf (d : Dataset α) (gcols : List String) : List (Col α) :=
  (List.range d.recordCount).map (d.keyAt gcols)

/-- Python `sorted(someSet)` where the set was built from `ks`: the
distinct elements in ascending order. -/
def sortedKeys (ks : List (Col α)) : List (Col α) := sortS tupLeB (pyDedup ks)

/-- The values of column `o` in the rows of `d` whose key tuple is `t`,
in original row order. -/
def groupVals (d : Dataset α) (gcols : List String) (o : String) (t : Col α) : Col α :=
  ((List.range d.recordCount).filter (fun i => d.keyAt gcols i == t)).map
    (fun i => (d.getCol o).getD i .null)

/-- The number of rows of `d` whose key tuple is `t`. -/
def groupSize (d : Dataset α) (gcols : List String) (t : Col α) : Nat :=
  ((List.range d.recordCount).filter (fun i => d.keyAt gcols i == t)).length

/-! ## The group_by accumulator invariant -/

/-- The value of column `c` in the group-by accumulator after processing
the rows `p` (each row a full sorted-row tuple; a row's key is its first
`gcols.length` entries). -/
def gbVal (gcols ocols order : List String) (p : List (Col α)) (c : String) : Col α :=
  let dk := pyDedup (p.map (fun r => r.take gcols.length))
  if c ∈ gcols then dk.map (fun t => t.getD (gcols.indexOf c) .null)
  else if c ∈ ocols then
    dk.map (fun t => .vlist ((p.filter (fun r => r.take gcols.length == t)).map
      (fun r => r.getD (order.indexOf c) .null)))
  else dk.map (fun t => .int ((p.countP (fun r => r.take gcols.length == t) : Nat) : Int))

/-- The fold state `(last_grouped, rtn)` after processing the rows `p`. -/
def gbState (gcols ocols order : List String) (cnt : Option String) (p : List (Col α)) :
    Option (List (Value α)) × List (String × Col α) :=
  ((p.getLast?).map (fun r => r.take gcols.length),
    (gcols ++ ocols ++ cntList cnt).map (fun c => (c, gbVal gcols ocols order p c)))

/-- Source `Dataset.full_outer_merge` (source lines 361-368): requires the two
column-name sets to be disjoint (the `assert` compares the column counts
with the size of the `set` of all names), then builds the cartesian
product: each left value repeated once per right row, each right column
tiled once per left row. -/
def fullOuterMergeD (l r : Dataset α) : Option (Dataset α) :=
  if l.colNames.length + r.colNames.length
      = (pyDedup (l.colNames ++ r.colNames)).length then
    mkDataset
      ((l.colNames.map (fun c =>
          (c, (l.getCol c).flatMap (fun v => List.replicate r.recordCount v)))) ++
       (r.colNames.map (fun c =>
          (c, (List.replicate l.recordCount (r.getCol c)).flatten))))
  else none

/-- The `while` loop of the merge scan (source lines 328-335):
`if key_tuple < key` advance, `elif key_tuple == key` collect and
advance, `else break`, phrased over the remaining suffix of the zipped
rows.  Returns `(to_add, remaining suffix)`. -/
def scanRun (onLen : Nat) (key : Col α) : List (Col α) → (List (Col α) × List (Col α))
  | [] => ([], [])
  | r :: rest =>
    match listCmp (r.take onLen) key with
    | .lt => scanRun onLen key rest
    | .eq =>
      let pr := scanRun onLen key rest
      (r :: pr.1, pr.2)
    | .gt => ([], r :: rest)

/-- One side of the `left_organised`/`right_organised` construction
(source lines 323-342): for each key of `all_keys` in order, the
matching run of rows, substituting the null pseudo-row
`[[None] * len(left_columns)]` (the LEFT column count, for either side)
when the run is empty and the mode keeps unmatched keys of this side. -/
def organiseGo (onLen : Nat) (pad : Bool) (lcl : Nat) :
    List (Col α) → List (Col α) → List (List (Col α))
  | [], _ => []
  | key :: keys, zipped =>
    let pr := scanRun onLen key zipped
    (if pr.1.isEmpty && pad then [List.replicate lcl (Value.null : Value α)] else pr.1)
      :: organiseGo onLen pad lcl keys pr.2

/-- One output row of the merge emission (source lines 345-357): append
the key components and both sides' non-key values to the accumulating
columns (`rtn[col].append(...)`).  Row indexing is fallible, modelling
the `IndexError` when a null pseudo-row (of left-column width) is
indexed past its end by a wider right column list. -/
def emitOne (onCols leftCols rightCols : List String) (key la ra : Col α)
    (m : List (String × Col α)) : Option (List (String × Col α)) := do
  let m1 ← onCols.enum.foldlM (fun m p => do
    appendAt m p.2 (← key[p.1]?)) m
  let m2 ← leftCols.enum.foldlM (fun m p =>
    if p.2 ∈ onCols then pure m
    else do appendAt m p.2 (← la[p.1]?)) m1
  rightCols.enum.foldlM (fun m p =>
    if p.2 ∈ onCols then pure m
    else do appendAt m p.2 (← ra[p.1]?)) m2

/-- The two inner `for` loops of the emission: every pair of a left-run
row and a right-run row emits one output row. -/
def emitKey (onCols leftCols rightCols : List String) (key : Col α)
    (lta rta : List (Col α)) (m : List (String × Col α)) :
    Option (List (String × Col α)) :=
  lta.foldlM (fun m la => rta.foldlM (fun m ra =>
    emitOne onCols leftCols rightCols key la ra m) m) m

/-- The key set of one sorted side:
`set(tuple(rec[key] for key in onCols) for rec in sorted.records)`, with
Python's `set` modelled as first-occurrence deduplication (every use is
fed to `sorted(...)`, which canonicalises the order). -/
def sideKeys (d : Dataset α) (onCols : List String) : Option (List (Col α)) := do
  let ks ← d.records.mapM (fun rec => onCols.mapM (fun k => dget rec k))
  pure (pyDedup ks)

/-- The `all_keys` selection of `Dataset.merge` (source lines 313-321):
set intersection/union modelled on the first-occurrence `pyDedup` lists,
then `sorted`. -/
def allKeysOf (how : String) (lkeys rkeys : List (Col α)) : List (Col α) :=
  if how = "inner" then sortS tupLeB (lkeys.filter (fun t => rkeys.contains t))
  else if how = "right" then sortS tupLeB rkeys
  else if how = "left" then sortS tupLeB lkeys
  else sortS tupLeB (pyDedup (lkeys ++ rkeys))

/-- Source `Dataset.merge` (source lines 280-359).  The `how` assertion fires
before the `on is None` check; the initial `rtn` dict of empty columns
always passes the constructor's length check and is then mutated by
appends with no further validation (so the result can be ragged). -/
def mergeD (l r : Dataset α) (onOpt : Option (List String)) (how : String) :
    Option (Dataset α) :=
  if how ∈ ["inner", "left", "right", "full"] then
    match onOpt with
    | none => fullOuterMergeD l r
    | some onCols =>
      match sortD l onCols, sortD r onCols with
      | some ls, some rs => do
        let lkeys ← sideKeys ls onCols
        let rkeys ← sideKeys rs onCols
        let st ← ((allKeysOf how lkeys rkeys).zip
            ((organiseGo onCols.length (!(how == "left" || how == "inner"))
              ls.colNames.length (allKeysOf how lkeys rkeys)
              (pyZip (ls.colNames.map ls.getCol))).zip
             (organiseGo onCols.length (!(how == "right" || how == "inner"))
              ls.colNames.length (allKeysOf how lkeys rkeys)
              (pyZip (rs.colNames.map rs.getCol))))).foldlM
          (fun m t => emitKey onCols ls.colNames rs.colNames t.1 t.2.1 t.2.2 m)
          (dictOf ((ls.colNames ++ rs.colNames.filter
            (fun c => !ls.colNames.contains c)).map (fun c => (c, ([] : Col α)))))
        pure (Dataset.mk st)
      | _, _ => none
  else none

/-- Source `Dataset.rename` (source lines 370-371).  The dict comprehension
silently merges colliding new names (the later column wins); the
constructor re-checks only the lengths. -/
def renameD (d : Dataset α) (rmap : List (String × String)) : Option (Dataset α) :=
  mkDataset (dictOf (d.colNames.map (fun c => ((dget rmap c).getD c, d.getCol c))))

/-- The list-of-records branch of `Dataset.__init__` (source lines
33-38): the column set is `record_profiles[0]` — the key tuple of a
single record profile (Python's `set` modelled, as everywhere here, in
first-occurrence order, so the first record's keys); keys a record
lacks become null; an empty record list raises `IndexError`. -/
def fromRecords (recs : List (List (String × Value α))) : Option (Dataset α) :=
  match pyDedup (recs.map (fun rec => rec.map Prod.fst)) with
  | [] => none
  | profile :: _ =>
    some (Dataset.mk (profile.map (fun c =>
      (c, recs.map (fun rec => (dget rec c).getD .null)))))

/-- The per-column value contributed by one emitted merge row. -/
def mval (onCols leftCols rightCols : List String) (key la ra : Col α) (c : String) :
    Value α :=
  if c ∈ onCols then key.getD (onCols.indexOf c) .null
  else if c ∈ leftCols then la.getD (leftCols.indexOf c) .null
  else ra.getD (rightCols.indexOf c) .null

/-! ## Theorems -/

theorem valueCmp_eq_and_listCmp_eq :
    (∀ a b : Value α, valueCmp a b = .eq ↔ a = b) ∧
    (∀ xs ys : List (Value α), listCmp xs ys = .eq ↔ xs = ys) := by
  apply valueCmp.mutual_induct <;> intros <;>
    simp_all [valueCmp, listCmp, compare_eq_iff_eq]

theorem valueCmp_eq_iff (a b : Value α) : valueCmp a b = .eq ↔ a = b :=
  valueCmp_eq_and_listCmp_eq.1 a b

theorem listCmp_eq_iff (xs ys : List (Value α)) : listCmp xs ys = .eq ↔ xs = ys :=
  valueCmp_eq_and_listCmp_eq.2 xs ys

theorem compareSwap {β : Type} [LinearOrder β] (a b : β) : (compare a b).swap = compare b a := by
  rcases lt_trichotomy a b with h | h | h
  · rw [compare_lt_iff_lt.mpr h, compare_gt_iff_gt.mpr h]; rfl
  · subst h; rw [compare_eq_iff_eq.mpr rfl]; rfl
  · rw [compare_gt_iff_gt.mpr h, compare_lt_iff_lt.mpr h]; rfl

theorem valueCmp_swap_and_listCmp_swap :
    (∀ a b : Value α, (valueCmp a b).swap = valueCmp b a) ∧
    (∀ xs ys : List (Value α), (listCmp xs ys).swap = listCmp ys xs) := by
  apply valueCmp.mutual_induct <;> intros <;> simp only [valueCmp, listCmp] <;> try rfl
  case case6 n m => exact compareSwap n m
  case case11 a b => exact compareSwap a b
  case case16 xs ys ih => exact ih
  case case20 x xs y ys h ih1 ih2 =>
    have h' : valueCmp y x = .eq := by rw [← ih1, h]; rfl
    rw [h, h', ih2]
  case case21 x xs y ys hne ih1 =>
    cases h : valueCmp x y with
    | eq => exact absurd h hne
    | lt =>
      have h' : valueCmp y x = .gt := by rw [← ih1, h]; rfl
      rw [h']; rfl
    | gt =>
      have h' : valueCmp y x = .lt := by rw [← ih1, h]; rfl
      rw [h']; rfl

theorem valueCmp_swap (a b : Value α) : (valueCmp a b).swap = valueCmp b a :=
  valueCmp_swap_and_listCmp_swap.1 a b

theorem listCmp_swap (xs ys : List (Value α)) : (listCmp xs ys).swap = listCmp ys xs :=
  valueCmp_swap_and_listCmp_swap.2 xs ys

theorem valueCmp_self (a : Value α) : valueCmp a a = .eq := (valueCmp_eq_iff a a).mpr rfl

theorem valueCmp_lt_trans :
    ∀ (n : Nat) (a b c : Value α), sizeOf a + sizeOf b + sizeOf c ≤ n →
      valueCmp a b = .lt → valueCmp b c = .lt → valueCmp a c = .lt := by
  intro n
  induction n with
  | zero =>
    intro a b c h
    cases a <;> simp_all
  | succ n ih =>
    intro a b c hsize hab hbc
    rcases a with _ | na | aa | as <;> rcases b with _ | nb | ab | bs <;>
      rcases c with _ | nc | ac | cs <;>
      simp_all [valueCmp] <;> try rfl
    · exact compare_lt_iff_lt.mpr (lt_trans (compare_lt_iff_lt.mp hab) (compare_lt_iff_lt.mp hbc))
    · exact compare_lt_iff_lt.mpr (lt_trans (compare_lt_iff_lt.mp hab) (compare_lt_iff_lt.mp hbc))
    · -- the list/list/list case: lexicographic transitivity
      rcases as with _ | ⟨x, xs⟩ <;> rcases bs with _ | ⟨y, ys⟩ <;>
        rcases cs with _ | ⟨z, zs⟩ <;> simp_all [listCmp]
      rcases hxy : valueCmp x y with _ | _ | _ <;> rw [hxy] at hab <;>
        rcases hyz : valueCmp y z with _ | _ | _ <;> rw [hyz] at hbc <;>
        try simp_all
      · -- heads strictly less on both sides
        have hxz : valueCmp x z = .lt := by
          apply ih x y z ?_ hxy hyz
          try simp at hsize
          omega
        rw [hxz]
      · -- x < y, y = z
        have : y = z := (valueCmp_eq_iff y z).mp hyz
        subst this
        rw [hxy]
      · -- x = y, y < z
        have : x = y := (valueCmp_eq_iff x y).mp hxy
        subst this
        rw [hyz]
      · -- heads equal on both sides: recurse on the tails
        have hxy' : x = y := (valueCmp_eq_iff x y).mp hxy
        have hyz' : y = z := (valueCmp_eq_iff y z).mp hyz
        subst hxy'; subst hyz'
        rw [valueCmp_self]
        have := ih (.vlist xs) (.vlist ys) (.vlist zs) ?_ ?_ ?_
        · simpa [valueCmp] using this
        · try simp at hsize
          try simp
          omega
        · simpa [valueCmp] using hab
        · simpa [valueCmp] using hbc

theorem valueCmp_lt_trans' {a b c : Value α}
    (hab : valueCmp a b = .lt) (hbc : valueCmp b c = .lt) : valueCmp a c = .lt :=
  valueCmp_lt_trans (sizeOf a + sizeOf b + sizeOf c) a b c le_rfl hab hbc

theorem listCmp_lt_trans {xs ys zs : List (Value α)}
    (hab : listCmp xs ys = .lt) (hbc : listCmp ys zs = .lt) : listCmp xs zs = .lt :=
  valueCmp_lt_trans' (a := .vlist xs) (b := .vlist ys) (c := .vlist zs) hab hbc

theorem tupLeB_refl (xs : Col α) : tupLeB xs xs = true := by
  simp [tupLeB, (listCmp_eq_iff xs xs).mpr rfl]

theorem tupLeB_of_eq {xs ys : Col α} (h : xs = ys) : tupLeB xs ys = true := h ▸ tupLeB_refl xs

theorem tupLeB_total (xs ys : Col α) : tupLeB xs ys = true ∨ tupLeB ys xs = true := by
  unfold tupLeB
  cases h : listCmp xs ys with
  | lt => left; rfl
  | eq => left; rfl
  | gt =>
    right
    have := listCmp_swap xs ys
    rw [h] at this
    rw [← this]
    rfl

theorem tupLeB_trans {xs ys zs : Col α}
    (h1 : tupLeB xs ys = true) (h2 : tupLeB ys zs = true) : tupLeB xs zs = true := by
  unfold tupLeB at *
  cases hxy : listCmp xs ys with
  | gt => rw [hxy] at h1; exact absurd h1 (by simp)
  | eq =>
    have : xs = ys := (listCmp_eq_iff xs ys).mp hxy
    subst this
    exact h2
  | lt =>
    cases hyz : listCmp ys zs with
    | gt => rw [hyz] at h2; exact absurd h2 (by simp)
    | eq =>
      have : ys = zs := (listCmp_eq_iff ys zs).mp hyz
      subst this
      rw [hxy]
    | lt => rw [listCmp_lt_trans hxy hyz]

theorem tupLeB_antisymm {xs ys : Col α}
    (h1 : tupLeB xs ys = true) (h2 : tupLeB ys xs = true) : xs = ys := by
  unfold tupLeB at *
  cases hxy : listCmp xs ys with
  | eq => exact (listCmp_eq_iff xs ys).mp hxy
  | gt => rw [hxy] at h1; exact absurd h1 (by simp)
  | lt =>
    have hswap := listCmp_swap xs ys
    rw [hxy] at hswap
    rw [← hswap] at h2
    exact absurd h2 (by decide)

theorem keyLeB_total (k : Nat) (r s : Col α) : keyLeB k r s = true ∨ keyLeB k s r = true :=
  tupLeB_total _ _

theorem keyLeB_trans (k : Nat) {r s t : Col α}
    (h1 : keyLeB k r s = true) (h2 : keyLeB k s t = true) : keyLeB k r t = true :=
  tupLeB_trans h1 h2

theorem insertS_perm (le : β → β → Bool) (x : β) (l : List β) :
    (insertS le x l).Perm (x :: l) := by
  induction l with
  | nil => simp [insertS]
  | cons y ys ih =>
    simp only [insertS]
    split
    · exact List.Perm.refl _
    · exact (ih.cons y).trans (List.Perm.swap x y ys)

theorem sortS_perm (le : β → β → Bool) (l : List β) : (sortS le l).Perm l := by
  induction l with
  | nil => simp [sortS]
  | cons x xs ih => exact (insertS_perm le x (sortS le xs)).trans (ih.cons x)

theorem length_sortS (le : β → β → Bool) (l : List β) :
    (sortS le l).length = l.length := (sortS_perm le l).length_eq

theorem mem_sortS {le : β → β → Bool} {l : List β} {a : β} :
    a ∈ sortS le l ↔ a ∈ l := (sortS_perm le l).mem_iff

theorem insertS_pairwise {le : β → β → Bool}
    (htot : ∀ a b, le a b = true ∨ le b a = true)
    (htrans : ∀ {a b c}, le a b = true → le b c = true → le a c = true)
    (x : β) {l : List β} (hl : l.Pairwise (fun a b => le a b = true)) :
    (insertS le x l).Pairwise (fun a b => le a b = true) := by
  induction l with
  | nil => simp [insertS]
  | cons y ys ih =>
    rcases List.pairwise_cons.mp hl with ⟨hy, hys⟩
    simp only [insertS]
    split
    · next h =>
      refine List.pairwise_cons.mpr ⟨?_, hl⟩
      intro z hz
      rcases List.mem_cons.mp hz with rfl | hz'
      · exact h
      · exact htrans h (hy z hz')
    · next h =>
      have hyx : le y x = true := by
        rcases htot x y with h' | h'
        · exact absurd h' h
        · exact h'
      refine List.pairwise_cons.mpr ⟨?_, ih hys⟩
      intro z hz
      rcases List.mem_cons.mp ((insertS_perm le x ys).mem_iff.mp hz) with rfl | hz'
      · exact hyx
      · exact hy z hz'

theorem sortS_pairwise {le : β → β → Bool}
    (htot : ∀ a b, le a b = true ∨ le b a = true)
    (htrans : ∀ {a b c}, le a b = true → le b c = true → le a c = true)
    (l : List β) : (sortS le l).Pairwise (fun a b => le a b = true) := by
  induction l with
  | nil => simp [sortS]
  | cons x xs ih => exact insertS_pairwise htot htrans x ih

/-- Stability of the insertion step on any `le`-saturated class `p`. -/
theorem filter_insertS {le : β → β → Bool} (p : β → Bool)
    (hp : ∀ a b, p a = true → p b = true → le a b = true)
    (x : β) (l : List β) :
    (insertS le x l).filter p = if p x then x :: l.filter p else l.filter p := by
  induction l with
  | nil => simp only [insertS, List.filter]; split <;> simp_all
  | cons y ys ih =>
    simp only [insertS]
    split
    · next h => simp only [List.filter]; split <;> simp_all
    · next h =>
      by_cases hx : p x = true
      · have hy : p y = false := by
          cases hy : p y
          · rfl
          · exact absurd (hp x y hx hy) (by simpa using h)
        simp only [List.filter_cons, hy, ih, hx, if_true, if_false]
        simp
      · have hx' : p x = false := by simpa using hx
        simp only [List.filter_cons, ih, hx', if_false]
        split <;> rfl

/-- Stability of the sort: applied to the class of rows with one fixed
key, it says the sorted list enumerates that key's rows in their
original relative order. -/
theorem filter_sortS {le : β → β → Bool} (p : β → Bool)
    (hp : ∀ a b, p a = true → p b = true → le a b = true)
    (l : List β) : (sortS le l).filter p = l.filter p := by
  induction l with
  | nil => simp [sortS]
  | cons x xs ih =>
    simp only [sortS, filter_insertS p hp, List.filter_cons, ih]

/-- Sorting an already-sorted list is the identity. -/
theorem sortS_of_pairwise {le : β → β → Bool} {l : List β}
    (hl : l.Pairwise (fun a b => le a b = true)) : sortS le l = l := by
  induction l with
  | nil => rfl
  | cons x xs ih =>
    rcases List.pairwise_cons.mp hl with ⟨hx, hxs⟩
    rw [sortS, ih hxs]
    cases xs with
    | nil => rfl
    | cons y ys => simp [insertS, hx y (List.mem_cons_self y ys)]

/-- Two strictly-sorted lists with the same members are equal. -/
theorem pairwise_eq_of_mem_iff {r : β → β → Prop}
    (hirr : ∀ a, ¬ r a a) (htr : ∀ {a b c}, r a b → r b c → r a c) :
    ∀ {l₁ l₂ : List β}, l₁.Pairwise r → l₂.Pairwise r →
      (∀ a, a ∈ l₁ ↔ a ∈ l₂) → l₁ = l₂ := by
  intro l₁
  induction l₁ with
  | nil =>
    intro l₂ _ _ hmem
    cases l₂ with
    | nil => rfl
    | cons y ys => exact absurd ((hmem y).mpr (List.mem_cons_self y ys)) (List.not_mem_nil y)
  | cons x xs ih =>
    intro l₂ h₁ h₂ hmem
    cases l₂ with
    | nil => exact absurd ((hmem x).mp (List.mem_cons_self x xs)) (List.not_mem_nil x)
    | cons y ys =>
      rcases List.pairwise_cons.mp h₁ with ⟨hx, hxs⟩
      rcases List.pairwise_cons.mp h₂ with ⟨hy, hys⟩
      have hxy : x = y := by
        rcases List.mem_cons.mp ((hmem x).mp (List.mem_cons_self x xs)) with h | h
        · exact h
        · rcases List.mem_cons.mp ((hmem y).mpr (List.mem_cons_self y ys)) with h' | h'
          · exact h'.symm
          · exact absurd (htr (hx y h') (hy x h)) (hirr x)
      subst hxy
      have htails : ∀ a, a ∈ xs ↔ a ∈ ys := by
        intro a
        constructor
        · intro ha
          rcases List.mem_cons.mp ((hmem a).mp (List.mem_cons_of_mem x ha)) with h | h
          · exact absurd (h ▸ hx a ha) (hirr a)
          · exact h
        · intro ha
          rcases List.mem_cons.mp ((hmem a).mpr (List.mem_cons_of_mem x ha)) with h | h
          · exact absurd (h ▸ hy a ha) (hirr a)
          · exact h
      rw [ih hxs hys htails]

theorem mem_pyDedupAux {β : Type} [DecidableEq β] :
    ∀ (l seen : List β) (a : β), a ∈ pyDedupAux seen l ↔ a ∈ l ∧ a ∉ seen := by
  intro l
  induction l with
  | nil => simp [pyDedupAux]
  | cons x xs ih =>
    intro seen a
    by_cases hx : x ∈ seen
    · rw [pyDedupAux, if_pos hx, ih]
      constructor
      · rintro ⟨h1, h2⟩
        exact ⟨List.mem_cons_of_mem x h1, h2⟩
      · rintro ⟨h1, h2⟩
        rcases List.mem_cons.mp h1 with rfl | h1
        · exact absurd hx h2
        · exact ⟨h1, h2⟩
    · rw [pyDedupAux, if_neg hx]
      by_cases hax : a = x
      · subst hax; simp [hx]
      · simp only [List.mem_cons, hax, false_or]
        rw [ih]
        simp only [List.mem_cons, hax, false_or]

theorem mem_pyDedup {β : Type} [DecidableEq β] (l : List β) (a : β) :
    a ∈ pyDedup l ↔ a ∈ l := by
  rw [pyDedup, mem_pyDedupAux]
  simp

theorem nodup_pyDedupAux {β : Type} [DecidableEq β] :
    ∀ (l seen : List β), (pyDedupAux seen l).Nodup := by
  intro l
  induction l with
  | nil => simp [pyDedupAux]
  | cons x xs ih =>
    intro seen
    by_cases hx : x ∈ seen
    · rw [pyDedupAux, if_pos hx]; exact ih seen
    · rw [pyDedupAux, if_neg hx]
      refine List.nodup_cons.mpr ⟨?_, ih (x :: seen)⟩
      intro hmem
      exact ((mem_pyDedupAux xs (x :: seen) x).mp hmem).2 (List.mem_cons_self x seen)

theorem nodup_pyDedup {β : Type} [DecidableEq β] (l : List β) : (pyDedup l).Nodup :=
  nodup_pyDedupAux l []

theorem dictOf_go {β : Type} :
    ∀ (ps acc : List (String × β)),
      (∀ p ∈ ps, ∀ q ∈ acc, p.1 ≠ q.1) → (ps.map Prod.fst).Nodup →
      ps.foldl (fun m p => dinsert m p.1 p.2) acc = acc ++ ps := by
  intro ps
  induction ps with
  | nil => intro acc _ _; simp
  | cons p ps ih =>
    intro acc hdisj hnd
    rw [List.map_cons, List.nodup_cons] at hnd
    simp only [List.foldl_cons]
    have hnotin : acc.any (fun q => q.1 == p.1) = false := by
      rw [List.any_eq_false]
      intro q hq
      simpa using (hdisj p (List.mem_cons_self p ps) q hq).symm
    rw [dinsert, hnotin]
    simp only [Bool.false_eq_true, if_false]
    rw [ih (acc ++ [p]) ?_ ?_]
    · simp
    · intro r hr q hq
      rcases List.mem_append.mp hq with h | h
      · exact hdisj r (List.mem_cons_of_mem p hr) q h
      · rcases List.mem_singleton.mp h with rfl
        intro hc
        exact hnd.1 (hc ▸ List.mem_map_of_mem Prod.fst hr)
    · exact hnd.2

/-- A dict built from pairs with pairwise-distinct keys is just the
pair list itself. -/
theorem dictOf_eq_self {β : Type} (ps : List (String × β))
    (h : (ps.map Prod.fst).Nodup) : dictOf ps = ps := by
  simpa using dictOf_go ps [] (by simp) h

theorem dget_cons_self {β : Type} {k : String} {v : β} {m : List (String × β)} :
    dget ((k, v) :: m) k = some v := by
  simp [dget, List.find?]

theorem dget_cons_ne {β : Type} {k k' : String} {v : β} {m : List (String × β)}
    (h : k' ≠ k) : dget ((k, v) :: m) k' = dget m k' := by
  simp [dget, List.find?, beq_false_of_ne (Ne.symm h)]

/-! ## Transpose lemmas -/

theorem foldl_min_const {β : Type} (L : Nat) :
    ∀ ls : List (List β), (∀ l ∈ ls, l.length = L) →
      ls.foldl (fun n l' => min n l'.length) L = L := by
  intro ls
  induction ls with
  | nil => intro _; rfl
  | cons l ls ih =>
    intro h
    simp only [List.foldl_cons]
    rw [h l (List.mem_cons_self l ls), min_self]
    exact ih (fun l' hl' => h l' (List.mem_cons_of_mem l hl'))

theorem minLen_eq {β : Type} {ls : List (List β)} {L : Nat}
    (hne : ls ≠ []) (hu : ∀ l ∈ ls, l.length = L) : minLen ls = L := by
  cases ls with
  | nil => exact absurd rfl hne
  | cons l ls' =>
    rw [minLen, hu l (List.mem_cons_self l ls')]
    exact foldl_min_const L ls' (fun l' h => hu l' (List.mem_cons_of_mem l h))

theorem pyZip_length {ls : List (Col α)} {L : Nat}
    (hne : ls ≠ []) (hu : ∀ l ∈ ls, l.length = L) : (pyZip ls).length = L := by
  simp [pyZip, minLen_eq hne hu]

theorem pyZip_getElem {ls : List (Col α)} {i : Nat} (hi : i < (pyZip ls).length) :
    (pyZip ls)[i] = ls.map (fun l => l.getD i .null) := by
  simp [pyZip] at hi ⊢

theorem pyZip_mem {ls : List (Col α)} {r : Col α} (hr : r ∈ pyZip ls) :
    ∃ i < minLen ls, r = ls.map (fun l => l.getD i .null) := by
  simp only [pyZip, List.mem_map, List.mem_range] at hr
  obtain ⟨i, hi, rfl⟩ := hr
  exact ⟨i, hi, rfl⟩

theorem pyZip_mem_length {ls : List (Col α)} {r : Col α} (hr : r ∈ pyZip ls) :
    r.length = ls.length := by
  obtain ⟨i, _, rfl⟩ := pyZip_mem hr
  simp

theorem range_map_getD {β : Type} (l : List β) (dflt : β) :
    (List.range l.length).map (fun i => l.getD i dflt) = l := by
  apply List.ext_getElem
  · simp
  · intro i h1 h2
    simp [List.getD_eq_getElem?_getD, List.getElem?_eq_getElem h2]

theorem pyZip_pyZip {ls : List (Col α)} {L : Nat} (hne : ls ≠ [])
    (hu : ∀ l ∈ ls, l.length = L) (hL : 0 < L) : pyZip (pyZip ls) = ls := by
  have h1 : (pyZip ls).length = L := pyZip_length hne hu
  have hrow : ∀ r ∈ pyZip ls, r.length = ls.length := fun r hr => pyZip_mem_length hr
  have hne2 : pyZip ls ≠ [] := by
    intro h
    rw [h] at h1
    simp at h1
    omega
  have h2 : (pyZip (pyZip ls)).length = ls.length := pyZip_length hne2 hrow
  apply List.ext_getElem
  · exact h2
  · intro j h3 h4
    rw [pyZip_getElem h3]
    apply List.ext_getElem
    · rw [List.length_map, h1, hu _ (List.getElem_mem h4)]
    · intro i h5 h6
      have hiL : i < L := by
        rw [List.length_map, h1] at h5
        exact h5
      have hipz : i < (pyZip ls).length := by omega
      rw [List.getElem_map, pyZip_getElem hipz]
      have hj : j < ls.length := h4
      simp [List.getD_eq_getElem?_getD, List.getElem?_eq_getElem hj,
        List.getElem?_eq_getElem h6]

/-! ## dict lookup over a zip -/

theorem mapM_congr_option {β γ : Type} {f g : β → Option γ} :
    ∀ l : List β, (∀ a ∈ l, f a = g a) → l.mapM f = l.mapM g := by
  intro l
  induction l with
  | nil => intro _; rfl
  | cons x xs ih =>
    intro h
    rw [List.mapM_cons, List.mapM_cons, h x (List.mem_cons_self x xs),
      ih (fun a ha => h a (List.mem_cons_of_mem x ha))]

theorem dget_zip_self {β : Type} :
    ∀ (ks : List String) (vs : List β), ks.Nodup → ks.length = vs.length →
      ks.mapM (fun c => dget (ks.zip vs) c) = some vs := by
  intro ks
  induction ks with
  | nil =>
    intro vs _ hlen
    cases vs with
    | nil => rfl
    | cons v vs => simp at hlen
  | cons k ks ih =>
    intro vs hnd hlen
    cases vs with
    | nil => simp at hlen
    | cons v vs =>
      rw [List.zip_cons_cons, List.mapM_cons, dget_cons_self]
      rcases List.nodup_cons.mp hnd with ⟨hk, hks⟩
      have hcongr : ks.mapM (fun c => dget ((k, v) :: ks.zip vs) c) =
          ks.mapM (fun c => dget (ks.zip vs) c) := by
        apply mapM_congr_option
        intro c hc
        exact dget_cons_ne (fun h => hk (h ▸ hc))
      rw [hcongr, ih vs hks (by simpa using hlen)]
      rfl

theorem getCol_as_dget (d : Dataset α) (c : String) :
    d.getCol c = (dget d.cols c).getD [] := rfl

theorem map_getCol_zip_self :
    ∀ (ks : List String) (vs : List (Col α)), ks.Nodup → ks.length = vs.length →
      ks.map (Dataset.mk (ks.zip vs)).getCol = vs := by
  intro ks
  induction ks with
  | nil =>
    intro vs _ hlen
    cases vs with
    | nil => rfl
    | cons v vs => simp at hlen
  | cons k ks ih =>
    intro vs hnd hlen
    cases vs with
    | nil => simp at hlen
    | cons v vs =>
      rcases List.nodup_cons.mp hnd with ⟨hk, hks⟩
      rw [List.zip_cons_cons, List.map_cons]
      congr 1
      · rw [getCol_as_dget, dget_cons_self]
        rfl
      · have hcg : ∀ c ∈ ks, (Dataset.mk ((k, v) :: ks.zip vs)).getCol c =
            (Dataset.mk (ks.zip vs)).getCol c := by
          intro c hc
          rw [getCol_as_dget, getCol_as_dget, dget_cons_ne (fun h => hk (by rw [← h]; exact hc))]
        rw [List.map_congr_left hcg, ih vs hks (by simpa using hlen)]

/-! ## mkDataset and rectangularity -/

theorem pyDedup_const {β : Type} [DecidableEq β] {l : List β} {v : β}
    (h : ∀ a ∈ l, a = v) : (pyDedup l).length ≤ 1 := by
  match hp : pyDedup l with
  | [] => simp
  | [x] => simp
  | x :: y :: ys =>
    exfalso
    have hx : x ∈ pyDedup l := by rw [hp]; exact List.mem_cons_self _ _
    have hy : y ∈ pyDedup l := by
      rw [hp]
      exact List.mem_cons_of_mem _ (List.mem_cons_self _ _)
    have hxv := h x ((mem_pyDedup l x).mp hx)
    have hyv := h y ((mem_pyDedup l y).mp hy)
    have hnd := nodup_pyDedup l
    rw [hp] at hnd
    rcases List.nodup_cons.mp hnd with ⟨hxn, _⟩
    exact hxn (by rw [hxv, ← hyv]; exact List.mem_cons_self _ _)

theorem mkDataset_some {cols : List (String × Col α)} {L : Nat}
    (h : ∀ p ∈ cols, p.2.length = L) : mkDataset cols = some (Dataset.mk cols) := by
  rw [mkDataset, if_pos]
  apply pyDedup_const (v := L)
  intro a ha
  rcases List.mem_map.mp ha with ⟨p, hp, rfl⟩
  exact h p hp

theorem rect_forall (d : Dataset α) :
    d.rect = true ↔ ∀ p ∈ d.cols, p.2.length = d.colLen := by
  cases hd : d.cols with
  | nil => simp [Dataset.rect, hd]
  | cons c cs =>
    rw [Dataset.rect, Dataset.colLen, hd]
    simp only [List.all_eq_true, beq_iff_eq, List.mem_cons]
    constructor
    · rintro h p (rfl | hp)
      · rfl
      · exact h p hp
    · intro h p hp
      exact h p (Or.inr hp)

theorem rect_of_uniform {cols : List (String × Col α)} {L : Nat}
    (h : ∀ p ∈ cols, p.2.length = L) : (Dataset.mk cols).rect = true := by
  cases cols with
  | nil => rfl
  | cons c cs =>
    rw [Dataset.rect]
    simp only [List.all_eq_true, beq_iff_eq]
    intro p hp
    rw [h p (List.mem_cons_of_mem c hp), h c (List.mem_cons_self c cs)]

theorem recordCount_of_rect {d : Dataset α} (hrect : d.rect = true)
    (hne : d.cols ≠ []) : d.recordCount = d.colLen := by
  apply pyZip_length
  · simpa using hne
  · intro l hl
    rcases List.mem_map.mp hl with ⟨p, hp, rfl⟩
    exact (rect_forall d).mp hrect p hp

theorem cols_ne_nil_of_recordCount {d : Dataset α} (hL : 0 < d.recordCount) :
    d.cols ≠ [] := by
  intro h
  have hrows : d.rows = [] := by
    rw [Dataset.rows, h]
    rfl
  rw [Dataset.recordCount, hrows] at hL
  simp at hL

/-! ## The sort evaluation lemma -/

theorem length_getCol_of_rect {d : Dataset α} (hrect : d.rect = true) {c : String}
    (hc : c ∈ d.colNames) : (d.getCol c).length = d.colLen := by
  rcases List.mem_map.mp hc with ⟨p, hp, rfl⟩
  have hfind : (d.cols.find? (fun r => r.1 == p.1)).isSome := by
    rw [List.find?_isSome]
    exact ⟨p, hp, by simp⟩
  obtain ⟨q, hq⟩ := Option.isSome_iff_exists.mp hfind
  rw [Dataset.getCol, hq]
  exact (rect_forall d).mp hrect q (List.mem_of_find?_eq_some hq)

theorem sortOrder_nodup {d : Dataset α} {names : List String}
    (hnd : d.colNames.Nodup) (hnn : names.Nodup) : (sortOrder d names).Nodup := by
  rw [sortOrder]
  apply List.Nodup.append hnn (hnd.filter _)
  intro a ha hb
  rcases List.mem_filter.mp hb with ⟨_, hp⟩
  simp only [Bool.not_eq_eq_eq_not, Bool.not_true, List.contains_eq_any_beq,
    List.any_eq_false] at hp
  exact absurd (beq_self_eq_true a) (hp a ha)

theorem mem_sortOrder {d : Dataset α} {names : List String}
    (hsub : ∀ n ∈ names, n ∈ d.colNames) {c : String} :
    c ∈ sortOrder d names ↔ c ∈ d.colNames := by
  rw [sortOrder, List.mem_append]
  constructor
  · rintro (h | h)
    · exact hsub c h
    · exact (List.mem_filter.mp h).1
  · intro h
    by_cases hn : c ∈ names
    · exact Or.inl hn
    · refine Or.inr (List.mem_filter.mpr ⟨h, ?_⟩)
      simp only [Bool.not_eq_eq_eq_not, Bool.not_true, List.contains_eq_any_beq,
        List.any_eq_false]
      intro a ha
      simp only [beq_iff_eq]
      intro hca
      exact hn (hca ▸ ha)

theorem sortOrder_ne_nil {d : Dataset α} {names : List String}
    (hsub : ∀ n ∈ names, n ∈ d.colNames) (hcn : d.colNames ≠ []) :
    sortOrder d names ≠ [] := by
  cases hc : d.colNames with
  | nil => exact absurd hc hcn
  | cons c cs =>
    intro hord
    have : c ∈ sortOrder d names := (mem_sortOrder hsub).mpr (by rw [hc]; exact List.mem_cons_self c cs)
    rw [hord] at this
    exact List.not_mem_nil c this

theorem contains_of_mem {l : List String} {a : String} (h : a ∈ l) :
    l.contains a = true := by
  rw [List.contains_iff_exists_mem_beq]
  exact ⟨a, h, by simp⟩

theorem sortD_eq {d : Dataset α} {names : List String}
    (hnd : d.colNames.Nodup) (hnn : names.Nodup)
    (hsub : ∀ n ∈ names, n ∈ d.colNames)
    (hrect : d.rect = true) (hL : 0 < d.recordCount) :
    sortD d names = some (Dataset.mk ((sortOrder d names).zip
      (pyZip (sortS (keyLeB names.length) (rowsOrdered d (sortOrder d names)))))) := by
  have hcne : d.cols ≠ [] := cols_ne_nil_of_recordCount hL
  have hcolne : d.colNames ≠ [] := by simpa [Dataset.colNames] using hcne
  have hLc : d.recordCount = d.colLen := recordCount_of_rect hrect hcne
  have hL0 : 0 < d.colLen := hLc ▸ hL
  have hordnd : (sortOrder d names).Nodup := sortOrder_nodup hnd hnn
  have hordne : sortOrder d names ≠ [] := sortOrder_ne_nil hsub hcolne
  have hgetlen : ∀ c ∈ sortOrder d names, (d.getCol c).length = d.colLen := by
    intro c hc
    exact length_getCol_of_rect hrect ((mem_sortOrder hsub).mp hc)
  have hmapne : (sortOrder d names).map d.getCol ≠ [] := by
    simpa using hordne
  have hmaplen : ∀ l ∈ (sortOrder d names).map d.getCol, l.length = d.colLen := by
    intro l hl
    rcases List.mem_map.mp hl with ⟨c, hc, rfl⟩
    exact hgetlen c hc
  have hrows0len : (rowsOrdered d (sortOrder d names)).length = d.colLen :=
    pyZip_length hmapne hmaplen
  have hrows0mem : ∀ r ∈ rowsOrdered d (sortOrder d names),
      r.length = (sortOrder d names).length := by
    intro r hr
    rw [rowsOrdered] at hr
    rw [pyZip_mem_length hr, List.length_map]
  have hsortperm := sortS_perm (keyLeB names.length) (rowsOrdered d (sortOrder d names))
  have hsortlen : (sortS (keyLeB names.length) (rowsOrdered d (sortOrder d names))).length
      = d.colLen := by rw [hsortperm.length_eq, hrows0len]
  have hsortmem : ∀ r ∈ sortS (keyLeB names.length) (rowsOrdered d (sortOrder d names)),
      r.length = (sortOrder d names).length := by
    intro r hr
    exact hrows0mem r (hsortperm.mem_iff.mp hr)
  have hsortne : sortS (keyLeB names.length) (rowsOrdered d (sortOrder d names)) ≠ [] := by
    intro h
    rw [h] at hsortlen
    simp at hsortlen
    omega
  have hcols'len : (pyZip (sortS (keyLeB names.length)
      (rowsOrdered d (sortOrder d names)))).length = (sortOrder d names).length :=
    pyZip_length hsortne hsortmem
  have hcols'mem : ∀ cl ∈ pyZip (sortS (keyLeB names.length)
      (rowsOrdered d (sortOrder d names))), cl.length = d.colLen := by
    intro cl hcl
    rw [pyZip_mem_length hcl, hsortlen]
  have hall : names.all (fun n => d.colNames.contains n) = true := by
    rw [List.all_eq_true]
    intro c hc
    exact contains_of_mem (hsub c hc)
  have hdict : dictOf ((sortOrder d names).zip (pyZip (sortS (keyLeB names.length)
      (rowsOrdered d (sortOrder d names))))) = (sortOrder d names).zip (pyZip (sortS
      (keyLeB names.length) (rowsOrdered d (sortOrder d names)))) := by
    apply dictOf_eq_self
    rw [List.map_fst_zip _ _ (le_of_eq hcols'len.symm)]
    exact hordnd
  have hmapm := dget_zip_self (sortOrder d names) (pyZip (sortS (keyLeB names.length)
    (rowsOrdered d (sortOrder d names)))) hordnd hcols'len.symm
  simp only [sortD, hall, if_true]
  rw [hdict, hmapm]
  show mkDataset (dictOf ((sortOrder d names).zip (pyZip (sortS (keyLeB names.length)
    (rowsOrdered d (sortOrder d names)))))) = _
  rw [hdict]
  apply mkDataset_some (L := d.colLen)
  intro p hp
  exact hcols'mem p.2 (List.of_mem_zip hp).2

/-- The bundle of facts about a successful sort used by the claims. -/
theorem sortD_spec {d : Dataset α} {names : List String}
    (hnd : d.colNames.Nodup) (hnn : names.Nodup)
    (hsub : ∀ n ∈ names, n ∈ d.colNames)
    (hrect : d.rect = true) (hL : 0 < d.recordCount) :
    ∃ e, sortD d names = some e ∧
      e.cols = (sortOrder d names).zip (pyZip (sortS (keyLeB names.length)
        (rowsOrdered d (sortOrder d names)))) ∧
      e.colNames = sortOrder d names ∧
      e.rows = sortS (keyLeB names.length) (rowsOrdered d (sortOrder d names)) ∧
      (sortOrder d names).map e.getCol = pyZip (sortS (keyLeB names.length)
        (rowsOrdered d (sortOrder d names))) ∧
      e.rect = true ∧
      e.colLen = d.colLen ∧
      e.recordCount = d.recordCount := by
  have hcne : d.cols ≠ [] := cols_ne_nil_of_recordCount hL
  have hcolne : d.colNames ≠ [] := by simpa [Dataset.colNames] using hcne
  have hLc : d.recordCount = d.colLen := recordCount_of_rect hrect hcne
  have hL0 : 0 < d.colLen := hLc ▸ hL
  have hordnd : (sortOrder d names).Nodup := sortOrder_nodup hnd hnn
  have hordne : sortOrder d names ≠ [] := sortOrder_ne_nil hsub hcolne
  have hord0 : 0 < (sortOrder d names).length := List.length_pos.mpr hordne
  have hgetlen : ∀ c ∈ sortOrder d names, (d.getCol c).length = d.colLen := by
    intro c hc
    exact length_getCol_of_rect hrect ((mem_sortOrder hsub).mp hc)
  have hmapne : (sortOrder d names).map d.getCol ≠ [] := by simpa using hordne
  have hmaplen : ∀ l ∈ (sortOrder d names).map d.getCol, l.length = d.colLen := by
    intro l hl
    rcases List.mem_map.mp hl with ⟨c, hc, rfl⟩
    exact hgetlen c hc
  have hrows0len : (rowsOrdered d (sortOrder d names)).length = d.colLen :=
    pyZip_length hmapne hmaplen
  have hrows0mem : ∀ r ∈ rowsOrdered d (sortOrder d names),
      r.length = (sortOrder d names).length := by
    intro r hr
    rw [rowsOrdered] at hr
    rw [pyZip_mem_length hr, List.length_map]
  have hsortperm := sortS_perm (keyLeB names.length) (rowsOrdered d (sortOrder d names))
  have hsortlen : (sortS (keyLeB names.length) (rowsOrdered d (sortOrder d names))).length
      = d.colLen := by rw [hsortperm.length_eq, hrows0len]
  have hsortmem : ∀ r ∈ sortS (keyLeB names.length) (rowsOrdered d (sortOrder d names)),
      r.length = (sortOrder d names).length := by
    intro r hr
    exact hrows0mem r (hsortperm.mem_iff.mp hr)
  have hsortne : sortS (keyLeB names.length) (rowsOrdered d (sortOrder d names)) ≠ [] := by
    intro h
    rw [h] at hsortlen
    simp at hsortlen
    omega
  have hcols'len : (pyZip (sortS (keyLeB names.length)
      (rowsOrdered d (sortOrder d names)))).length = (sortOrder d names).length :=
    pyZip_length hsortne hsortmem
  have hcols'mem : ∀ cl ∈ pyZip (sortS (keyLeB names.length)
      (rowsOrdered d (sortOrder d names))), cl.length = d.colLen := by
    intro cl hcl
    rw [pyZip_mem_length hcl, hsortlen]
  refine ⟨_, sortD_eq hnd hnn hsub hrect hL, rfl, ?_, ?_, ?_, ?_, ?_, ?_⟩
  · rw [Dataset.colNames, List.map_fst_zip _ _ (le_of_eq hcols'len.symm)]
  · rw [Dataset.rows]
    show pyZip ((((sortOrder d names)).zip _).map Prod.snd) = _
    rw [List.map_snd_zip _ _ (le_of_eq hcols'len)]
    exact pyZip_pyZip hsortne hsortmem hord0
  · exact map_getCol_zip_self (sortOrder d names) _ hordnd hcols'len.symm
  · apply rect_of_uniform (L := d.colLen)
    intro p hp
    exact hcols'mem p.2 (List.of_mem_zip hp).2
  · show Dataset.colLen _ = _
    rw [Dataset.colLen]
    cases hz : (sortOrder d names).zip (pyZip (sortS (keyLeB names.length)
        (rowsOrdered d (sortOrder d names)))) with
    | nil =>
      exfalso
      have : (sortOrder d names).length = 0 := by
        have hlz := @List.length_zip _ _ (sortOrder d names)
          (pyZip (sortS (keyLeB names.length) (rowsOrdered d (sortOrder d names))))
        rw [hz, hcols'len] at hlz
        simpa using hlz.symm
      omega
    | cons c cs =>
      have hc : c ∈ (sortOrder d names).zip (pyZip (sortS (keyLeB names.length)
          (rowsOrdered d (sortOrder d names)))) := by
        rw [hz]; exact List.mem_cons_self c cs
      exact hcols'mem c.2 (List.of_mem_zip hc).2
  · rw [Dataset.recordCount]
    have hrows : (Dataset.mk ((sortOrder d names).zip (pyZip (sortS (keyLeB names.length)
        (rowsOrdered d (sortOrder d names)))))).rows = sortS (keyLeB names.length)
        (rowsOrdered d (sortOrder d names)) := by
      rw [Dataset.rows]
      show pyZip ((((sortOrder d names)).zip _).map Prod.snd) = _
      rw [List.map_snd_zip _ _ (le_of_eq hcols'len)]
      exact pyZip_pyZip hsortne hsortmem hord0
    rw [hrows, hsortlen, hLc]

/-! ## Claim C7: sort is a stable sort by the key tuple -/

theorem mapM_option_length {β γ : Type} {f : β → Option γ} :
    ∀ {l : List β} {vs : List γ}, l.mapM f = some vs → vs.length = l.length := by
  intro l
  induction l with
  | nil =>
    intro vs h
    simp only [List.mapM_nil, pure, Option.some.injEq] at h
    rw [← h]
    rfl
  | cons x xs ih =>
    intro vs h
    rw [List.mapM_cons] at h
    cases hfx : f x with
    | none => rw [hfx] at h; simp at h
    | some y =>
      rw [hfx] at h
      cases hxs : xs.mapM f with
      | none => rw [hxs] at h; simp at h
      | some ys =>
        rw [hxs] at h
        simp only [Option.bind_eq_bind, Option.some_bind, Option.pure_def,
          Option.some.injEq] at h
        rw [← h]
        simp [ih hxs]

/-- C7 (amended: the table must have at least one record, since Python's
`sort` raises `KeyError` on a 0-row table).  `sort` returns a table whose
rows, read in the output column order, are a permutation of the input
rows read in that same column order, are sorted by the tuple of key
columns, and are stable: for every key tuple `t`, the rows carrying `t`
appear in their original relative order. -/
theorem sort_is_stable {d : Dataset α} {names : List String}
    (hnd : d.colNames.Nodup) (hnn : names.Nodup)
    (hsub : ∀ n ∈ names, n ∈ d.colNames)
    (hrect : d.rect = true) (hL : 0 < d.recordCount) :
    ∃ e, sortD d names = some e ∧
      e.rows.Perm (rowsOrdered d (sortOrder d names)) ∧
      e.rows.Pairwise (fun r s => keyLeB names.length r s = true) ∧
      (∀ t : Col α, e.rows.filter (fun r => r.take names.length == t) =
        (rowsOrdered d (sortOrder d names)).filter (fun r => r.take names.length == t)) := by
  obtain ⟨e, he, _, _, hrows, _, _, _, _⟩ := sortD_spec hnd hnn hsub hrect hL
  refine ⟨e, he, ?_, ?_, ?_⟩
  · rw [hrows]
    exact sortS_perm _ _
  · rw [hrows]
    exact sortS_pairwise (keyLeB_total names.length) (keyLeB_trans names.length) _
  · intro t
    rw [hrows]
    apply filter_sortS
    intro a b ha hb
    rw [keyLeB]
    exact tupLeB_of_eq (by rw [eq_of_beq ha, eq_of_beq hb])

theorem sort_is_stable_witness :
    ((Dataset.mk [("A", [Value.atom (1 : Int), .atom 1, .atom 0]),
        ("m", [.atom 10, .atom 20, .atom 30])]).colNames.Nodup ∧
      (["A"] : List String).Nodup ∧
      (∀ n ∈ (["A"] : List String), n ∈ (Dataset.mk [("A", [Value.atom (1 : Int), .atom 1, .atom 0]),
        ("m", [.atom 10, .atom 20, .atom 30])]).colNames) ∧
      (Dataset.mk [("A", [Value.atom (1 : Int), .atom 1, .atom 0]),
        ("m", [.atom 10, .atom 20, .atom 30])]).rect = true ∧
      0 < (Dataset.mk [("A", [Value.atom (1 : Int), .atom 1, .atom 0]),
        ("m", [.atom 10, .atom 20, .atom 30])]).recordCount) ∧
    (∃ e, sortD (Dataset.mk [("A", [Value.atom (1 : Int), .atom 1, .atom 0]),
        ("m", [.atom 10, .atom 20, .atom 30])]) ["A"] = some e ∧
      e.rows.Perm (rowsOrdered (Dataset.mk [("A", [Value.atom (1 : Int), .atom 1, .atom 0]),
        ("m", [.atom 10, .atom 20, .atom 30])]) (sortOrder (Dataset.mk [("A", [Value.atom (1 : Int), .atom 1, .atom 0]),
        ("m", [.atom 10, .atom 20, .atom 30])]) ["A"])) ∧
      e.rows.Pairwise (fun r s => keyLeB 1 r s = true) ∧
      (∀ t : Col Int, e.rows.filter (fun r => r.take 1 == t) =
        (rowsOrdered (Dataset.mk [("A", [Value.atom (1 : Int), .atom 1, .atom 0]),
          ("m", [.atom 10, .atom 20, .atom 30])]) (sortOrder (Dataset.mk [("A", [Value.atom (1 : Int), .atom 1, .atom 0]),
          ("m", [.atom 10, .atom 20, .atom 30])]) ["A"])).filter (fun r => r.take 1 == t))) :=
  ⟨⟨by decide, by decide, by decide, by decide, by decide⟩,
    sort_is_stable (by decide) (by decide) (by decide) (by decide) (by decide)⟩

/-- C7: the counterexample to the claim as frozen — sorting a table with
columns but zero rows raises `KeyError` (the final comprehension looks
keys up in an empty dict) instead of returning the (empty) sorted table. -/
theorem sort_fails_on_empty_table :
    sortD (Dataset.mk [("a", ([] : Col Int))]) ["a"] = none := by decide

/-- C9: whenever `sort` returns a table, that table's columns are the
sort keys first, in the order given, followed by the remaining columns
in their original relative order. -/
theorem sort_column_order {d : Dataset α} {names : List String} {e : Dataset α}
    (hnd : d.colNames.Nodup) (hnn : names.Nodup)
    (h : sortD d names = some e) :
    e.colNames = names ++ d.colNames.filter (fun c => !names.contains c) := by
  simp only [sortD] at h
  by_cases hall : names.all (fun n => d.colNames.contains n) = true
  · rw [if_pos hall] at h
    cases hm : (sortOrder d names).mapM (fun c => dget (dictOf ((sortOrder d names).zip
        (pyZip (sortS (keyLeB names.length) (rowsOrdered d (sortOrder d names)))))) c) with
    | none =>
      rw [hm] at h
      exact absurd (h : (none : Option (Dataset α)) = some e) (by simp)
    | some vals =>
      rw [hm] at h
      have h2 : mkDataset (dictOf ((sortOrder d names).zip vals)) = some e := h
      have hvlen : vals.length = (sortOrder d names).length := mapM_option_length hm
      have hordnd : (sortOrder d names).Nodup := sortOrder_nodup hnd hnn
      have hkeys : ((sortOrder d names).zip vals).map Prod.fst = sortOrder d names :=
        List.map_fst_zip _ _ (le_of_eq hvlen.symm)
      have hdict : dictOf ((sortOrder d names).zip vals) = (sortOrder d names).zip vals :=
        dictOf_eq_self _ (by rw [hkeys]; exact hordnd)
      unfold mkDataset at h2
      split at h2
      · injection h2 with h2
        rw [← h2]
        show (dictOf ((sortOrder d names).zip vals)).map Prod.fst = _
        rw [hdict, hkeys]
        rfl
      · exact absurd h2 (by simp)
  · rw [if_neg hall] at h
    exact absurd h (by simp)

theorem sort_column_order_witness :
    ((Dataset.mk [("m", [Value.atom (10 : Int), .atom 20]),
        ("A", [.atom 2, .atom 1])]).colNames.Nodup ∧
      (["A"] : List String).Nodup ∧
      sortD (Dataset.mk [("m", [Value.atom (10 : Int), .atom 20]), ("A", [.atom 2, .atom 1])]) ["A"] =
        some (Dataset.mk [("A", [Value.atom (1 : Int), .atom 2]), ("m", [.atom 20, .atom 10])])) ∧
    (Dataset.mk [("A", [Value.atom (1 : Int), .atom 2]), ("m", [.atom 20, .atom 10])]).colNames =
      ["A"] ++ (Dataset.mk [("m", [Value.atom (10 : Int), .atom 20]),
        ("A", [.atom 2, .atom 1])]).colNames.filter (fun c => !(["A"] : List String).contains c) :=
  ⟨⟨by decide, by decide, by decide⟩,
    sort_column_order (by decide) (by decide) (by decide)⟩

/-- C8 (amended): `group_by` fails whenever the grouping list contains a
name that is not a column (the `sort` step's assertion fires).  An empty
grouping list, contrary to the claim, is not rejected — see
`groupBy_empty_grouping_succeeds`. -/
theorem groupBy_fails_on_bad_column {d : Dataset α} {gcols : List String}
    {ocolsOpt : Option (List String)} {cnt : Option String}
    (h : ∃ g ∈ gcols, g ∉ d.colNames) :
    groupByD d gcols ocolsOpt cnt = none := by
  obtain ⟨g, hg, hgn⟩ := h
  have hsort : sortD d gcols = none := by
    rw [sortD, if_neg]
    intro hall
    rw [List.all_eq_true] at hall
    have := hall g hg
    rw [List.contains_iff_exists_mem_beq] at this
    obtain ⟨a, ha, hba⟩ := this
    exact hgn ((eq_of_beq hba) ▸ ha)
  rw [groupByD.eq_def, hsort]

theorem groupBy_fails_on_bad_column_witness :
    (∃ g ∈ (["z"] : List String), g ∉ (Dataset.mk [("a", [Value.atom (1 : Int)])]).colNames) ∧
    groupByD (Dataset.mk [("a", [Value.atom (1 : Int)])]) ["z"] none none = none :=
  ⟨by decide, groupBy_fails_on_bad_column (by decide)⟩

/-- C8, counterexample to the claim as frozen: an *empty* grouping-column
list is not rejected — `group_by([])` succeeds and folds the whole table
into a single group (every record's empty key tuple equals the previous
one's). -/
theorem groupBy_empty_grouping_succeeds :
    groupByD (Dataset.mk [("a", [Value.atom (1 : Int), .atom 2])]) [] none none =
      some (Dataset.mk [("a", [.vlist [.atom 1, .atom 2]])]) := by decide

/-! ## Dict-shape lemmas for the group_by fold -/

theorem dget_map_fun {β : Type} {f : String → β} :
    ∀ (names : List String) (k : String),
      dget (names.map (fun c => (c, f c))) k = if k ∈ names then some (f k) else none := by
  intro names k
  induction names with
  | nil => simp [dget]
  | cons n ns ih =>
    rw [List.map_cons]
    by_cases hk : k = n
    · subst hk
      rw [dget_cons_self, if_pos (List.mem_cons_self k ns)]
    · rw [dget_cons_ne hk, ih]
      by_cases hm : k ∈ ns
      · rw [if_pos hm, if_pos (List.mem_cons_of_mem n hm)]
      · rw [if_neg hm, if_neg (by simp [hk, hm])]

theorem dset_map_fun {β : Type} {f : String → β} {v : β} :
    ∀ (names : List String) (k : String),
      dset (names.map (fun c => (c, f c))) k v =
        names.map (fun c => (c, if c = k then v else f c)) := by
  intro names k
  induction names with
  | nil => rfl
  | cons n ns ih =>
    rw [List.map_cons, dset, List.map_cons, List.map_cons]
    rw [dset] at ih
    rw [ih]
    by_cases hn : n = k
    · subst hn
      simp
    · simp [hn, beq_false_of_ne hn]

theorem appendAt_map_fun {f : String → Col α} {v : Value α}
    {names : List String} {k : String} (hk : k ∈ names) :
    appendAt (names.map (fun c => (c, f c))) k v =
      some (names.map (fun c => (c, if c = k then f c ++ [v] else f c))) := by
  rw [appendAt, dget_map_fun, if_pos hk, Option.some_bind]
  rw [dset_map_fun]
  congr 1
  apply List.map_congr_left
  intro c _
  by_cases hc : c = k
  · subst hc; simp
  · simp [hc]

theorem appendLastAt_map_fun {f : String → Col α} {v : Value α}
    {names : List String} {k : String} (hk : k ∈ names)
    {ini : Col α} {tl : List (Value α)} (hsplit : f k = ini ++ [.vlist tl]) :
    appendLastAt (names.map (fun c => (c, f c))) k v =
      some (names.map (fun c => (c, if c = k then ini ++ [.vlist (tl ++ [v])] else f c))) := by
  rw [appendLastAt, dget_map_fun, if_pos hk, Option.some_bind, hsplit]
  rw [List.getLast?_concat, List.dropLast_concat]
  show some (dset (names.map (fun c => (c, f c))) k (ini ++ [Value.vlist (tl ++ [v])])) = _
  rw [dset_map_fun]

theorem incrLastAt_map_fun {f : String → Col α}
    {names : List String} {k : String} (hk : k ∈ names)
    {ini : Col α} {n : Int} (hsplit : f k = ini ++ [.int n]) :
    incrLastAt (names.map (fun c => (c, f c))) k =
      some (names.map (fun c => (c, if c = k then ini ++ [.int (n + 1)] else f c))) := by
  rw [incrLastAt, dget_map_fun, if_pos hk, Option.some_bind, hsplit]
  rw [List.getLast?_concat, List.dropLast_concat]
  show some (dset (names.map (fun c => (c, f c))) k (ini ++ [Value.int (n + 1)])) = _
  rw [dset_map_fun]

theorem foldlM_appendAt {names : List String} {v : String → Value α}
    {step : List (String × Col α) → String → Option (List (String × Col α))} :
    ∀ (KS : List String) (f : String → Col α), KS.Nodup → (∀ o ∈ KS, o ∈ names) →
      (∀ m o, o ∈ KS → step m o = appendAt m o (v o)) →
      KS.foldlM step (names.map (fun c => (c, f c))) =
        some (names.map (fun c => (c, if c ∈ KS then f c ++ [v c] else f c))) := by
  intro KS
  induction KS with
  | nil =>
    intro f _ _ _
    simp
  | cons o KS ih =>
    intro f hnd hsub hstep
    rcases List.nodup_cons.mp hnd with ⟨ho, hnd'⟩
    rw [List.foldlM_cons, hstep _ o (List.mem_cons_self o KS),
      appendAt_map_fun (hsub o (List.mem_cons_self o KS))]
    simp only [Option.bind_eq_bind, Option.some_bind]
    rw [ih (fun c => if c = o then f c ++ [v o] else f c) hnd'
      (fun c hc => hsub c (List.mem_cons_of_mem o hc))
      (fun m c hc => hstep m c (List.mem_cons_of_mem o hc))]
    congr 1
    apply List.map_congr_left
    intro c _
    by_cases hco : c = o
    · subst hco
      simp [ho, List.mem_cons]
    · by_cases hcK : c ∈ KS <;> simp [hco, hcK]

theorem foldlM_appendLastAt {names : List String} {v : String → Value α}
    {ini : String → Col α} {tl : String → List (Value α)}
    {step : List (String × Col α) → String → Option (List (String × Col α))} :
    ∀ (KS : List String) (f : String → Col α), KS.Nodup → (∀ o ∈ KS, o ∈ names) →
      (∀ m o, o ∈ KS → step m o = appendLastAt m o (v o)) →
      (∀ o ∈ KS, f o = ini o ++ [.vlist (tl o)]) →
      KS.foldlM step (names.map (fun c => (c, f c))) =
        some (names.map (fun c =>
          (c, if c ∈ KS then ini c ++ [.vlist (tl c ++ [v c])] else f c))) := by
  intro KS
  induction KS with
  | nil =>
    intro f _ _ _ _
    simp
  | cons o KS ih =>
    intro f hnd hsub hstep hsplit
    rcases List.nodup_cons.mp hnd with ⟨ho, hnd'⟩
    rw [List.foldlM_cons, hstep _ o (List.mem_cons_self o KS),
      appendLastAt_map_fun (hsub o (List.mem_cons_self o KS))
        (hsplit o (List.mem_cons_self o KS))]
    simp only [Option.bind_eq_bind, Option.some_bind]
    rw [ih (fun c => if c = o then ini o ++ [Value.vlist (tl o ++ [v o])] else f c) hnd'
      (fun c hc => hsub c (List.mem_cons_of_mem o hc))
      (fun m c hc => hstep m c (List.mem_cons_of_mem o hc))
      (fun c hc => by
        show (if c = o then ini o ++ [Value.vlist (tl o ++ [v o])] else f c) = _
        rw [if_neg (fun hco => ho (by rw [← hco]; exact hc))]
        exact hsplit c (List.mem_cons_of_mem o hc))]
    congr 1
    apply List.map_congr_left
    intro c _
    by_cases hco : c = o
    · subst hco
      simp [List.mem_cons, fun h => ho h]
    · by_cases hcK : c ∈ KS <;> simp [hco, hcK]

/-! ## pyDedup structure lemmas -/

theorem pyDedupAux_sublist {β : Type} [DecidableEq β] :
    ∀ (l seen : List β), (pyDedupAux seen l).Sublist l := by
  intro l
  induction l with
  | nil => intro seen; simp [pyDedupAux]
  | cons x xs ih =>
    intro seen
    rw [pyDedupAux]
    split
    · exact (ih seen).cons x
    · exact (ih (x :: seen)).cons₂ x

theorem pyDedup_sublist {β : Type} [DecidableEq β] (l : List β) :
    (pyDedup l).Sublist l := pyDedupAux_sublist l []

theorem pyDedupAux_snoc_new {β : Type} [DecidableEq β] {k : β} :
    ∀ (l seen : List β), k ∉ seen → k ∉ l →
      pyDedupAux seen (l ++ [k]) = pyDedupAux seen l ++ [k] := by
  intro l
  induction l with
  | nil =>
    intro seen hks _
    simp [pyDedupAux, hks]
  | cons x xs ih =>
    intro seen hks hkl
    have hkl' : k ∉ xs := fun h => hkl (List.mem_cons_of_mem x h)
    rw [List.cons_append, pyDedupAux, pyDedupAux]
    by_cases hx : x ∈ seen
    · rw [if_pos hx, if_pos hx]
      exact ih seen hks hkl'
    · rw [if_neg hx, if_neg hx]
      rw [ih (x :: seen) ?_ hkl']
      · rfl
      · intro h
        rcases List.mem_cons.mp h with rfl | h
        · exact hkl (List.mem_cons_self k xs)
        · exact hks h

theorem pyDedup_snoc_new {β : Type} [DecidableEq β] {k : β} {l : List β} (hk : k ∉ l) :
    pyDedup (l ++ [k]) = pyDedup l ++ [k] :=
  pyDedupAux_snoc_new l [] (List.not_mem_nil k) hk

theorem pyDedupAux_snoc_old {β : Type} [DecidableEq β] {k : β} :
    ∀ (l seen : List β), k ∈ l ∨ k ∈ seen →
      pyDedupAux seen (l ++ [k]) = pyDedupAux seen l := by
  intro l
  induction l with
  | nil =>
    intro seen hk
    rcases hk with h | h
    · exact absurd h (List.not_mem_nil k)
    · simp [pyDedupAux, h]
  | cons x xs ih =>
    intro seen hk
    rw [List.cons_append, pyDedupAux, pyDedupAux]
    split
    · next hx =>
      apply ih
      rcases hk with h | h
      · rcases List.mem_cons.mp h with rfl | h
        · exact Or.inr hx
        · exact Or.inl h
      · exact Or.inr h
    · congr 1
      apply ih
      rcases hk with h | h
      · rcases List.mem_cons.mp h with rfl | h
        · exact Or.inr (List.mem_cons_self k seen)
        · exact Or.inl h
      · exact Or.inr (List.mem_cons_of_mem x h)

theorem pyDedup_snoc_old {β : Type} [DecidableEq β] {k : β} {l : List β} (hk : k ∈ l) :
    pyDedup (l ++ [k]) = pyDedup l :=
  pyDedupAux_snoc_old l [] (Or.inl hk)

/-- In a `tupLeB`-sorted list that ends with a maximal element `k`, the
deduplicated key list ends with `k` (and `k` appears only there). -/
theorem sorted_dedup_last {q : List (Col α)}
    (hs : q.Pairwise (fun a b => tupLeB a b = true))
    {k : Col α} (hmax : ∀ a ∈ q, tupLeB a k = true) (hkm : k ∈ q) :
    ∃ dk₀, pyDedup q = dk₀ ++ [k] ∧ k ∉ dk₀ := by
  have hdks : (pyDedup q).Pairwise (fun a b => tupLeB a b = true) :=
    hs.sublist (pyDedup_sublist q)
  have hdknd := nodup_pyDedup q
  have hkdk : k ∈ pyDedup q := (mem_pyDedup q k).mpr hkm
  have hne : pyDedup q ≠ [] := fun h => by rw [h] at hkdk; exact List.not_mem_nil k hkdk
  have hdecomp := List.dropLast_append_getLast hne
  have hklast_eq : (pyDedup q).getLast hne = k := by
    have h1 : tupLeB ((pyDedup q).getLast hne) k = true :=
      hmax _ ((mem_pyDedup q _).mp (List.getLast_mem hne))
    have hkdk' : k ∈ (pyDedup q).dropLast ++ [(pyDedup q).getLast hne] := by
      rw [hdecomp]; exact hkdk
    rcases List.mem_append.mp hkdk' with hk0 | hk1
    · have hpw : ((pyDedup q).dropLast ++ [(pyDedup q).getLast hne]).Pairwise
          (fun a b => tupLeB a b = true) := by
        rw [hdecomp]; exact hdks
      rcases List.pairwise_append.mp hpw with ⟨_, _, hrel⟩
      have h2 : tupLeB k ((pyDedup q).getLast hne) = true :=
        hrel k hk0 _ (List.mem_singleton.mpr rfl)
      exact tupLeB_antisymm h1 h2
    · exact (List.mem_singleton.mp hk1).symm
  refine ⟨(pyDedup q).dropLast, ?_, ?_⟩
  · conv_lhs => rw [← hdecomp]
    rw [hklast_eq]
  · intro hk0
    have hnd' : ((pyDedup q).dropLast ++ [(pyDedup q).getLast hne]).Nodup := by
      rw [hdecomp]; exact hdknd
    rcases List.nodup_append.mp hnd' with ⟨_, _, hdisj⟩
    exact hdisj hk0 (by rw [hklast_eq]; exact List.mem_singleton.mpr rfl)

/-! ## Record lookups in a zipped row -/

theorem mapM_dget_zip_take {vs : Col α} :
    ∀ (ks1 ks2 : List String), (ks1 ++ ks2).Nodup → vs.length = (ks1 ++ ks2).length →
      ks1.mapM (fun k => dget ((ks1 ++ ks2).zip vs) k) = some (vs.take ks1.length) := by
  intro ks1
  induction ks1 generalizing vs with
  | nil =>
    intro ks2 _ _
    rfl
  | cons k ks1 ih =>
    intro ks2 hnd hlen
    cases vs with
    | nil => simp at hlen
    | cons v vs' =>
      rw [List.cons_append, List.zip_cons_cons, List.mapM_cons, dget_cons_self]
      rcases List.nodup_cons.mp hnd with ⟨hk, hnd'⟩
      have hcongr : ks1.mapM (fun c => dget ((k, v) :: (ks1 ++ ks2).zip vs') c) =
          ks1.mapM (fun c => dget ((ks1 ++ ks2).zip vs') c) := by
        apply mapM_congr_option
        intro c hc
        exact dget_cons_ne (fun h => hk (by rw [← h]; exact List.mem_append_left ks2 hc))
      rw [hcongr, ih ks2 hnd' (by simpa using hlen)]
      simp

theorem dget_zip_getD {ks : List String} {vs : Col α} (hnd : ks.Nodup)
    (hlen : vs.length = ks.length) {o : String} (ho : o ∈ ks) :
    dget (ks.zip vs) o = some (vs.getD (ks.indexOf o) .null) := by
  induction ks generalizing vs with
  | nil => exact absurd ho (List.not_mem_nil o)
  | cons k ks ih =>
    cases vs with
    | nil => simp at hlen
    | cons v vs' =>
      rcases List.nodup_cons.mp hnd with ⟨hk, hnd'⟩
      rw [List.zip_cons_cons]
      by_cases hok : o = k
      · subst hok
        rw [dget_cons_self, List.indexOf_cons_self]
        rfl
      · rw [dget_cons_ne hok, ih hnd' (by simpa using hlen) (by
          rcases List.mem_cons.mp ho with h | h
          · exact absurd h hok
          · exact h)]
        rw [List.indexOf_cons_ne _ (fun h => hok h.symm)]
        rfl

theorem indexOf_append_left {ks1 ks2 : List String} {a : String} (ha : a ∈ ks1) :
    (ks1 ++ ks2).indexOf a = ks1.indexOf a := by
  induction ks1 with
  | nil => exact absurd ha (List.not_mem_nil a)
  | cons k ks ih =>
    by_cases hak : k = a
    · subst hak
      rw [List.cons_append, List.indexOf_cons_self, List.indexOf_cons_self]
    · rw [List.cons_append, List.indexOf_cons_ne _ hak, List.indexOf_cons_ne _ hak,
        ih (by
          rcases List.mem_cons.mp ha with h | h
          · exact absurd h.symm hak
          · exact h)]

theorem getD_take {β : Type} {l : List β} {n j : Nat} {d : β} (hj : j < n) :
    (l.take n).getD j d = l.getD j d := by
  by_cases hl : j < l.length
  · have h1 : j < (l.take n).length := by
      rw [List.length_take]
      omega
    rw [List.getD_eq_getElem?_getD, List.getD_eq_getElem?_getD,
      List.getElem?_eq_getElem h1, List.getElem?_eq_getElem hl]
    simp [List.getElem_take]
  · have h1 : ¬ j < (l.take n).length := by
      rw [List.length_take]
      omega
    rw [List.getD_eq_getElem?_getD, List.getD_eq_getElem?_getD,
      List.getElem?_eq_none (by omega), List.getElem?_eq_none (by omega)]

/-! ## Column evolution under one group_by step -/

theorem gbVal_new_gcol {gcols ocols order : List String} {p : List (Col α)} {r : Col α}
    (hknotin : r.take gcols.length ∉ p.map (fun x => x.take gcols.length))
    {c : String} (hc : c ∈ gcols) :
    gbVal gcols ocols order (p ++ [r]) c =
      gbVal gcols ocols order p c ++ [(r.take gcols.length).getD (gcols.indexOf c) .null] := by
  rw [gbVal, gbVal, if_pos hc, if_pos hc]
  rw [List.map_append, List.map_singleton, pyDedup_snoc_new hknotin, List.map_append]
  rfl

theorem gbVal_new_ocol {gcols ocols order : List String} {p : List (Col α)} {r : Col α}
    (hknotin : r.take gcols.length ∉ p.map (fun x => x.take gcols.length))
    {c : String} (hcg : c ∉ gcols) (hc : c ∈ ocols) :
    gbVal gcols ocols order (p ++ [r]) c =
      gbVal gcols ocols order p c ++ [.vlist [r.getD (order.indexOf c) .null]] := by
  rw [gbVal, gbVal, if_neg hcg, if_neg hcg, if_pos hc, if_pos hc]
  rw [List.map_append, List.map_singleton, pyDedup_snoc_new hknotin, List.map_append]
  congr 1
  · apply List.map_congr_left
    intro t ht
    have htq : t ∈ p.map (fun x => x.take gcols.length) :=
      (mem_pyDedup _ t).mp ht
    have htne : ¬ (r.take gcols.length == t) = true := by
      simp only [beq_iff_eq]
      intro h
      exact hknotin (h ▸ htq)
    rw [List.filter_append]
    simp [List.filter, htne]
  · have hfilp : p.filter (fun x => x.take gcols.length == r.take gcols.length) = [] := by
      rw [List.filter_eq_nil_iff]
      intro x hx
      simp only [beq_iff_eq]
      intro h
      exact hknotin (h ▸ List.mem_map_of_mem _ hx)
    rw [List.map_singleton, List.filter_append, hfilp]
    simp [List.filter]

theorem gbVal_new_ccol {gcols ocols order : List String} {p : List (Col α)} {r : Col α}
    (hknotin : r.take gcols.length ∉ p.map (fun x => x.take gcols.length))
    {c : String} (hcg : c ∉ gcols) (hco : c ∉ ocols) :
    gbVal gcols ocols order (p ++ [r]) c =
      gbVal gcols ocols order p c ++ [.int 1] := by
  rw [gbVal, gbVal, if_neg hcg, if_neg hcg, if_neg hco, if_neg hco]
  rw [List.map_append, List.map_singleton, pyDedup_snoc_new hknotin, List.map_append]
  congr 1
  · apply List.map_congr_left
    intro t ht
    have htq : t ∈ p.map (fun x => x.take gcols.length) :=
      (mem_pyDedup _ t).mp ht
    have htne : ¬ (r.take gcols.length == t) = true := by
      simp only [beq_iff_eq]
      intro h
      exact hknotin (h ▸ htq)
    rw [List.countP_append]
    simp [List.countP, List.countP.go, htne]
  · have hcp : p.countP (fun x => x.take gcols.length == r.take gcols.length) = 0 := by
      rw [List.countP_eq_zero]
      intro x hx
      simp only [beq_iff_eq]
      intro h
      exact hknotin (h ▸ List.mem_map_of_mem _ hx)
    rw [List.map_singleton, List.countP_append, hcp]
    simp [List.countP, List.countP.go]

theorem gbVal_ext_gcol {gcols ocols order : List String} {p : List (Col α)} {r : Col α}
    (hkin : r.take gcols.length ∈ p.map (fun x => x.take gcols.length))
    {c : String} (hc : c ∈ gcols) :
    gbVal gcols ocols order (p ++ [r]) c = gbVal gcols ocols order p c := by
  rw [gbVal, gbVal, if_pos hc, if_pos hc]
  rw [List.map_append, List.map_singleton, pyDedup_snoc_old hkin]

theorem gbVal_ext_ocol {gcols ocols order : List String} {p : List (Col α)} {r : Col α}
    {dk₀ : List (Col α)}
    (hdk : pyDedup (p.map (fun x => x.take gcols.length)) = dk₀ ++ [r.take gcols.length])
    (hknot : r.take gcols.length ∉ dk₀)
    (hkin : r.take gcols.length ∈ p.map (fun x => x.take gcols.length))
    {c : String} (hcg : c ∉ gcols) (hc : c ∈ ocols) :
    gbVal gcols ocols order p c =
      (dk₀.map (fun t => Value.vlist ((p.filter (fun x => x.take gcols.length == t)).map
        (fun x => x.getD (order.indexOf c) .null)))) ++
      [.vlist ((p.filter (fun x => x.take gcols.length == r.take gcols.length)).map
        (fun x => x.getD (order.indexOf c) .null))] ∧
    gbVal gcols ocols order (p ++ [r]) c =
      (dk₀.map (fun t => Value.vlist ((p.filter (fun x => x.take gcols.length == t)).map
        (fun x => x.getD (order.indexOf c) .null)))) ++
      [.vlist ((p.filter (fun x => x.take gcols.length == r.take gcols.length)).map
        (fun x => x.getD (order.indexOf c) .null) ++ [r.getD (order.indexOf c) .null])] := by
  constructor
  · rw [gbVal, if_neg hcg, if_pos hc]
    rw [hdk, List.map_append]
    rfl
  · rw [gbVal, if_neg hcg, if_pos hc]
    rw [List.map_append, List.map_singleton, pyDedup_snoc_old hkin, hdk, List.map_append]
    congr 1
    · apply List.map_congr_left
      intro t ht
      have htne : ¬ (r.take gcols.length == t) = true := by
        simp only [beq_iff_eq]
        intro h
        exact hknot (h ▸ ht)
      rw [List.filter_append]
      simp [List.filter, htne]
    · rw [List.map_singleton, List.filter_append]
      simp [List.filter]

theorem gbVal_ext_ccol {gcols ocols order : List String} {p : List (Col α)} {r : Col α}
    {dk₀ : List (Col α)}
    (hdk : pyDedup (p.map (fun x => x.take gcols.length)) = dk₀ ++ [r.take gcols.length])
    (hknot : r.take gcols.length ∉ dk₀)
    (hkin : r.take gcols.length ∈ p.map (fun x => x.take gcols.length))
    {c : String} (hcg : c ∉ gcols) (hco : c ∉ ocols) :
    gbVal gcols ocols order p c =
      (dk₀.map (fun t => Value.int ((p.countP (fun x => x.take gcols.length == t) : Nat) : Int))) ++
      [.int ((p.countP (fun x => x.take gcols.length == r.take gcols.length) : Nat) : Int)] ∧
    gbVal gcols ocols order (p ++ [r]) c =
      (dk₀.map (fun t => Value.int ((p.countP (fun x => x.take gcols.length == t) : Nat) : Int))) ++
      [.int (((p.countP (fun x => x.take gcols.length == r.take gcols.length) : Nat) : Int) + 1)] := by
  constructor
  · rw [gbVal, if_neg hcg, if_neg hco]
    rw [hdk, List.map_append]
    rfl
  · rw [gbVal, if_neg hcg, if_neg hco]
    rw [List.map_append, List.map_singleton, pyDedup_snoc_old hkin, hdk, List.map_append]
    congr 1
    · apply List.map_congr_left
      intro t ht
      have htne : ¬ (r.take gcols.length == t) = true := by
        simp only [beq_iff_eq]
        intro h
        exact hknot (h ▸ ht)
      rw [List.countP_append]
      simp [List.countP, List.countP.go, htne]
    · rw [List.map_singleton, List.countP_append]
      simp [List.countP, List.countP.go]

theorem groupStep_spec {gcols ocols yrest order : List String} {cnt : Option String}
    {p : List (Col α)} {r : Col α}
    (horder : order = gcols ++ yrest)
    (hallnd : (gcols ++ ocols ++ cntList cnt).Nodup)
    (hordnd : order.Nodup)
    (hosub : ∀ o ∈ ocols, o ∈ order)
    (hrlen : r.length = order.length)
    (hsorted : ∀ x ∈ p, tupLeB (x.take gcols.length) (r.take gcols.length) = true)
    (hpsorted : p.Pairwise (fun a b => tupLeB (a.take gcols.length) (b.take gcols.length) = true)) :
    groupStep gcols ocols cnt (gbState gcols ocols order cnt p) (order.zip r) =
      some (gbState gcols ocols order cnt (p ++ [r])) := by
  -- structural facts about the three name blocks
  have h1 := List.nodup_append.mp hallnd
  have h2 := List.nodup_append.mp h1.1
  have hgnd : gcols.Nodup := h2.1
  have hond : ocols.Nodup := h2.2.1
  have hdisj_go : gcols.Disjoint ocols := h2.2.2
  have hdisj_gc : (gcols ++ ocols).Disjoint (cntList cnt) := h1.2.2
  have hgsub : ∀ g ∈ gcols, g ∈ order := by
    intro g hg
    rw [horder]
    exact List.mem_append_left yrest hg
  -- the computed `grouped` is the key tuple of `r`
  have hgrouped : gcols.mapM (fun g => dget (order.zip r) g) = some (r.take gcols.length) := by
    rw [horder] at hordnd hrlen ⊢
    exact mapM_dget_zip_take gcols yrest hordnd hrlen
  -- `rec[c]` for any column of the row
  have hvalat : ∀ c ∈ order, dget (order.zip r) c = some (r.getD (order.indexOf c) .null) :=
    fun c hc => dget_zip_getD hordnd hrlen hc
  -- value appended into a grouping column
  have hgval : ∀ g ∈ gcols, r.getD (order.indexOf g) .null =
      (r.take gcols.length).getD (gcols.indexOf g) .null := by
    intro g hg
    rw [horder, indexOf_append_left hg, getD_take (List.indexOf_lt_length.mpr hg)]
  have hosub' : ∀ o ∈ ocols, o ∈ gcols ++ ocols ++ cntList cnt := fun o ho =>
    List.mem_append_left _ (List.mem_append_right _ ho)
  have hgsub' : ∀ g ∈ gcols, g ∈ gcols ++ ocols ++ cntList cnt := fun g hg =>
    List.mem_append_left _ (List.mem_append_left _ hg)
  have hocg : ∀ o ∈ ocols, o ∉ gcols := fun o ho hg => hdisj_go hg ho
  -- unfold one step
  rw [groupStep]
  rw [hgrouped]
  simp only [Option.bind_eq_bind, Option.some_bind, gbState]
  by_cases hkin : r.take gcols.length ∈ p.map (fun x => x.take gcols.length)
  · -- the row extends the last group
    have hpne : p ≠ [] := by
      intro h
      rw [h] at hkin
      simp at hkin
    have hlast := List.dropLast_append_getLast hpne
    have hmaxp : ∀ a ∈ p,
        tupLeB (a.take gcols.length) ((p.getLast hpne).take gcols.length) = true := by
      intro a ha
      have hpw : (p.dropLast ++ [p.getLast hpne]).Pairwise
          (fun a b => tupLeB (a.take gcols.length) (b.take gcols.length) = true) := by
        rw [hlast]; exact hpsorted
      have ha' : a ∈ p.dropLast ++ [p.getLast hpne] := by rw [hlast]; exact ha
      rcases List.mem_append.mp ha' with h | h
      · rcases List.pairwise_append.mp hpw with ⟨-, -, hrel⟩
        exact hrel a h _ (List.mem_singleton.mpr rfl)
      · rw [List.mem_singleton.mp h]
        exact tupLeB_refl _
    have hlastkey : (p.getLast hpne).take gcols.length = r.take gcols.length := by
      rcases List.mem_map.mp hkin with ⟨a, ha, hak⟩
      have hx1 : tupLeB (r.take gcols.length) ((p.getLast hpne).take gcols.length) = true := by
        rw [← hak]; exact hmaxp a ha
      have hx2 : tupLeB ((p.getLast hpne).take gcols.length) (r.take gcols.length) = true :=
        hsorted _ (List.getLast_mem hpne)
      exact tupLeB_antisymm hx2 hx1
    rw [if_pos (by rw [List.getLast?_eq_getLast p hpne]; simp [hlastkey])]
    obtain ⟨dk₀, hdk, hknot⟩ := sorted_dedup_last
      (List.pairwise_map.mpr hpsorted)
      (fun a ha => by
        rcases List.mem_map.mp ha with ⟨b, hb, rfl⟩
        exact hsorted b hb)
      hkin
    have hstepL : ∀ (m : List (String × Col α)) (o : String), o ∈ ocols →
        (fun m o => (dget (order.zip r) o).bind fun x => appendLastAt m o x) m o =
          appendLastAt m o (r.getD (order.indexOf o) .null) := by
      intro m o ho
      show (dget (order.zip r) o).bind (fun x => appendLastAt m o x) = _
      rw [hvalat o (hosub o ho)]
      rfl
    have hsplitL : ∀ o ∈ ocols, gbVal gcols ocols order p o =
        (fun c => dk₀.map (fun t => Value.vlist ((p.filter
          (fun x => x.take gcols.length == t)).map
          (fun x => x.getD (order.indexOf c) .null)))) o ++
        [Value.vlist ((fun c => (p.filter
          (fun x => x.take gcols.length == r.take gcols.length)).map
          (fun x => x.getD (order.indexOf c) .null)) o)] := by
      intro o ho
      exact (gbVal_ext_ocol hdk hknot hkin (hocg o ho) ho).1
    rw [@foldlM_appendLastAt α _ (gcols ++ ocols ++ cntList cnt)
      (fun o => r.getD (order.indexOf o) .null)
      (fun c => dk₀.map (fun t => Value.vlist ((p.filter
        (fun x => x.take gcols.length == t)).map
        (fun x => x.getD (order.indexOf c) .null))))
      (fun c => (p.filter (fun x => x.take gcols.length == r.take gcols.length)).map
        (fun x => x.getD (order.indexOf c) .null))
      _ ocols (gbVal gcols ocols order p) hond hosub' hstepL hsplitL]
    simp only [Option.bind_eq_bind, Option.some_bind]
    cases cnt with
    | none =>
      simp only [Option.elim_none, Option.pure_def, Option.some_bind, Option.some.injEq]
      rw [Prod.mk.injEq]
      constructor
      · rw [List.getLast?_concat]
        rfl
      · apply List.map_congr_left
        intro c hc
        rcases List.mem_append.mp hc with hc' | hccnt
        · rcases List.mem_append.mp hc' with hcg | hco
          · rw [if_neg (fun h => hdisj_go hcg h)]
            rw [gbVal_ext_gcol hkin hcg]
          · rw [if_pos hco]
            rw [(gbVal_ext_ocol hdk hknot hkin (hocg c hco) hco).2]
        · simp [cntList] at hccnt
    | some cc =>
      have hccm : cc ∈ cntList (some cc) := List.mem_singleton.mpr rfl
      have hccg : cc ∉ gcols := fun h =>
        hdisj_gc (List.mem_append_left ocols h) hccm
      have hcco : cc ∉ ocols := fun h =>
        hdisj_gc (List.mem_append_right gcols h) hccm
      have hccn : cc ∈ gcols ++ ocols ++ cntList (some cc) :=
        List.mem_append_right _ hccm
      simp only [Option.elim_some]
      rw [@incrLastAt_map_fun α _
        (fun c => if c ∈ ocols then (dk₀.map (fun t => Value.vlist ((p.filter
            (fun x => x.take gcols.length == t)).map
            (fun x => x.getD (order.indexOf c) .null)))) ++
          [Value.vlist ((p.filter (fun x => x.take gcols.length == r.take gcols.length)).map
            (fun x => x.getD (order.indexOf c) .null) ++ [r.getD (order.indexOf c) .null])]
          else gbVal gcols ocols order p c)
        (gcols ++ ocols ++ cntList (some cc)) cc hccn
        (dk₀.map (fun t => Value.int ((p.countP (fun x => x.take gcols.length == t) : Nat) : Int)))
        ((p.countP (fun x => x.take gcols.length == r.take gcols.length) : Nat) : Int)
        (by
          simp only [if_neg hcco]
          exact (gbVal_ext_ccol hdk hknot hkin hccg hcco).1)]
      simp only [Option.pure_def, Option.some_bind, Option.some.injEq]
      rw [Prod.mk.injEq]
      constructor
      · rw [List.getLast?_concat]
        rfl
      · apply List.map_congr_left
        intro c hc
        rcases List.mem_append.mp hc with hc' | hccnt
        · rcases List.mem_append.mp hc' with hcg | hco
          · rw [if_neg (fun h : c = cc => hccg (h ▸ hcg)),
              if_neg (fun h => hdisj_go hcg h)]
            rw [gbVal_ext_gcol hkin hcg]
          · rw [if_neg (fun h : c = cc => hcco (h ▸ hco)), if_pos hco]
            rw [(gbVal_ext_ocol hdk hknot hkin (hocg c hco) hco).2]
        · have : c = cc := List.mem_singleton.mp hccnt
          subst this
          rw [if_pos rfl]
          rw [(gbVal_ext_ccol hdk hknot hkin hccg hcco).2]
  · -- the row starts a new group
    have hcond : ¬ (some (r.take gcols.length) =
        Option.map (fun x => x.take gcols.length) p.getLast?) := by
      intro h
      cases hp : p.getLast? with
      | none => rw [hp] at h; simp at h
      | some xl =>
        rw [hp] at h
        obtain ⟨ys, hys⟩ := List.getLast?_eq_some_iff.mp hp
        have hxl : xl ∈ p := by
          rw [hys]
          exact List.mem_append_right ys (List.mem_singleton.mpr rfl)
        simp only [Option.map_some', Option.some.injEq] at h
        exact hkin (h ▸ List.mem_map_of_mem _ hxl)
    rw [if_neg hcond]
    have hstepG : ∀ (m : List (String × Col α)) (g : String), g ∈ gcols →
        (fun m g => (dget (order.zip r) g).bind fun x => appendAt m g x) m g =
          appendAt m g (r.getD (order.indexOf g) .null) := by
      intro m g hg
      show (dget (order.zip r) g).bind (fun x => appendAt m g x) = _
      rw [hvalat g (hgsub g hg)]
      rfl
    rw [@foldlM_appendAt α _ (gcols ++ ocols ++ cntList cnt)
      (fun g => r.getD (order.indexOf g) .null) _ gcols
      (gbVal gcols ocols order p) hgnd hgsub' hstepG]
    simp only [Option.bind_eq_bind, Option.some_bind]
    have hstepO : ∀ (m : List (String × Col α)) (o : String), o ∈ ocols →
        (fun m o => (dget (order.zip r) o).bind fun x => appendAt m o (Value.vlist [x])) m o =
          appendAt m o (Value.vlist [r.getD (order.indexOf o) .null]) := by
      intro m o ho
      show (dget (order.zip r) o).bind (fun x => appendAt m o (Value.vlist [x])) = _
      rw [hvalat o (hosub o ho)]
      rfl
    rw [@foldlM_appendAt α _ (gcols ++ ocols ++ cntList cnt)
      (fun o => Value.vlist [r.getD (order.indexOf o) .null]) _ ocols
      (fun c => if c ∈ gcols then
        gbVal gcols ocols order p c ++ [r.getD (order.indexOf c) .null]
        else gbVal gcols ocols order p c)
      hond hosub' hstepO]
    simp only [Option.bind_eq_bind, Option.some_bind]
    cases cnt with
    | none =>
      simp only [Option.elim_none, Option.pure_def, Option.some_bind, Option.some.injEq]
      rw [Prod.mk.injEq]
      constructor
      · rw [List.getLast?_concat]
        rfl
      · apply List.map_congr_left
        intro c hc
        rcases List.mem_append.mp hc with hc' | hccnt
        · rcases List.mem_append.mp hc' with hcg | hco
          · rw [if_neg (fun h => hdisj_go hcg h), if_pos hcg]
            rw [gbVal_new_gcol hkin hcg, hgval c hcg]
          · rw [if_pos hco, if_neg (hocg c hco)]
            rw [gbVal_new_ocol hkin (hocg c hco) hco]
        · simp [cntList] at hccnt
    | some cc =>
      have hccm : cc ∈ cntList (some cc) := List.mem_singleton.mpr rfl
      have hccg : cc ∉ gcols := fun h =>
        hdisj_gc (List.mem_append_left ocols h) hccm
      have hcco : cc ∉ ocols := fun h =>
        hdisj_gc (List.mem_append_right gcols h) hccm
      have hccn : cc ∈ gcols ++ ocols ++ cntList (some cc) :=
        List.mem_append_right _ hccm
      simp only [Option.elim_some]
      rw [appendAt_map_fun hccn]
      simp only [Option.pure_def, Option.some_bind, Option.some.injEq]
      rw [Prod.mk.injEq]
      constructor
      · rw [List.getLast?_concat]
        rfl
      · apply List.map_congr_left
        intro c hc
        rcases List.mem_append.mp hc with hc' | hccnt
        · rcases List.mem_append.mp hc' with hcg | hco
          · rw [if_neg (fun h : c = cc => hccg (h ▸ hcg)),
              if_neg (fun h => hdisj_go hcg h), if_pos hcg]
            rw [gbVal_new_gcol hkin hcg, hgval c hcg]
          · rw [if_neg (fun h : c = cc => hcco (h ▸ hco)), if_pos hco,
              if_neg (hocg c hco)]
            rw [gbVal_new_ocol hkin (hocg c hco) hco]
        · have hceq : c = cc := List.mem_singleton.mp hccnt
          subst hceq
          rw [if_pos rfl, if_neg hcco, if_neg hccg]
          rw [gbVal_new_ccol hkin hccg hcco]

/-- Folding `groupStep` over the records of the remaining (already
sorted) rows advances the accumulator invariant. -/
theorem groupFold_spec {gcols ocols yrest order : List String} {cnt : Option String}
    (horder : order = gcols ++ yrest)
    (hallnd : (gcols ++ ocols ++ cntList cnt).Nodup)
    (hordnd : order.Nodup)
    (hosub : ∀ o ∈ ocols, o ∈ order) :
    ∀ (rest p : List (Col α)),
      (∀ x ∈ rest, x.length = order.length) →
      (p ++ rest).Pairwise
        (fun a b => tupLeB (a.take gcols.length) (b.take gcols.length) = true) →
      (rest.map (fun ρ => order.zip ρ)).foldlM (groupStep gcols ocols cnt)
          (gbState gcols ocols order cnt p) =
        some (gbState gcols ocols order cnt (p ++ rest)) := by
  intro rest
  induction rest with
  | nil =>
    intro p _ _
    simp
  | cons r rest' ih =>
    intro p hlen hpw
    have hrlen : r.length = order.length := hlen r (List.mem_cons_self r rest')
    have hsorted : ∀ x ∈ p, tupLeB (x.take gcols.length) (r.take gcols.length) = true := by
      intro x hx
      exact (List.pairwise_append.mp hpw).2.2 x hx r (List.mem_cons_self r rest')
    have hpsorted : p.Pairwise
        (fun a b => tupLeB (a.take gcols.length) (b.take gcols.length) = true) :=
      (List.pairwise_append.mp hpw).1
    have hstep := groupStep_spec (p := p) (r := r) horder hallnd hordnd hosub
      hrlen hsorted hpsorted
    rw [List.map_cons, List.foldlM_cons, hstep]
    simp only [Option.bind_eq_bind, Option.some_bind]
    have hpw' : ((p ++ [r]) ++ rest').Pairwise
        (fun a b => tupLeB (a.take gcols.length) (b.take gcols.length) = true) := by
      rw [List.append_assoc, List.singleton_append]
      exact hpw
    have := ih (p ++ [r]) (fun x hx => hlen x (List.mem_cons_of_mem r hx)) hpw'
    rw [this, List.append_assoc, List.singleton_append]

theorem gbVal_nil (gcols ocols order : List String) (c : String) :
    gbVal gcols ocols order ([] : List (Col α)) c = [] := by
  rw [gbVal]
  split
  · rfl
  · split <;> rfl

theorem gbVal_length (gcols ocols order : List String) (p : List (Col α)) (c : String) :
    (gbVal gcols ocols order p c).length =
      (pyDedup (p.map (fun r => r.take gcols.length))).length := by
  rw [gbVal]
  split
  · rw [List.length_map]
  · split <;> rw [List.length_map]

/-- Evaluating `group_by` with explicit `other_cols`: the result is
`mkDataset` of the invariant columns over the sorted rows. -/
theorem groupByD_eq {d : Dataset α} {gcols ocols : List String} {cnt : Option String}
    (hnd : d.colNames.Nodup) (hgnn : gcols.Nodup)
    (hgsub : ∀ g ∈ gcols, g ∈ d.colNames)
    (hallnd : (gcols ++ ocols ++ cntList cnt).Nodup)
    (hosub : ∀ o ∈ ocols, o ∈ sortOrder d gcols)
    (hrect : d.rect = true) (hL : 0 < d.recordCount) :
    groupByD d gcols (some ocols) cnt =
      mkDataset ((gcols ++ ocols ++ cntList cnt).map (fun c =>
        (c, gbVal gcols ocols (sortOrder d gcols)
          (sortS (keyLeB gcols.length) (rowsOrdered d (sortOrder d gcols))) c))) := by
  obtain ⟨e, hsome, hcols, hnames, hrows, hmap, herect, hclen, hrc⟩ :=
    sortD_spec hnd hgnn hgsub hrect hL
  have hordnd : (sortOrder d gcols).Nodup := sortOrder_nodup hnd hgnn
  have hcne : d.cols ≠ [] := cols_ne_nil_of_recordCount hL
  have hcolne : d.colNames ≠ [] := by simpa [Dataset.colNames] using hcne
  have hsortmem : ∀ r ∈ sortS (keyLeB gcols.length) (rowsOrdered d (sortOrder d gcols)),
      r.length = (sortOrder d gcols).length := by
    intro r hr
    have hr0 := (sortS_perm _ _).mem_iff.mp hr
    rw [rowsOrdered] at hr0
    rw [pyZip_mem_length hr0, List.length_map]
  have hpw : (([] : List (Col α)) ++
        sortS (keyLeB gcols.length) (rowsOrdered d (sortOrder d gcols))).Pairwise
      (fun a b => tupLeB (a.take gcols.length) (b.take gcols.length) = true) := by
    rw [List.nil_append]
    exact sortS_pairwise (keyLeB_total gcols.length)
      (fun h1 h2 => keyLeB_trans gcols.length h1 h2) _
  have hkeys : (((gcols ++ ocols ++ cntList cnt)).map
      (fun c => (c, ([] : Col α)))).map Prod.fst = gcols ++ ocols ++ cntList cnt := by
    rw [List.map_map]
    exact List.map_id _
  have hinit : dictOf ((gcols ++ ocols ++ cntList cnt).map (fun c => (c, ([] : Col α)))) =
      (gcols ++ ocols ++ cntList cnt).map (fun c =>
        (c, gbVal gcols ocols (sortOrder d gcols) ([] : List (Col α)) c)) := by
    rw [dictOf_eq_self _ (by rw [hkeys]; exact hallnd)]
    exact List.map_congr_left (fun c _ => by rw [gbVal_nil])
  have hrecords : e.records =
      (sortS (keyLeB gcols.length) (rowsOrdered d (sortOrder d gcols))).map
        (fun ρ => (sortOrder d gcols).zip ρ) := by
    rw [Dataset.records, hrows, hnames]
  have hfold := groupFold_spec
    (show sortOrder d gcols = gcols ++ d.colNames.filter (fun c => !gcols.contains c) from rfl)
    hallnd hordnd hosub
    (sortS (keyLeB gcols.length) (rowsOrdered d (sortOrder d gcols))) [] hsortmem hpw
  rw [groupByD.eq_def, hsome]
  show Option.bind (e.records.foldlM (groupStep gcols ocols cnt)
      ((none, dictOf ((gcols ++ ocols ++ cntList cnt).map (fun c => (c, ([] : Col α))))) :
        Option (List (Value α)) × List (String × Col α)))
      (fun st => mkDataset st.2) = _
  rw [hrecords, hinit]
  have hstate : ((none, (gcols ++ ocols ++ cntList cnt).map (fun c =>
        (c, gbVal gcols ocols (sortOrder d gcols) ([] : List (Col α)) c))) :
      Option (List (Value α)) × List (String × Col α)) =
      gbState gcols ocols (sortOrder d gcols) cnt [] := rfl
  rw [hstate, hfold]
  rfl

theorem rowsOrdered_eq {d : Dataset α} {order : List String}
    (hone : order ≠ [])
    (hlen : ∀ c ∈ order, (d.getCol c).length = d.colLen)
    (hM : d.recordCount = d.colLen) :
    rowsOrdered d order = (List.range d.recordCount).map
      (fun i => order.map (fun c => (d.getCol c).getD i .null)) := by
  rw [rowsOrdered, pyZip]
  rw [minLen_eq (by simpa using hone) (fun l hl => by
    rcases List.mem_map.mp hl with ⟨c, hc, rfl⟩
    exact hlen c hc)]
  rw [hM]
  apply List.map_congr_left
  intro i _
  rw [List.map_map]
  rfl

theorem keyRow_take {d : Dataset α} {gcols yrest : List String} (i : Nat) :
    ((gcols ++ yrest).map (fun c => (d.getCol c).getD i .null)).take gcols.length
      = d.keyAt gcols i := by
  rw [List.map_append]
  rw [show gcols.length = (gcols.map (fun c => (d.getCol c).getD i .null)).length from
    (List.length_map _ _).symm]
  rw [List.take_left]
  rfl

theorem keyRow_getD {d : Dataset α} {order : List String} {o : String} (ho : o ∈ order)
    (i : Nat) :
    (order.map (fun c => (d.getCol c).getD i .null)).getD (order.indexOf o) .null
      = (d.getCol o).getD i .null := by
  have h : order.indexOf o < order.length := List.indexOf_lt_length.mpr ho
  rw [List.getD_eq_getElem _ _ (by rw [List.length_map]; exact h)]
  rw [List.getElem_map, List.getElem_indexOf h]

theorem dk_eq_sortedKeys {d : Dataset α} {gcols : List String}
    (hnd : d.colNames.Nodup) (hgnn : gcols.Nodup)
    (hgsub : ∀ g ∈ gcols, g ∈ d.colNames)
    (hrect : d.rect = true) (hL : 0 < d.recordCount) :
    pyDedup ((sortS (keyLeB gcols.length) (rowsOrdered d (sortOrder d gcols))).map
      (fun r => r.take gcols.length)) = sortedKeys (d.keysOf gcols) := by
  have hcne : d.cols ≠ [] := cols_ne_nil_of_recordCount hL
  have hcolne : d.colNames ≠ [] := by simpa [Dataset.colNames] using hcne
  have hordne : sortOrder d gcols ≠ [] := sortOrder_ne_nil hgsub hcolne
  have hM : d.recordCount = d.colLen := recordCount_of_rect hrect hcne
  have hlenc : ∀ c ∈ sortOrder d gcols, (d.getCol c).length = d.colLen := fun c hc =>
    length_getCol_of_rect hrect ((mem_sortOrder hgsub).mp hc)
  have hre := rowsOrdered_eq hordne hlenc hM
  have hmaptake : (rowsOrdered d (sortOrder d gcols)).map (fun r => r.take gcols.length)
      = d.keysOf gcols := by
    rw [hre, List.map_map]
    apply List.map_congr_left
    intro i _
    show ((sortOrder d gcols).map (fun c => (d.getCol c).getD i .null)).take gcols.length
        = d.keyAt gcols i
    exact keyRow_take i
  have hps : (sortS (keyLeB gcols.length) (rowsOrdered d (sortOrder d gcols))).Pairwise
      (fun a b => keyLeB gcols.length a b = true) :=
    sortS_pairwise (keyLeB_total gcols.length)
      (fun h1 h2 => keyLeB_trans gcols.length h1 h2) _
  have hple : ((sortS (keyLeB gcols.length) (rowsOrdered d (sortOrder d gcols))).map
      (fun r => r.take gcols.length)).Pairwise (fun a b => tupLeB a b = true) :=
    List.pairwise_map.mpr (hps.imp (fun h => h))
  refine pairwise_eq_of_mem_iff (r := fun a b => tupLeB a b = true ∧ a ≠ b)
    (fun a h => h.2 rfl) ?_ ?_ ?_ ?_
  · intro a b c h1 h2
    refine ⟨tupLeB_trans h1.1 h2.1, fun he => h1.2 (tupLeB_antisymm h1.1 ?_)⟩
    rw [he]
    exact h2.1
  · exact (List.Pairwise.sublist (pyDedup_sublist _) hple).and (nodup_pyDedup _)
  · exact ((sortS_pairwise tupLeB_total (fun h1 h2 => tupLeB_trans h1 h2) _).and
      (((sortS_perm _ _).nodup_iff).mpr (nodup_pyDedup _)))
  · intro t
    rw [mem_pyDedup]
    rw [((sortS_perm (keyLeB gcols.length) (rowsOrdered d (sortOrder d gcols))).map
      (fun r => r.take gcols.length)).mem_iff]
    rw [hmaptake]
    rw [sortedKeys, mem_sortS, mem_pyDedup]

theorem srows_filter_key {d : Dataset α} {gcols : List String}
    (hgsub : ∀ g ∈ gcols, g ∈ d.colNames)
    (hrect : d.rect = true) (hL : 0 < d.recordCount) (t : Col α) :
    (sortS (keyLeB gcols.length) (rowsOrdered d (sortOrder d gcols))).filter
      (fun r => r.take gcols.length == t) =
    ((List.range d.recordCount).filter (fun i => d.keyAt gcols i == t)).map
      (fun i => (sortOrder d gcols).map (fun c => (d.getCol c).getD i .null)) := by
  have hcne : d.cols ≠ [] := cols_ne_nil_of_recordCount hL
  have hcolne : d.colNames ≠ [] := by simpa [Dataset.colNames] using hcne
  have hordne : sortOrder d gcols ≠ [] := sortOrder_ne_nil hgsub hcolne
  have hM : d.recordCount = d.colLen := recordCount_of_rect hrect hcne
  have hlenc : ∀ c ∈ sortOrder d gcols, (d.getCol c).length = d.colLen := fun c hc =>
    length_getCol_of_rect hrect ((mem_sortOrder hgsub).mp hc)
  have hre := rowsOrdered_eq hordne hlenc hM
  have hkt : ∀ i : Nat,
      ((sortOrder d gcols).map (fun c => (d.getCol c).getD i .null)).take gcols.length
        = d.keyAt gcols i := fun i => keyRow_take i
  have hp : ∀ a b : Col α,
      (a.take gcols.length == t) = true → (b.take gcols.length == t) = true →
      keyLeB gcols.length a b = true := by
    intro a b ha hb
    rw [beq_iff_eq] at ha hb
    rw [keyLeB, ha, hb]
    exact tupLeB_refl t
  rw [filter_sortS _ hp, hre, List.filter_map]
  refine congrArg _ (List.filter_congr ?_)
  intro i _
  show ((((sortOrder d gcols)).map
      (fun c => (d.getCol c).getD i .null)).take gcols.length == t) = (d.keyAt gcols i == t)
  rw [hkt i]

/-- C4 (amended): on a table with at least one record, `group_by` with a
valid non-empty duplicate-free list of grouping columns returns one row
per distinct grouping-key tuple in ascending sorted key order: grouping
columns hold the scalar key components, every selected other column
holds the list of that group's original values in original row order,
and the optional count column holds the group's row count. -/
theorem groupBy_correct {d : Dataset α} {gcols ocols : List String} {cnt : Option String}
    (hnd : d.colNames.Nodup) (hgnn : gcols.Nodup) (hgne : gcols ≠ [])
    (hgsub : ∀ g ∈ gcols, g ∈ d.colNames)
    (hallnd : (gcols ++ ocols ++ cntList cnt).Nodup)
    (hocol : ∀ o ∈ ocols, o ∈ d.colNames)
    (hrect : d.rect = true) (hL : 0 < d.recordCount) :
    ∃ e, groupByD d gcols (some ocols) cnt = some e ∧
      e.colNames = gcols ++ ocols ++ cntList cnt ∧
      e.rect = true ∧
      e.recordCount = (sortedKeys (d.keysOf gcols)).length ∧
      (∀ g ∈ gcols, e.getCol g =
        (sortedKeys (d.keysOf gcols)).map (fun t => t.getD (gcols.indexOf g) .null)) ∧
      (∀ o ∈ ocols, e.getCol o = (sortedKeys (d.keysOf gcols)).map
        (fun t => Value.vlist (groupVals d gcols o t))) ∧
      (∀ c ∈ cntList cnt, e.getCol c = (sortedKeys (d.keysOf gcols)).map
        (fun t => Value.int ((groupSize d gcols t : Nat) : Int))) := by
  have h1 := List.nodup_append.mp hallnd
  have h2 := List.nodup_append.mp h1.1
  have hdisj_go : gcols.Disjoint ocols := h2.2.2
  have hdisj_gc : (gcols ++ ocols).Disjoint (cntList cnt) := h1.2.2
  have hosub : ∀ o ∈ ocols, o ∈ sortOrder d gcols := fun o ho =>
    (mem_sortOrder hgsub).mpr (hocol o ho)
  have heq := groupByD_eq hnd hgnn hgsub hallnd hosub hrect hL
  have hdk := dk_eq_sortedKeys hnd hgnn hgsub hrect hL
  have hKlen : (pyDedup ((sortS (keyLeB gcols.length)
      (rowsOrdered d (sortOrder d gcols))).map
      (fun r => r.take gcols.length))).length = (sortedKeys (d.keysOf gcols)).length :=
    congrArg List.length hdk
  have hcolslen : ∀ p ∈ (gcols ++ ocols ++ cntList cnt).map (fun c =>
      (c, gbVal gcols ocols (sortOrder d gcols)
        (sortS (keyLeB gcols.length) (rowsOrdered d (sortOrder d gcols))) c)),
      p.2.length = (sortedKeys (d.keysOf gcols)).length := by
    intro p hp
    rcases List.mem_map.mp hp with ⟨c, hc, rfl⟩
    show (gbVal gcols ocols (sortOrder d gcols)
      (sortS (keyLeB gcols.length) (rowsOrdered d (sortOrder d gcols))) c).length = _
    rw [gbVal_length]
    exact hKlen
  have hmk := mkDataset_some hcolslen
  have hget : ∀ c ∈ gcols ++ ocols ++ cntList cnt,
      (Dataset.mk ((gcols ++ ocols ++ cntList cnt).map (fun c' =>
        (c', gbVal gcols ocols (sortOrder d gcols)
          (sortS (keyLeB gcols.length) (rowsOrdered d (sortOrder d gcols))) c')))).getCol c =
      gbVal gcols ocols (sortOrder d gcols)
        (sortS (keyLeB gcols.length) (rowsOrdered d (sortOrder d gcols))) c := by
    intro c hc
    rw [getCol_as_dget]
    show (dget ((gcols ++ ocols ++ cntList cnt).map (fun c' =>
      (c', gbVal gcols ocols (sortOrder d gcols)
        (sortS (keyLeB gcols.length) (rowsOrdered d (sortOrder d gcols))) c'))) c).getD [] = _
    rw [dget_map_fun _ c, if_pos hc]
    rfl
  refine ⟨_, heq.trans hmk, ?_, ?_, ?_, ?_, ?_, ?_⟩
  · rw [Dataset.colNames]
    show ((gcols ++ ocols ++ cntList cnt).map (fun c' =>
      (c', gbVal gcols ocols (sortOrder d gcols)
        (sortS (keyLeB gcols.length) (rowsOrdered d (sortOrder d gcols))) c'))).map
      Prod.fst = _
    rw [List.map_map]
    exact List.map_id _
  · exact rect_of_uniform hcolslen
  · rw [Dataset.recordCount, Dataset.rows]
    show (pyZip (((gcols ++ ocols ++ cntList cnt).map (fun c' =>
      (c', gbVal gcols ocols (sortOrder d gcols)
        (sortS (keyLeB gcols.length) (rowsOrdered d (sortOrder d gcols))) c'))).map
      Prod.snd)).length = _
    rw [List.map_map]
    apply pyZip_length
    · intro h
      rcases List.map_eq_nil.mp h with h'
      rcases List.append_eq_nil.mp h' with ⟨h1', _⟩
      rcases List.append_eq_nil.mp h1' with ⟨h2', _⟩
      exact hgne h2'
    · intro l hl
      rcases List.mem_map.mp hl with ⟨c, hc, rfl⟩
      show (gbVal gcols ocols (sortOrder d gcols)
        (sortS (keyLeB gcols.length) (rowsOrdered d (sortOrder d gcols))) c).length = _
      rw [gbVal_length]
      exact hKlen
  · intro g hg
    rw [hget g (List.mem_append_left _ (List.mem_append_left _ hg))]
    rw [gbVal, if_pos hg, hdk]
  · intro o ho
    have hog : o ∉ gcols := fun hogg => hdisj_go hogg ho
    rw [hget o (List.mem_append_left _ (List.mem_append_right _ ho))]
    rw [gbVal, if_neg hog, if_pos ho, hdk]
    apply List.map_congr_left
    intro t _
    congr 1
    rw [srows_filter_key hgsub hrect hL t, List.map_map, groupVals]
    apply List.map_congr_left
    intro i _
    show ((sortOrder d gcols).map (fun c => (d.getCol c).getD i .null)).getD
        ((sortOrder d gcols).indexOf o) .null = (d.getCol o).getD i .null
    exact keyRow_getD (hosub o ho) i
  · intro c hc
    have hcg : c ∉ gcols := fun hcgg => hdisj_gc (List.mem_append_left _ hcgg) hc
    have hco : c ∉ ocols := fun hcoo => hdisj_gc (List.mem_append_right _ hcoo) hc
    rw [hget c (List.mem_append_right _ hc)]
    rw [gbVal, if_neg hcg, if_neg hco, hdk]
    apply List.map_congr_left
    intro t _
    have hn : (sortS (keyLeB gcols.length) (rowsOrdered d (sortOrder d gcols))).countP
        (fun r => r.take gcols.length == t) = groupSize d gcols t := by
      rw [List.countP_eq_length_filter, srows_filter_key hgsub hrect hL t,
        List.length_map]
      rfl
    rw [hn]

theorem groupBy_fails_on_zero_rows :
    groupByD (⟨[("a", [])]⟩ : Dataset Int) ["a"] (some []) none = none := by decide

theorem groupBy_correct_witness :
    ∃ e, groupByD (⟨[("id", [Value.int 1, Value.int 1, Value.int 2]),
        ("x", [Value.int 10, Value.int 20, Value.int 30])]⟩ : Dataset Int)
        ["id"] (some ["x"]) (some "n") = some e ∧
      e.colNames = ["id"] ++ ["x"] ++ cntList (some "n") ∧
      e.rect = true ∧
      e.recordCount = (sortedKeys ((⟨[("id", [Value.int 1, Value.int 1, Value.int 2]),
        ("x", [Value.int 10, Value.int 20, Value.int 30])]⟩ : Dataset Int).keysOf
          ["id"])).length ∧
      (∀ g ∈ ["id"], e.getCol g =
        (sortedKeys ((⟨[("id", [Value.int 1, Value.int 1, Value.int 2]),
          ("x", [Value.int 10, Value.int 20, Value.int 30])]⟩ : Dataset Int).keysOf
            ["id"])).map (fun t => t.getD (["id"].indexOf g) .null)) ∧
      (∀ o ∈ ["x"], e.getCol o =
        (sortedKeys ((⟨[("id", [Value.int 1, Value.int 1, Value.int 2]),
          ("x", [Value.int 10, Value.int 20, Value.int 30])]⟩ : Dataset Int).keysOf
            ["id"])).map (fun t => Value.vlist (groupVals
              (⟨[("id", [Value.int 1, Value.int 1, Value.int 2]),
                ("x", [Value.int 10, Value.int 20, Value.int 30])]⟩ : Dataset Int)
              ["id"] o t))) ∧
      (∀ c ∈ cntList (some "n"), e.getCol c =
        (sortedKeys ((⟨[("id", [Value.int 1, Value.int 1, Value.int 2]),
          ("x", [Value.int 10, Value.int 20, Value.int 30])]⟩ : Dataset Int).keysOf
            ["id"])).map (fun t => Value.int ((groupSize
              (⟨[("id", [Value.int 1, Value.int 1, Value.int 2]),
                ("x", [Value.int 10, Value.int 20, Value.int 30])]⟩ : Dataset Int)
              ["id"] t : Nat) : Int))) :=
  groupBy_correct (by decide) (by decide) (by decide) (by decide) (by decide) (by decide)
    (by decide) (by decide)

/-- A `some` feeds straight through a bind. -/
theorem some_bind' {β γ : Type} (a : β) (f : β → Option γ) :
    ((some a : Option β) >>= f) = f a := rfl

/-- Skipped iterations of a monadic fold over `Option` drop out. -/
theorem foldlM_skip {β γ : Type} (q : γ → Prop) [DecidablePred q] (g : β → γ → Option β) :
    ∀ (l : List γ) (m : β),
      l.foldlM (fun m p => if q p then pure m else g m p) m =
      (l.filter (fun p => !(decide (q p)))).foldlM g m := by
  intro l
  induction l with
  | nil => intro m; rfl
  | cons x xs ih =>
    intro m
    by_cases hx : q x
    · have hcond : ¬((!(decide (q x))) = true) := by simp [hx]
      rw [List.foldlM_cons, List.filter_cons, if_neg hcond]
      have hqx : (if q x then (pure m : Option β) else g m x) = pure m := if_pos hx
      rw [hqx]
      simp only [Option.pure_def, Option.bind_eq_bind, Option.some_bind]
      exact ih m
    · have hcond : ((!(decide (q x))) = true) := by simp [hx]
      rw [List.foldlM_cons, List.filter_cons, if_pos hcond, List.foldlM_cons]
      have hqx : (if q x then (pure m : Option β) else g m x) = g m x := if_neg hx
      rw [hqx]
      cases hg : g m x with
      | none => rfl
      | some m' =>
        simp only [Option.bind_eq_bind, Option.some_bind]
        exact ih m'

/-- A fold that reads each value out of a long-enough row and appends it
equals the fold over the extracted (name, value) pairs. -/
theorem foldlM_get_append {add : Col α} :
    ∀ (l : List (Nat × String)) (m : List (String × Col α)),
      (∀ p ∈ l, p.1 < add.length) →
      l.foldlM (fun m p => do appendAt m p.2 (← add[p.1]?)) m =
      (l.map (fun p => (p.2, add.getD p.1 .null))).foldlM
        (fun m q => appendAt m q.1 q.2) m := by
  intro l
  induction l with
  | nil => intro m _; rfl
  | cons x xs ih =>
    intro m hlt
    rw [List.foldlM_cons, List.map_cons, List.foldlM_cons]
    have hx : x.1 < add.length := hlt x (List.mem_cons_self x xs)
    rw [List.getElem?_eq_getElem hx, List.getD_eq_getElem _ _ hx]
    simp only [Option.bind_eq_bind, Option.some_bind]
    cases ha : appendAt m x.2 add[x.1] with
    | none => rfl
    | some m' =>
      simp only [Option.bind_eq_bind, Option.some_bind]
      exact ih m' (fun p hp => hlt p (List.mem_cons_of_mem x hp))

/-- Folding `appendAt` over a pair list keeps the dict in function shape
and appends, per column, the values carried under that column's name. -/
theorem foldlM_appendAt_pairs {names : List String} :
    ∀ (ps : List (String × Value α)) (f : String → Col α),
      (∀ q ∈ ps, q.1 ∈ names) →
      ps.foldlM (fun m q => appendAt m q.1 q.2) (names.map (fun c => (c, f c))) =
      some (names.map (fun c =>
        (c, f c ++ (ps.filter (fun q => q.1 == c)).map Prod.snd))) := by
  intro ps
  induction ps with
  | nil =>
    intro f _
    simp only [List.foldlM_nil, List.filter_nil, List.map_nil, List.append_nil,
      Option.pure_def]
  | cons q qs ih =>
    intro f hmem
    rw [List.foldlM_cons]
    rw [appendAt_map_fun (hmem q (List.mem_cons_self q qs))]
    simp only [Option.bind_eq_bind, Option.some_bind]
    rw [ih _ (fun p hp => hmem p (List.mem_cons_of_mem q hp))]
    congr 1
    apply List.map_congr_left
    intro c _
    rw [Prod.mk.injEq]
    refine ⟨rfl, ?_⟩
    by_cases hc : c = q.1
    · have hcond : (q.1 == c) = true := by simp [hc]
      rw [if_pos hc, List.filter_cons, if_pos hcond, List.map_cons,
        List.append_assoc, List.singleton_append]
    · have hcond : ¬((q.1 == c) = true) := by
        simp only [beq_iff_eq]
        exact fun h => hc h.symm
      rw [if_neg hc, List.filter_cons, if_neg hcond]

/-- In a duplicate-free name list, filtering the enumeration for one
present name leaves exactly its (index, name) entry. -/
theorem enumFrom_filter_eq {c : String} :
    ∀ (names : List String) (n : Nat), names.Nodup → c ∈ names →
      (names.enumFrom n).filter (fun p => p.2 == c) = [(n + names.indexOf c, c)] := by
  intro names
  induction names with
  | nil => intro n _ hc; exact absurd hc (List.not_mem_nil c)
  | cons x xs ih =>
    intro n hnd hc
    rw [List.enumFrom_cons, List.filter_cons]
    rcases List.mem_cons.mp hc with rfl | hc'
    · have hcond : ((n, c).2 == c) = true := by simp
      rw [if_pos hcond]
      have hxs : c ∉ xs := (List.nodup_cons.mp hnd).1
      have hfil : (xs.enumFrom (n + 1)).filter (fun p => p.2 == c) = [] := by
        rw [List.filter_eq_nil_iff]
        intro p hp
        simp only [beq_iff_eq]
        intro hpc
        exact hxs (hpc ▸ List.enumFrom_map_snd (n+1) xs ▸
          List.mem_map_of_mem Prod.snd hp)
      rw [hfil, List.indexOf_cons_self]
      rfl
    · have hne : x ≠ c := by
        intro h
        exact (List.nodup_cons.mp hnd).1 (h ▸ hc')
      have hcond : ¬(((n, x).2 == c) = true) := by simpa using hne
      rw [if_neg hcond, ih (n + 1) (List.nodup_cons.mp hnd).2 hc']
      rw [List.indexOf_cons_ne _ (by simpa using hne)]
      have harith : n + 1 + List.indexOf c xs = n + (List.indexOf c xs).succ := by omega
      rw [harith]

/-- Filtering the enumeration for an absent name leaves nothing. -/
theorem enumFrom_filter_nil {c : String} :
    ∀ (names : List String) (n : Nat), c ∉ names →
      (names.enumFrom n).filter (fun p => p.2 == c) = [] := by
  intro names n hc
  rw [List.filter_eq_nil_iff]
  intro p hp
  simp only [beq_iff_eq]
  intro hpc
  exact hc (hpc ▸ List.enumFrom_map_snd n names ▸ List.mem_map_of_mem Prod.snd hp)

theorem pyDedup_eq_self_of_nodup {β : Type} [DecidableEq β] {l : List β}
    (h : l.Nodup) : pyDedup l = l := by
  have : ∀ (l' seen : List β), l'.Nodup → (∀ x ∈ l', x ∉ seen) →
      pyDedupAux seen l' = l' := by
    intro l'
    induction l' with
    | nil => intro seen _ _; rfl
    | cons x xs ih =>
      intro seen hnd hdis
      rw [pyDedupAux]
      have hx : x ∉ seen := hdis x (List.mem_cons_self x xs)
      rw [if_neg hx]
      congr 1
      apply ih (x :: seen) (List.nodup_cons.mp hnd).2
      intro y hy hmem
      rcases List.mem_cons.mp hmem with rfl | hmem'
      · exact (List.nodup_cons.mp hnd).1 hy
      · exact hdis y (List.mem_cons_of_mem x hy) hmem'
  exact this l [] h (by simp)

theorem flatMap_length_const {β γ : Type} {g : β → List γ} {m : Nat} :
    ∀ {xs : List β}, (∀ x ∈ xs, (g x).length = m) →
      (xs.flatMap g).length = xs.length * m := by
  intro xs
  induction xs with
  | nil => intro _; simp
  | cons x xs ih =>
    intro h
    rw [List.flatMap_cons, List.length_append, h x (List.mem_cons_self x xs),
      ih (fun y hy => h y (List.mem_cons_of_mem x hy)), List.length_cons]
    ring

theorem flatMap_getD_const {β : Type} {g : β → Col α} {m : Nat} :
    ∀ {xs : List β} (hu : ∀ x ∈ xs, (g x).length = m)
      {q : Nat} (hq : q < xs.length) {b : Nat} (hb : b < m),
      (xs.flatMap g).getD (q * m + b) .null = (g (xs.get ⟨q, hq⟩)).getD b .null := by
  intro xs
  induction xs with
  | nil =>
    intro _ q hq
    exact absurd hq (by simp)
  | cons x xs ih =>
    intro hu q hq b hb
    rw [List.flatMap_cons]
    cases q with
    | zero =>
      have hbx : 0 * m + b < (g x).length := by
        rw [hu x (List.mem_cons_self x xs)]
        omega
      rw [List.getD_append _ _ _ _ hbx]
      have harith : 0 * m + b = b := by omega
      rw [harith]
      rfl
    | succ q' =>
      have hge : (g x).length ≤ (q' + 1) * m + b := by
        rw [hu x (List.mem_cons_self x xs)]
        nlinarith
      rw [List.getD_append_right _ _ _ _ hge]
      have harith : (q' + 1) * m + b - (g x).length = q' * m + b := by
        rw [hu x (List.mem_cons_self x xs)]
        ring_nf
        omega
      rw [harith]
      have hq' : q' < xs.length := by
        rw [List.length_cons] at hq
        omega
      rw [ih (fun y hy => hu y (List.mem_cons_of_mem x hy)) hq' hb]
      rfl

theorem mapM_some_of_forall {β γ : Type} {f : β → Option γ} {g : β → γ} :
    ∀ {l : List β}, (∀ x ∈ l, f x = some (g x)) → l.mapM f = some (l.map g) := by
  intro l
  induction l with
  | nil => intro _; rfl
  | cons x xs ih =>
    intro h
    rw [List.mapM_cons, h x (List.mem_cons_self x xs), List.map_cons]
    rw [ih (fun y hy => h y (List.mem_cons_of_mem x hy))]
    rfl

/-- When every remaining row carries exactly the sought key, the scan
collects the whole suffix. -/
theorem scanRun_all_eq {onLen : Nat} {key : Col α} :
    ∀ {zipped : List (Col α)}, (∀ r ∈ zipped, r.take onLen = key) →
      scanRun onLen key zipped = (zipped, []) := by
  intro zipped
  induction zipped with
  | nil => intro _; rfl
  | cons r rest ih =>
    intro h
    rw [scanRun]
    have hr : listCmp (r.take onLen) key = .eq :=
      (listCmp_eq_iff _ _).mpr (h r (List.mem_cons_self r rest))
    rw [hr, ih (fun x hx => h x (List.mem_cons_of_mem r hx))]

/-- Organising a single key over a nonempty run of rows that all carry
it yields that one run, with no padding. -/
theorem organiseGo_single {onLen : Nat} {pad : Bool} {lcl : Nat} {K : Col α}
    {zipped : List (Col α)} (hz : ∀ r ∈ zipped, r.take onLen = K) (hne : zipped ≠ []) :
    organiseGo onLen pad lcl [K] zipped = [zipped] := by
  rw [organiseGo, scanRun_all_eq hz]
  have hcond : ¬((zipped.isEmpty && pad) = true) := by
    cases zipped with
    | nil => exact absurd rfl hne
    | cons a l => simp [List.isEmpty]
  rw [if_neg hcond]
  rfl

theorem sortS_singleton {β : Type} (le : β → β → Bool) (x : β) :
    sortS le [x] = [x] := rfl

/-- Filtering the key-value pairs extracted from an enumerated name list
for one column name. -/
theorem enum_pairs_filter {names : List String} {add : Col α} {c : String}
    (hnd : names.Nodup) :
    ((names.enum.map (fun p => (p.2, add.getD p.1 .null))).filter (fun q => q.1 == c)) =
      if c ∈ names then [(c, add.getD (names.indexOf c) .null)] else [] := by
  rw [List.filter_map]
  show (names.enum.filter (fun p => p.2 == c)).map (fun p => (p.2, add.getD p.1 .null)) = _
  rw [List.enum_eq_enumFrom]
  by_cases hc : c ∈ names
  · rw [if_pos hc, enumFrom_filter_eq names 0 hnd hc, List.map_singleton, Nat.zero_add]
  · rw [if_neg hc, enumFrom_filter_nil names 0 hc]
    rfl

/-- The same, when names belonging to the key list were skipped. -/
theorem enum_pairs_filter_skip {names onCols : List String} {add : Col α} {c : String}
    (hnd : names.Nodup) :
    (((names.enum.filter (fun p => !(decide (p.2 ∈ onCols)))).map
        (fun p => (p.2, add.getD p.1 .null))).filter (fun q => q.1 == c)) =
      if c ∈ names ∧ c ∉ onCols then [(c, add.getD (names.indexOf c) .null)] else [] := by
  rw [List.filter_map]
  show ((names.enum.filter (fun p => !(decide (p.2 ∈ onCols)))).filter
    (fun p => p.2 == c)).map (fun p => (p.2, add.getD p.1 .null)) = _
  rw [List.filter_filter, List.enum_eq_enumFrom]
  by_cases hcn : c ∈ names
  · by_cases hco : c ∈ onCols
    · rw [if_neg (by simp [hco])]
      have hnil : (names.enumFrom 0).filter
          (fun p => (p.2 == c) && !(decide (p.2 ∈ onCols))) = [] := by
        rw [List.filter_eq_nil_iff]
        intro p _
        simp only [Bool.and_eq_true, beq_iff_eq, Bool.not_eq_true', decide_eq_false_iff_not]
        rintro ⟨rfl, hmem⟩
        exact hmem hco
      rw [hnil]
      rfl
    · rw [if_pos ⟨hcn, hco⟩]
      have hcong : (names.enumFrom 0).filter
          (fun p => (p.2 == c) && !(decide (p.2 ∈ onCols))) =
          (names.enumFrom 0).filter (fun p => p.2 == c) := by
        apply List.filter_congr
        intro p _
        cases hpc : (p.2 == c) with
        | false => rfl
        | true =>
          have : p.2 = c := beq_iff_eq.mp hpc
          simp [this, hco]
      rw [hcong, enumFrom_filter_eq names 0 hnd hcn, List.map_singleton, Nat.zero_add]
  · rw [if_neg (by simp [hcn])]
    have hnil : (names.enumFrom 0).filter
        (fun p => (p.2 == c) && !(decide (p.2 ∈ onCols))) = [] := by
      rw [List.filter_eq_nil_iff]
      intro p hp
      simp only [Bool.and_eq_true, beq_iff_eq, Bool.not_eq_true', decide_eq_false_iff_not]
      rintro ⟨rfl, _⟩
      exact hcn (List.enumFrom_map_snd 0 names ▸ List.mem_map_of_mem Prod.snd hp)
    rw [hnil]
    rfl

theorem enum_mem_bounds {β : Type} {l : List β} {p : Nat × β} (hp : p ∈ l.enum) :
    p.1 < l.length ∧ p.2 ∈ l := by
  obtain ⟨i, hi, hpi⟩ := List.getElem_of_mem hp
  have hil : i < l.length := by
    rw [List.enum_length] at hi
    exact hi
  rw [List.getElem_enum] at hpi
  constructor
  · rw [← hpi]
    exact hil
  · rw [← hpi]
    exact List.getElem_mem hil

/-- One merge emission step on a function-shaped dict with the merge's
output columns: every column receives exactly one value (its `mval`),
provided the non-key columns of the two sides are disjoint and the two
rows are full-width. -/
theorem emitOne_spec {onCols leftCols rightCols : List String} {key la ra : Col α}
    {f : String → Col α}
    (honnd : onCols.Nodup) (hlnd : leftCols.Nodup) (hrnd : rightCols.Nodup)
    (honl : ∀ k ∈ onCols, k ∈ leftCols)
    (hdisj : ∀ c ∈ leftCols, c ∈ rightCols → c ∈ onCols)
    (hkey : key.length = onCols.length)
    (hla : la.length = leftCols.length) (hra : ra.length = rightCols.length) :
    emitOne onCols leftCols rightCols key la ra
      ((leftCols ++ rightCols.filter (fun c => !leftCols.contains c)).map
        (fun c => (c, f c))) =
    some ((leftCols ++ rightCols.filter (fun c => !leftCols.contains c)).map (fun c =>
      (c, f c ++ [mval onCols leftCols rightCols key la ra c]))) := by
  have hout1 : ∀ q ∈ onCols.enum.map (fun p => (p.2, key.getD p.1 .null)),
      q.1 ∈ leftCols ++ rightCols.filter (fun c => !leftCols.contains c) := by
    intro q hq
    rcases List.mem_map.mp hq with ⟨p, hp, rfl⟩
    exact List.mem_append_left _ (honl _ (enum_mem_bounds hp).2)
  have hout2 : ∀ q ∈ (leftCols.enum.filter (fun p => !(decide (p.2 ∈ onCols)))).map
      (fun p => (p.2, la.getD p.1 .null)),
      q.1 ∈ leftCols ++ rightCols.filter (fun c => !leftCols.contains c) := by
    intro q hq
    rcases List.mem_map.mp hq with ⟨p, hp, rfl⟩
    exact List.mem_append_left _ (enum_mem_bounds (List.mem_of_mem_filter hp)).2
  have hout3 : ∀ q ∈ (rightCols.enum.filter (fun p => !(decide (p.2 ∈ onCols)))).map
      (fun p => (p.2, ra.getD p.1 .null)),
      q.1 ∈ leftCols ++ rightCols.filter (fun c => !leftCols.contains c) := by
    intro q hq
    rcases List.mem_map.mp hq with ⟨p, hp, rfl⟩
    have hpr : p.2 ∈ rightCols := (enum_mem_bounds (List.mem_of_mem_filter hp)).2
    by_cases hpl : p.2 ∈ leftCols
    · exact List.mem_append_left _ hpl
    · refine List.mem_append_right _ (List.mem_filter.mpr ⟨hpr, ?_⟩)
      simp only [Bool.not_eq_eq_eq_not, Bool.not_true, List.contains_eq_any_beq,
        List.any_eq_false]
      intro a ha
      simp only [beq_iff_eq]
      intro h
      exact hpl (h ▸ ha)
  have hb1 : ∀ p ∈ onCols.enum, p.1 < key.length := by
    intro p hp
    rw [hkey]
    exact (enum_mem_bounds hp).1
  have hb2 : ∀ p ∈ leftCols.enum.filter (fun p => !(decide (p.2 ∈ onCols))),
      p.1 < la.length := by
    intro p hp
    rw [hla]
    exact (enum_mem_bounds (List.mem_of_mem_filter hp)).1
  have hb3 : ∀ p ∈ rightCols.enum.filter (fun p => !(decide (p.2 ∈ onCols))),
      p.1 < ra.length := by
    intro p hp
    rw [hra]
    exact (enum_mem_bounds (List.mem_of_mem_filter hp)).1
  have h1 := (foldlM_get_append onCols.enum
    ((leftCols ++ rightCols.filter (fun c => !leftCols.contains c)).map
      (fun c => (c, f c))) hb1).trans (foldlM_appendAt_pairs _ _ hout1)
  have h2 := fun (m : List (String × Col α)) =>
    (foldlM_skip (fun p => p.2 ∈ onCols)
      (fun m p => do appendAt m p.2 (← la[p.1]?)) leftCols.enum m).trans
    (foldlM_get_append _ m hb2)
  have h3 := fun (m : List (String × Col α)) =>
    (foldlM_skip (fun p => p.2 ∈ onCols)
      (fun m p => do appendAt m p.2 (← ra[p.1]?)) rightCols.enum m).trans
    (foldlM_get_append _ m hb3)
  rw [emitOne, h1]
  simp only [some_bind']
  rw [h2, foldlM_appendAt_pairs _ _ hout2]
  simp only [some_bind']
  rw [h3, foldlM_appendAt_pairs _ _ hout3]
  congr 1
  apply List.map_congr_left
  intro c hc
  rw [Prod.mk.injEq]
  refine ⟨rfl, ?_⟩
  rw [enum_pairs_filter honnd, enum_pairs_filter_skip hlnd, enum_pairs_filter_skip hrnd,
    mval]
  rcases List.mem_append.mp hc with hcl | hcr
  · by_cases hco : c ∈ onCols
    · rw [if_pos hco, if_pos hco,
        if_neg (by rintro ⟨_, h2⟩; exact h2 hco),
        if_neg (by rintro ⟨_, h2⟩; exact h2 hco)]
      simp only [List.map_singleton, List.map_nil, List.append_nil]
    · have hcr2 : ¬(c ∈ rightCols ∧ c ∉ onCols) := by
        rintro ⟨hcrr, _⟩
        exact hco (hdisj c hcl hcrr)
      rw [if_neg hco, if_neg hco, if_pos ⟨hcl, hco⟩, if_neg hcr2, if_pos hcl]
      simp only [List.map_singleton, List.map_nil, List.append_nil, List.nil_append,
        List.append_assoc]
  · have hcrr : c ∈ rightCols := (List.mem_filter.mp hcr).1
    have hcl' : c ∉ leftCols := by
      intro hmem
      have h2 := (List.mem_filter.mp hcr).2
      rw [contains_of_mem hmem] at h2
      exact absurd h2 (by simp)
    have hco : c ∉ onCols := fun hco => hcl' (honl c hco)
    rw [if_neg hco, if_neg hco, if_neg hcl',
      if_neg (by rintro ⟨h1, _⟩; exact hcl' h1), if_pos ⟨hcrr, hco⟩]
    simp only [List.map_singleton, List.map_nil, List.append_nil, List.nil_append]

theorem emitRow_fold {onCols leftCols rightCols : List String} {key la : Col α}
    (honnd : onCols.Nodup) (hlnd : leftCols.Nodup) (hrnd : rightCols.Nodup)
    (honl : ∀ k ∈ onCols, k ∈ leftCols)
    (hdisj : ∀ c ∈ leftCols, c ∈ rightCols → c ∈ onCols)
    (hkey : key.length = onCols.length) (hla : la.length = leftCols.length) :
    ∀ (rta : List (Col α)) (f : String → Col α),
      (∀ ra ∈ rta, ra.length = rightCols.length) →
      rta.foldlM (fun m ra => emitOne onCols leftCols rightCols key la ra m)
        ((leftCols ++ rightCols.filter (fun c => !leftCols.contains c)).map
          (fun c => (c, f c))) =
      some ((leftCols ++ rightCols.filter (fun c => !leftCols.contains c)).map (fun c =>
        (c, f c ++ rta.map (fun ra => mval onCols leftCols rightCols key la ra c)))) := by
  intro rta
  induction rta with
  | nil =>
    intro f _
    simp only [List.foldlM_nil, List.map_nil, List.append_nil, Option.pure_def]
  | cons ra rta' ih =>
    intro f hlen
    rw [List.foldlM_cons]
    rw [emitOne_spec honnd hlnd hrnd honl hdisj hkey hla
      (hlen ra (List.mem_cons_self ra rta'))]
    simp only [some_bind']
    rw [ih _ (fun x hx => hlen x (List.mem_cons_of_mem ra hx))]
    congr 1
    apply List.map_congr_left
    intro c _
    rw [Prod.mk.injEq]
    refine ⟨rfl, ?_⟩
    rw [List.map_cons, List.append_assoc, List.singleton_append]

theorem emitKey_spec {onCols leftCols rightCols : List String} {key : Col α}
    (honnd : onCols.Nodup) (hlnd : leftCols.Nodup) (hrnd : rightCols.Nodup)
    (honl : ∀ k ∈ onCols, k ∈ leftCols)
    (hdisj : ∀ c ∈ leftCols, c ∈ rightCols → c ∈ onCols)
    (hkey : key.length = onCols.length) :
    ∀ (lta : List (Col α)) (rta : List (Col α)) (f : String → Col α),
      (∀ la ∈ lta, la.length = leftCols.length) →
      (∀ ra ∈ rta, ra.length = rightCols.length) →
      emitKey onCols leftCols rightCols key lta rta
        ((leftCols ++ rightCols.filter (fun c => !leftCols.contains c)).map
          (fun c => (c, f c))) =
      some ((leftCols ++ rightCols.filter (fun c => !leftCols.contains c)).map (fun c =>
        (c, f c ++ lta.flatMap (fun la => rta.map (fun ra =>
          mval onCols leftCols rightCols key la ra c))))) := by
  intro lta
  induction lta with
  | nil =>
    intro rta f _ _
    simp only [emitKey, List.foldlM_nil, List.flatMap_nil, List.append_nil,
      Option.pure_def]
  | cons la lta' ih =>
    intro rta f hlas hras
    rw [emitKey, List.foldlM_cons]
    rw [emitRow_fold honnd hlnd hrnd honl hdisj hkey
      (hlas la (List.mem_cons_self la lta')) rta f hras]
    simp only [some_bind']
    have := ih rta (fun c => f c ++ rta.map (fun ra =>
        mval onCols leftCols rightCols key la ra c))
      (fun x hx => hlas x (List.mem_cons_of_mem la hx)) hras
    rw [emitKey] at this
    rw [this]
    congr 1
    apply List.map_congr_left
    intro c _
    rw [Prod.mk.injEq]
    refine ⟨rfl, ?_⟩
    rw [List.flatMap_cons, List.append_assoc]

theorem mapM_map {β γ δ : Type} {h : β → γ} {f : γ → Option δ} :
    ∀ (l : List β), (l.map h).mapM f = l.mapM (fun x => f (h x)) := by
  intro l
  induction l with
  | nil => rfl
  | cons x xs ih =>
    rw [List.map_cons, List.mapM_cons, List.mapM_cons, ih]

theorem pyDedup_all_eq {β : Type} [DecidableEq β] {l : List β} {v : β} (hne : l ≠ [])
    (h : ∀ a ∈ l, a = v) : pyDedup l = [v] := by
  have hlen := pyDedup_const (v := v) h
  have hv : v ∈ pyDedup l := by
    rw [mem_pyDedup]
    cases l with
    | nil => exact absurd rfl hne
    | cons x xs => exact h x (List.mem_cons_self x xs) ▸ List.mem_cons_self x xs
  match hp : pyDedup l with
  | [] => rw [hp] at hv; exact absurd hv (List.not_mem_nil v)
  | [x] =>
    rw [hp] at hv
    rcases List.mem_singleton.mp hv with rfl
    rfl
  | x :: y :: ys =>
    rw [hp] at hlen
    simp at hlen

/-- The key tuples of the ordered rows, before sorting. -/
theorem rowsOrdered_map_take {d : Dataset α} {gcols : List String}
    (hgsub : ∀ g ∈ gcols, g ∈ d.colNames)
    (hrect : d.rect = true) (hL : 0 < d.recordCount) :
    (rowsOrdered d (sortOrder d gcols)).map (fun r => r.take gcols.length)
      = d.keysOf gcols := by
  have hcne : d.cols ≠ [] := cols_ne_nil_of_recordCount hL
  have hcolne : d.colNames ≠ [] := by simpa [Dataset.colNames] using hcne
  have hordne : sortOrder d gcols ≠ [] := sortOrder_ne_nil hgsub hcolne
  have hM : d.recordCount = d.colLen := recordCount_of_rect hrect hcne
  have hlenc : ∀ c ∈ sortOrder d gcols, (d.getCol c).length = d.colLen := fun c hc =>
    length_getCol_of_rect hrect ((mem_sortOrder hgsub).mp hc)
  rw [rowsOrdered_eq hordne hlenc hM, List.map_map]
  apply List.map_congr_left
  intro i _
  show ((sortOrder d gcols).map (fun c => (d.getCol c).getD i .null)).take gcols.length
      = d.keyAt gcols i
  exact keyRow_take i

/-- Evaluating `sideKeys` of a successfully sorted table: the deduplicated key
tuples of the sorted rows. -/
theorem sideKeys_of_sorted {d : Dataset α} {onCols : List String}
    (hnd : d.colNames.Nodup) (hnn : onCols.Nodup)
    (hsub : ∀ n ∈ onCols, n ∈ d.colNames)
    (hrect : d.rect = true) (hL : 0 < d.recordCount) {e : Dataset α}
    (he : sortD d onCols = some e) :
    sideKeys e onCols = some (pyDedup ((sortS (keyLeB onCols.length)
      (rowsOrdered d (sortOrder d onCols))).map (fun r => r.take onCols.length))) := by
  obtain ⟨e', hsome, hcols, hnames, hrows, hmap, herect, hclen, hrc⟩ :=
    sortD_spec hnd hnn hsub hrect hL
  rw [he] at hsome
  obtain he2 : e = e' := Option.some.inj hsome
  subst he2
  have hordnd : (sortOrder d onCols).Nodup := sortOrder_nodup hnd hnn
  have hsortmem : ∀ ρ ∈ sortS (keyLeB onCols.length) (rowsOrdered d (sortOrder d onCols)),
      ρ.length = (sortOrder d onCols).length := by
    intro ρ hρ
    have h0 := (sortS_perm _ _).mem_iff.mp hρ
    rw [rowsOrdered] at h0
    rw [pyZip_mem_length h0, List.length_map]
  have hrecords : e.records =
      (sortS (keyLeB onCols.length) (rowsOrdered d (sortOrder d onCols))).map
        (fun ρ => (sortOrder d onCols).zip ρ) := by
    rw [Dataset.records, hrows, hnames]
  have hmapm : (sortS (keyLeB onCols.length)
      (rowsOrdered d (sortOrder d onCols))).mapM
        (fun ρ => onCols.mapM (fun k => dget ((sortOrder d onCols).zip ρ) k)) =
      some ((sortS (keyLeB onCols.length)
        (rowsOrdered d (sortOrder d onCols))).map (fun ρ => ρ.take onCols.length)) := by
    apply mapM_some_of_forall
    intro ρ hρ
    have hordnd' : (onCols ++ d.colNames.filter (fun c => !onCols.contains c)).Nodup :=
      hordnd
    have hρlen : ρ.length =
        (onCols ++ d.colNames.filter (fun c => !onCols.contains c)).length :=
      hsortmem ρ hρ
    exact mapM_dget_zip_take onCols _ hordnd' hρlen
  rw [sideKeys, hrecords, mapM_map, hmapm]
  rfl

theorem foldlM_singleton {β γ : Type} (f : β → γ → Option β) (b : β) (x : γ) :
    [x].foldlM f b = f b x := by
  show (f b x >>= fun b' => List.foldlM f b' []) = f b x
  cases f b x <;> rfl

/-- Evaluating `mergeD` once both sorts succeed. -/
theorem mergeD_eval {l r : Dataset α} {onCols : List String} {how : String}
    (hhow : how ∈ (["inner", "left", "right", "full"] : List String)) {ls rs : Dataset α}
    (hL : sortD l onCols = some ls) (hR : sortD r onCols = some rs) :
    mergeD l r (some onCols) how = (do
      let lkeys ← sideKeys ls onCols
      let rkeys ← sideKeys rs onCols
      let st ← ((allKeysOf how lkeys rkeys).zip
          ((organiseGo onCols.length (!(how == "left" || how == "inner"))
            ls.colNames.length (allKeysOf how lkeys rkeys)
            (pyZip (ls.colNames.map ls.getCol))).zip
           (organiseGo onCols.length (!(how == "right" || how == "inner"))
            ls.colNames.length (allKeysOf how lkeys rkeys)
            (pyZip (rs.colNames.map rs.getCol))))).foldlM
        (fun m t => emitKey onCols ls.colNames rs.colNames t.1 t.2.1 t.2.2 m)
        (dictOf ((ls.colNames ++ rs.colNames.filter
          (fun c => !ls.colNames.contains c)).map (fun c => (c, ([] : Col α)))))
      pure (Dataset.mk st)) := by
  rw [mergeD.eq_def, if_pos hhow]
  show (match sortD l onCols, sortD r onCols with
    | some ls2, some rs2 => do
      let lkeys ← sideKeys ls2 onCols
      let rkeys ← sideKeys rs2 onCols
      let st ← ((allKeysOf how lkeys rkeys).zip
          ((organiseGo onCols.length (!(how == "left" || how == "inner"))
            ls2.colNames.length (allKeysOf how lkeys rkeys)
            (pyZip (ls2.colNames.map ls2.getCol))).zip
           (organiseGo onCols.length (!(how == "right" || how == "inner"))
            ls2.colNames.length (allKeysOf how lkeys rkeys)
            (pyZip (rs2.colNames.map rs2.getCol))))).foldlM
        (fun (m : List (String × Col α))
            (t : Col α × List (Col α) × List (Col α)) =>
          emitKey onCols ls2.colNames rs2.colNames t.1 t.2.1 t.2.2 m)
        (dictOf ((ls2.colNames ++ rs2.colNames.filter
          (fun c => !ls2.colNames.contains c)).map (fun c => (c, ([] : Col α)))))
      pure (Dataset.mk st)
    | _, _ => none) = _
  rw [hL, hR]

/-- The bundle of facts about one sorted side of a single-key merge. -/
theorem side_facts {d : Dataset α} {onCols : List String} {K : Col α}
    (hnd : d.colNames.Nodup) (honnd : onCols.Nodup)
    (hsub : ∀ k ∈ onCols, k ∈ d.colNames)
    (hrect : d.rect = true) (hpos : 0 < d.recordCount)
    (hK : ∀ t ∈ d.keysOf onCols, t = K) :
    (∀ ρ ∈ sortS (keyLeB onCols.length) (rowsOrdered d (sortOrder d onCols)),
      ρ.take onCols.length = K) ∧
    sortS (keyLeB onCols.length) (rowsOrdered d (sortOrder d onCols)) ≠ [] ∧
    (∀ ρ ∈ sortS (keyLeB onCols.length) (rowsOrdered d (sortOrder d onCols)),
      ρ.length = (sortOrder d onCols).length) ∧
    (sortS (keyLeB onCols.length) (rowsOrdered d (sortOrder d onCols))).length
      = d.recordCount ∧
    pyDedup ((sortS (keyLeB onCols.length)
      (rowsOrdered d (sortOrder d onCols))).map (fun ρ => ρ.take onCols.length)) = [K] := by
  have hcne : d.cols ≠ [] := cols_ne_nil_of_recordCount hpos
  have hcolne : d.colNames ≠ [] := by simpa [Dataset.colNames] using hcne
  have hordne : sortOrder d onCols ≠ [] := sortOrder_ne_nil hsub hcolne
  have hM : d.recordCount = d.colLen := recordCount_of_rect hrect hcne
  have hlenc : ∀ c ∈ sortOrder d onCols, (d.getCol c).length = d.colLen := fun c hc =>
    length_getCol_of_rect hrect ((mem_sortOrder hsub).mp hc)
  have hmapne : (sortOrder d onCols).map d.getCol ≠ [] := by simpa using hordne
  have hmaplen : ∀ x ∈ (sortOrder d onCols).map d.getCol, x.length = d.colLen := by
    intro x hx
    rcases List.mem_map.mp hx with ⟨c, hc, rfl⟩
    exact hlenc c hc
  have hrows0len : (rowsOrdered d (sortOrder d onCols)).length = d.colLen :=
    pyZip_length hmapne hmaplen
  have hperm := sortS_perm (keyLeB onCols.length) (rowsOrdered d (sortOrder d onCols))
  have hsrlen : (sortS (keyLeB onCols.length)
      (rowsOrdered d (sortOrder d onCols))).length = d.recordCount := by
    rw [hperm.length_eq, hrows0len, hM]
  have hmt := rowsOrdered_map_take hsub hrect hpos
  have hsrK : ∀ ρ ∈ sortS (keyLeB onCols.length) (rowsOrdered d (sortOrder d onCols)),
      ρ.take onCols.length = K := by
    intro ρ hρ
    apply hK
    rw [← hmt]
    exact List.mem_map_of_mem _ (hperm.mem_iff.mp hρ)
  have hsrne : sortS (keyLeB onCols.length) (rowsOrdered d (sortOrder d onCols)) ≠ [] := by
    intro h
    rw [h] at hsrlen
    simp at hsrlen
    omega
  have hsortmem : ∀ ρ ∈ sortS (keyLeB onCols.length)
      (rowsOrdered d (sortOrder d onCols)), ρ.length = (sortOrder d onCols).length := by
    intro ρ hρ
    have h0 := hperm.mem_iff.mp hρ
    rw [rowsOrdered] at h0
    rw [pyZip_mem_length h0, List.length_map]
  refine ⟨hsrK, hsrne, hsortmem, hsrlen, ?_⟩
  apply pyDedup_all_eq (by simpa using hsrne)
  intro a ha
  rcases List.mem_map.mp ha with ⟨ρ, hρ, rfl⟩
  exact hsrK ρ hρ

/-- A merge in the single-shared-key scenario with disjoint non-key
columns: all four modes emit exactly the cartesian product of the two
sorted row lists. -/
theorem merge_single_key {l r : Dataset α} {onCols : List String} {K : Col α}
    {how : String}
    (hhow : how ∈ (["inner", "left", "right", "full"] : List String))
    (hlnd : l.colNames.Nodup) (hrnd : r.colNames.Nodup) (honnd : onCols.Nodup)
    (honl : ∀ k ∈ onCols, k ∈ l.colNames) (honr : ∀ k ∈ onCols, k ∈ r.colNames)
    (hdisj : ∀ c ∈ l.colNames, c ∈ r.colNames → c ∈ onCols)
    (hlrect : l.rect = true) (hrrect : r.rect = true)
    (hn : 0 < l.recordCount) (hm : 0 < r.recordCount)
    (hlK : ∀ t ∈ l.keysOf onCols, t = K) (hrK : ∀ t ∈ r.keysOf onCols, t = K) :
    mergeD l r (some onCols) how = some (Dataset.mk
      ((sortOrder l onCols ++ (sortOrder r onCols).filter
          (fun c => !(sortOrder l onCols).contains c)).map (fun c =>
        (c, (sortS (keyLeB onCols.length) (rowsOrdered l (sortOrder l onCols))).flatMap
          (fun la => (sortS (keyLeB onCols.length)
              (rowsOrdered r (sortOrder r onCols))).map (fun ra =>
            mval onCols (sortOrder l onCols) (sortOrder r onCols) K la ra c)))))) := by
  obtain ⟨ls, hsomeL, hcolsL, hnamesL, hrowsL, hmapL, hrectL, hclenL, hrcL⟩ :=
    sortD_spec hlnd honnd honl hlrect hn
  obtain ⟨rs, hsomeR, hcolsR, hnamesR, hrowsR, hmapR, hrectR, hclenR, hrcR⟩ :=
    sortD_spec hrnd honnd honr hrrect hm
  obtain ⟨hsrKL, hsrneL, hsortmemL, hsrlenL, hdkL⟩ :=
    side_facts hlnd honnd honl hlrect hn hlK
  obtain ⟨hsrKR, hsrneR, hsortmemR, hsrlenR, hdkR⟩ :=
    side_facts hrnd honnd honr hrrect hm hrK
  have hsideL := sideKeys_of_sorted hlnd honnd honl hlrect hn hsomeL
  have hsideR := sideKeys_of_sorted hrnd honnd honr hrrect hm hsomeR
  have hLcne : l.cols ≠ [] := cols_ne_nil_of_recordCount hn
  have hLcolne : l.colNames ≠ [] := by simpa [Dataset.colNames] using hLcne
  have hordneL : sortOrder l onCols ≠ [] := sortOrder_ne_nil honl hLcolne
  have hordposL : 0 < (sortOrder l onCols).length := List.length_pos.mpr hordneL
  have hRcne : r.cols ≠ [] := cols_ne_nil_of_recordCount hm
  have hRcolne : r.colNames ≠ [] := by simpa [Dataset.colNames] using hRcne
  have hordneR : sortOrder r onCols ≠ [] := sortOrder_ne_nil honr hRcolne
  have hordposR : 0 < (sortOrder r onCols).length := List.length_pos.mpr hordneR
  have hordndL : (sortOrder l onCols).Nodup := sortOrder_nodup hlnd honnd
  have hordndR : (sortOrder r onCols).Nodup := sortOrder_nodup hrnd honnd
  have hzipL : pyZip ((sortOrder l onCols).map ls.getCol) =
      sortS (keyLeB onCols.length) (rowsOrdered l (sortOrder l onCols)) := by
    rw [hmapL]
    exact pyZip_pyZip hsrneL hsortmemL hordposL
  have hzipR : pyZip ((sortOrder r onCols).map rs.getCol) =
      sortS (keyLeB onCols.length) (rowsOrdered r (sortOrder r onCols)) := by
    rw [hmapR]
    exact pyZip_pyZip hsrneR hsortmemR hordposR
  have hK0 : l.keyAt onCols 0 = K := by
    apply hlK
    rw [Dataset.keysOf]
    exact List.mem_map_of_mem _ (List.mem_range.mpr hn)
  have hKlen : K.length = onCols.length := by
    rw [← hK0, Dataset.keyAt, List.length_map]
  have hKK : pyDedup ([K, K] : List (Col α)) = [K] := by
    apply pyDedup_all_eq (by simp)
    intro a ha
    rcases List.mem_cons.mp ha with rfl | h
    · rfl
    · exact List.mem_singleton.mp h
  have hfilK : (([K] : List (Col α)).filter
      (fun t => ([K] : List (Col α)).contains t)) = [K] := by
    rw [List.filter_cons, if_pos (by simp)]
    rfl
  have hallkeys : allKeysOf how ([K] : List (Col α)) [K] = [K] := by
    have h4 : how = "inner" ∨ how = "left" ∨ how = "right" ∨ how = "full" := by
      simpa using hhow
    rcases h4 with rfl | rfl | rfl | rfl
    · rw [allKeysOf, if_pos rfl, hfilK, sortS_singleton]
    · rw [allKeysOf, if_neg (by decide), if_neg (by decide), if_pos rfl, sortS_singleton]
    · rw [allKeysOf, if_neg (by decide), if_pos rfl, sortS_singleton]
    · rw [allKeysOf, if_neg (by decide), if_neg (by decide), if_neg (by decide)]
      rw [show ([K] : List (Col α)) ++ [K] = [K, K] from rfl, hKK, sortS_singleton]
  have honl' : ∀ k ∈ onCols, k ∈ sortOrder l onCols := fun k hk =>
    List.mem_append_left _ hk
  have hdisj' : ∀ c ∈ sortOrder l onCols, c ∈ sortOrder r onCols → c ∈ onCols :=
    fun c hcl hcr =>
      hdisj c ((mem_sortOrder honl).mp hcl) ((mem_sortOrder honr).mp hcr)
  have houtnd : (sortOrder l onCols ++ (sortOrder r onCols).filter
      (fun c => !(sortOrder l onCols).contains c)).Nodup := by
    apply List.Nodup.append hordndL (hordndR.filter _)
    intro a ha hb
    rcases List.mem_filter.mp hb with ⟨_, hp⟩
    rw [contains_of_mem ha] at hp
    exact absurd hp (by simp)
  have hdict : dictOf ((sortOrder l onCols ++ (sortOrder r onCols).filter
      (fun c => !(sortOrder l onCols).contains c)).map (fun c => (c, ([] : Col α)))) =
      (sortOrder l onCols ++ (sortOrder r onCols).filter
        (fun c => !(sortOrder l onCols).contains c)).map (fun c => (c, ([] : Col α))) := by
    apply dictOf_eq_self
    rw [List.map_map]
    exact (List.map_id _).symm ▸ houtnd
  have hemit := emitKey_spec honnd hordndL hordndR honl' hdisj' hKlen
    (sortS (keyLeB onCols.length) (rowsOrdered l (sortOrder l onCols)))
    (sortS (keyLeB onCols.length) (rowsOrdered r (sortOrder r onCols)))
    (fun c => ([] : Col α)) hsortmemL hsortmemR
  have horgL : organiseGo onCols.length (!(how == "left" || how == "inner"))
      (sortOrder l onCols).length [K]
      (sortS (keyLeB onCols.length) (rowsOrdered l (sortOrder l onCols))) =
      [sortS (keyLeB onCols.length) (rowsOrdered l (sortOrder l onCols))] :=
    organiseGo_single hsrKL hsrneL
  have horgR : organiseGo onCols.length (!(how == "right" || how == "inner"))
      (sortOrder l onCols).length [K]
      (sortS (keyLeB onCols.length) (rowsOrdered r (sortOrder r onCols))) =
      [sortS (keyLeB onCols.length) (rowsOrdered r (sortOrder r onCols))] :=
    organiseGo_single hsrKR hsrneR
  rw [mergeD_eval hhow hsomeL hsomeR, hsideL, hsideR, hdkL, hdkR]
  simp only [some_bind']
  rw [hnamesL, hnamesR, hallkeys, hzipL, hzipR, horgL, horgR]
  rw [show ([K].zip (([sortS (keyLeB onCols.length)
      (rowsOrdered l (sortOrder l onCols))]).zip
      [sortS (keyLeB onCols.length) (rowsOrdered r (sortOrder r onCols))])) =
    [(K, (sortS (keyLeB onCols.length) (rowsOrdered l (sortOrder l onCols)),
      sortS (keyLeB onCols.length) (rowsOrdered r (sortOrder r onCols))))] from rfl]
  simp only [foldlM_singleton]
  rw [hdict, hemit]
  simp only [some_bind', List.nil_append, Option.pure_def]

theorem getCol_map_fun {names : List String} {f : String → Col α} {c : String}
    (hc : c ∈ names) :
    (Dataset.mk (names.map (fun c' => (c', f c')))).getCol c = f c := by
  rw [getCol_as_dget]
  show (dget (names.map (fun c' => (c', f c'))) c).getD [] = _
  rw [dget_map_fun _ c, if_pos hc]
  rfl

/-- The value a merge row contributes to a left-table column equals that
column's value in the originating left row. -/
theorem mval_left_value {l : Dataset α} {onCols : List String} {K : Col α} {a : Nat}
    (honl : ∀ k ∈ onCols, k ∈ l.colNames)
    (hKa : l.keyAt onCols a = K) {c : String} (hc : c ∈ l.colNames)
    {orderR : List String} {ra : Col α} :
    mval onCols (sortOrder l onCols) orderR K
      ((sortOrder l onCols).map (fun c' => (l.getCol c').getD a .null)) ra c
      = (l.getCol c).getD a .null := by
  rw [mval]
  by_cases hco : c ∈ onCols
  · rw [if_pos hco, ← hKa, Dataset.keyAt]
    exact keyRow_getD hco a
  · rw [if_neg hco, if_pos ((mem_sortOrder honl).mpr hc)]
    exact keyRow_getD ((mem_sortOrder honl).mpr hc) a

/-- Properties of a single-shared-key merge, any mode: the result is
rectangular with `n*m` records, and every left row survives into some
output record. -/
theorem merge_single_key_props {l r : Dataset α} {onCols : List String} {K : Col α}
    {how : String}
    (hhow : how ∈ (["inner", "left", "right", "full"] : List String))
    (hlnd : l.colNames.Nodup) (hrnd : r.colNames.Nodup) (honnd : onCols.Nodup)
    (honl : ∀ k ∈ onCols, k ∈ l.colNames) (honr : ∀ k ∈ onCols, k ∈ r.colNames)
    (hdisj : ∀ c ∈ l.colNames, c ∈ r.colNames → c ∈ onCols)
    (hlrect : l.rect = true) (hrrect : r.rect = true)
    (hn : 0 < l.recordCount) (hm : 0 < r.recordCount)
    (hlK : ∀ t ∈ l.keysOf onCols, t = K) (hrK : ∀ t ∈ r.keysOf onCols, t = K) :
    ∃ e, mergeD l r (some onCols) how = some e ∧ e.rect = true ∧
      e.recordCount = l.recordCount * r.recordCount ∧
      (∀ a, a < l.recordCount → ∃ p, p < e.recordCount ∧
        ∀ c ∈ l.colNames, (e.getCol c).getD p .null = (l.getCol c).getD a .null) := by
  obtain ⟨hsrKL, hsrneL, hsortmemL, hsrlenL, hdkL⟩ :=
    side_facts hlnd honnd honl hlrect hn hlK
  obtain ⟨hsrKR, hsrneR, hsortmemR, hsrlenR, hdkR⟩ :=
    side_facts hrnd honnd honr hrrect hm hrK
  have hLcne : l.cols ≠ [] := cols_ne_nil_of_recordCount hn
  have hLcolne : l.colNames ≠ [] := by simpa [Dataset.colNames] using hLcne
  have hordneL : sortOrder l onCols ≠ [] := sortOrder_ne_nil honl hLcolne
  have hML : l.recordCount = l.colLen := recordCount_of_rect hlrect hLcne
  have hlencL : ∀ c ∈ sortOrder l onCols, (l.getCol c).length = l.colLen := fun c hc =>
    length_getCol_of_rect hlrect ((mem_sortOrder honl).mp hc)
  have hmpos : 0 < (sortS (keyLeB onCols.length)
      (rowsOrdered r (sortOrder r onCols))).length := hsrlenR ▸ hm
  have hmaster := merge_single_key hhow hlnd hrnd honnd honl honr hdisj hlrect hrrect
    hn hm hlK hrK
  have hrc : (Dataset.mk
      ((sortOrder l onCols ++ (sortOrder r onCols).filter
          (fun c => !(sortOrder l onCols).contains c)).map (fun c =>
        (c, (sortS (keyLeB onCols.length) (rowsOrdered l (sortOrder l onCols))).flatMap
          (fun la => (sortS (keyLeB onCols.length)
              (rowsOrdered r (sortOrder r onCols))).map (fun ra =>
            mval onCols (sortOrder l onCols) (sortOrder r onCols) K la ra c)))))).recordCount
      = l.recordCount * r.recordCount := by
    rw [Dataset.recordCount, Dataset.rows]
    show (pyZip (((sortOrder l onCols ++ (sortOrder r onCols).filter
      (fun c => !(sortOrder l onCols).contains c)).map (fun c =>
        (c, (sortS (keyLeB onCols.length)
          (rowsOrdered l (sortOrder l onCols))).flatMap
          (fun la => (sortS (keyLeB onCols.length)
            (rowsOrdered r (sortOrder r onCols))).map (fun ra =>
              mval onCols (sortOrder l onCols) (sortOrder r onCols) K la ra c))))).map
        Prod.snd)).length = _
    rw [List.map_map]
    apply pyZip_length
    · intro h
      rcases List.map_eq_nil.mp h with h'
      rcases List.append_eq_nil.mp h' with ⟨h1, _⟩
      exact hordneL h1
    · intro x hx
      rcases List.mem_map.mp hx with ⟨c, hc, rfl⟩
      show ((sortS (keyLeB onCols.length)
        (rowsOrdered l (sortOrder l onCols))).flatMap
          (fun la => (sortS (keyLeB onCols.length)
            (rowsOrdered r (sortOrder r onCols))).map (fun ra =>
              mval onCols (sortOrder l onCols) (sortOrder r onCols) K la ra c))).length = _
      rw [flatMap_length_const (fun la _ => List.length_map _ _), hsrlenL, hsrlenR]
  refine ⟨_, hmaster, ?_, hrc, ?_⟩
  · apply rect_of_uniform (L := l.recordCount * r.recordCount)
    intro p hp
    rcases List.mem_map.mp hp with ⟨c, hc, rfl⟩
    show ((sortS (keyLeB onCols.length)
      (rowsOrdered l (sortOrder l onCols))).flatMap
        (fun la => (sortS (keyLeB onCols.length)
          (rowsOrdered r (sortOrder r onCols))).map (fun ra =>
            mval onCols (sortOrder l onCols) (sortOrder r onCols) K la ra c))).length = _
    rw [flatMap_length_const (fun la _ => List.length_map _ _), hsrlenL, hsrlenR]
  · intro a ha
    have hrowA : (sortOrder l onCols).map (fun c => (l.getCol c).getD a .null) ∈
        sortS (keyLeB onCols.length) (rowsOrdered l (sortOrder l onCols)) := by
      rw [(sortS_perm _ _).mem_iff, rowsOrdered_eq hordneL hlencL hML]
      exact List.mem_map.mpr ⟨a, List.mem_range.mpr (hML ▸ ha), rfl⟩
    obtain ⟨q, hq, hqv⟩ := List.getElem_of_mem hrowA
    refine ⟨q * (sortS (keyLeB onCols.length)
      (rowsOrdered r (sortOrder r onCols))).length + 0, ?_, ?_⟩
    · rw [hrc]
      have hq' : q < l.recordCount := hsrlenL ▸ hq
      have harith : q * (sortS (keyLeB onCols.length)
          (rowsOrdered r (sortOrder r onCols))).length + 0 = q * r.recordCount := by
        rw [hsrlenR]
        omega
      rw [harith]
      exact Nat.mul_lt_mul_of_lt_of_le hq' (le_refl _) hm
    · intro c hc
      have hcout : c ∈ sortOrder l onCols ++ (sortOrder r onCols).filter
          (fun c => !(sortOrder l onCols).contains c) :=
        List.mem_append_left _ ((mem_sortOrder honl).mpr hc)
      rw [getCol_map_fun hcout]
      rw [flatMap_getD_const (fun la _ => List.length_map _ _) hq hmpos]
      have hgetq : (sortS (keyLeB onCols.length)
          (rowsOrdered l (sortOrder l onCols))).get ⟨q, hq⟩ =
          (sortOrder l onCols).map (fun c' => (l.getCol c').getD a .null) := hqv
      rw [hgetq]
      rw [List.getD_eq_getElem _ _ (by rw [List.length_map]; exact hmpos),
        List.getElem_map]
      exact mval_left_value honl
        (hlK _ (List.mem_map.mpr ⟨a, List.mem_range.mpr ha, rfl⟩)) hc

/-- C3 (amended): in the single-shared-key scenario with disjoint
non-key columns, inner merge emits exactly `n*m` rows, left merge keeps
every left row at least once, and the full merge's row count dominates
the other three modes'. -/
theorem merge_multiplicity {l r : Dataset α} {onCols : List String} {K : Col α}
    (hlnd : l.colNames.Nodup) (hrnd : r.colNames.Nodup) (honnd : onCols.Nodup)
    (honl : ∀ k ∈ onCols, k ∈ l.colNames) (honr : ∀ k ∈ onCols, k ∈ r.colNames)
    (hdisj : ∀ c ∈ l.colNames, c ∈ r.colNames → c ∈ onCols)
    (hlrect : l.rect = true) (hrrect : r.rect = true)
    (hn : 0 < l.recordCount) (hm : 0 < r.recordCount)
    (hlK : ∀ t ∈ l.keysOf onCols, t = K) (hrK : ∀ t ∈ r.keysOf onCols, t = K) :
    (∃ ei, mergeD l r (some onCols) "inner" = some ei ∧ ei.rect = true ∧
      ei.recordCount = l.recordCount * r.recordCount) ∧
    (∃ el, mergeD l r (some onCols) "left" = some el ∧
      ∀ a, a < l.recordCount → ∃ p, p < el.recordCount ∧
        ∀ c ∈ l.colNames, (el.getCol c).getD p .null = (l.getCol c).getD a .null) ∧
    (∃ ei el er ef,
      mergeD l r (some onCols) "inner" = some ei ∧
      mergeD l r (some onCols) "left" = some el ∧
      mergeD l r (some onCols) "right" = some er ∧
      mergeD l r (some onCols) "full" = some ef ∧
      ei.recordCount ≤ ef.recordCount ∧ el.recordCount ≤ ef.recordCount ∧
      er.recordCount ≤ ef.recordCount) := by
  obtain ⟨ei, hei, hirect, hirc, hipres⟩ := merge_single_key_props
    (show ("inner" : String) ∈ ["inner", "left", "right", "full"] by decide)
    hlnd hrnd honnd honl honr hdisj hlrect hrrect hn hm hlK hrK
  obtain ⟨el, hel, hlrect2, hlrc, hlpres⟩ := merge_single_key_props
    (show ("left" : String) ∈ ["inner", "left", "right", "full"] by decide)
    hlnd hrnd honnd honl honr hdisj hlrect hrrect hn hm hlK hrK
  obtain ⟨er, her, hrrect2, hrrc, hrpres⟩ := merge_single_key_props
    (show ("right" : String) ∈ ["inner", "left", "right", "full"] by decide)
    hlnd hrnd honnd honl honr hdisj hlrect hrrect hn hm hlK hrK
  obtain ⟨ef, hef, hfrect, hfrc, hfpres⟩ := merge_single_key_props
    (show ("full" : String) ∈ ["inner", "left", "right", "full"] by decide)
    hlnd hrnd honnd honl honr hdisj hlrect hrrect hn hm hlK hrK
  refine ⟨⟨ei, hei, hirect, hirc⟩, ⟨el, hel, hlpres⟩,
    ⟨ei, el, er, ef, hei, hel, her, hef, ?_, ?_, ?_⟩⟩
  · rw [hirc, hfrc]
  · rw [hlrc, hfrc]
  · rw [hrrc, hfrc]

theorem merge_multiplicity_witness :
    (∃ ei, mergeD (⟨[("k", [Value.int 1, Value.int 1]),
        ("a", [Value.int 10, Value.int 40])]⟩ : Dataset Int)
      (⟨[("k", [Value.int 1]), ("b", [Value.int 20])]⟩ : Dataset Int)
      (some ["k"]) "inner" = some ei ∧ ei.rect = true ∧
      ei.recordCount = (⟨[("k", [Value.int 1, Value.int 1]),
        ("a", [Value.int 10, Value.int 40])]⟩ : Dataset Int).recordCount *
        (⟨[("k", [Value.int 1]), ("b", [Value.int 20])]⟩ : Dataset Int).recordCount) ∧
    (∃ el, mergeD (⟨[("k", [Value.int 1, Value.int 1]),
        ("a", [Value.int 10, Value.int 40])]⟩ : Dataset Int)
      (⟨[("k", [Value.int 1]), ("b", [Value.int 20])]⟩ : Dataset Int)
      (some ["k"]) "left" = some el ∧
      ∀ a, a < (⟨[("k", [Value.int 1, Value.int 1]),
        ("a", [Value.int 10, Value.int 40])]⟩ : Dataset Int).recordCount →
        ∃ p, p < el.recordCount ∧
        ∀ c ∈ (⟨[("k", [Value.int 1, Value.int 1]),
          ("a", [Value.int 10, Value.int 40])]⟩ : Dataset Int).colNames,
          (el.getCol c).getD p .null = ((⟨[("k", [Value.int 1, Value.int 1]),
            ("a", [Value.int 10, Value.int 40])]⟩ : Dataset Int).getCol c).getD a .null) ∧
    (∃ ei el er ef,
      mergeD (⟨[("k", [Value.int 1, Value.int 1]),
        ("a", [Value.int 10, Value.int 40])]⟩ : Dataset Int)
        (⟨[("k", [Value.int 1]), ("b", [Value.int 20])]⟩ : Dataset Int)
        (some ["k"]) "inner" = some ei ∧
      mergeD (⟨[("k", [Value.int 1, Value.int 1]),
        ("a", [Value.int 10, Value.int 40])]⟩ : Dataset Int)
        (⟨[("k", [Value.int 1]), ("b", [Value.int 20])]⟩ : Dataset Int)
        (some ["k"]) "left" = some el ∧
      mergeD (⟨[("k", [Value.int 1, Value.int 1]),
        ("a", [Value.int 10, Value.int 40])]⟩ : Dataset Int)
        (⟨[("k", [Value.int 1]), ("b", [Value.int 20])]⟩ : Dataset Int)
        (some ["k"]) "right" = some er ∧
      mergeD (⟨[("k", [Value.int 1, Value.int 1]),
        ("a", [Value.int 10, Value.int 40])]⟩ : Dataset Int)
        (⟨[("k", [Value.int 1]), ("b", [Value.int 20])]⟩ : Dataset Int)
        (some ["k"]) "full" = some ef ∧
      ei.recordCount ≤ ef.recordCount ∧ el.recordCount ≤ ef.recordCount ∧
      er.recordCount ≤ ef.recordCount) :=
  merge_multiplicity (K := [Value.int 1]) (by decide) (by decide) (by decide) (by decide)
    (by decide) (by decide) (by decide) (by decide) (by decide) (by decide) (by decide)
    (by decide)

/-- A left merge with a SHARED non-key column `v`: the left row
`(k=1, v=40)` survives in no output record, refuting unconditional
left-row preservation (the shared column is appended twice per row and
the table turns ragged). -/
theorem merge_left_loses_row_on_shared_columns :
    mergeD (⟨[("k", [Value.int 1, Value.int 1]), ("v", [Value.int 10, Value.int 40])]⟩ :
        Dataset Int)
      (⟨[("k", [Value.int 1]), ("v", [Value.int 20])]⟩ : Dataset Int)
      (some ["k"]) "left" =
      some ⟨[("k", [Value.int 1, Value.int 1]),
        ("v", [Value.int 10, Value.int 20, Value.int 40, Value.int 20])]⟩ ∧
    (∀ p, p < (⟨[("k", [Value.int 1, Value.int 1]),
        ("v", [Value.int 10, Value.int 20, Value.int 40, Value.int 20])]⟩ :
          Dataset Int).recordCount →
      ¬ (((⟨[("k", [Value.int 1, Value.int 1]),
          ("v", [Value.int 10, Value.int 20, Value.int 40, Value.int 20])]⟩ :
            Dataset Int).getCol "k").getD p .null = Value.int 1 ∧
        ((⟨[("k", [Value.int 1, Value.int 1]),
          ("v", [Value.int 10, Value.int 20, Value.int 40, Value.int 20])]⟩ :
            Dataset Int).getCol "v").getD p .null = Value.int 40)) := by
  decide

/-- C1: merging two valid tables that share the non-key column `v`
produces a RAGGED table: the emission loops append the shared column
once from the left row and once from the right row, so it ends up twice
as long as the key column. -/
theorem merge_shared_column_ragged :
    mergeD (⟨[("k", [Value.int 1]), ("v", [Value.int 10])]⟩ : Dataset Int)
      (⟨[("k", [Value.int 1]), ("v", [Value.int 20])]⟩ : Dataset Int)
      (some ["k"]) "inner" =
      some ⟨[("k", [Value.int 1]), ("v", [Value.int 10, Value.int 20])]⟩ ∧
    (⟨[("k", [Value.int 1]), ("v", [Value.int 10, Value.int 20])]⟩ : Dataset Int).rect
      = false := by decide

/-- C2: a left merge whose right table is wider than the left crashes
with IndexError instead of emitting the null-padded row: the pseudo-row
is `[None] * len(left_columns)` (2 wide) but is indexed by the right
column list (3 wide). -/
theorem merge_left_null_pad_crashes :
    mergeD (⟨[("k", [Value.int 1]), ("a", [Value.int 10])]⟩ : Dataset Int)
      (⟨[("k", [Value.int 2]), ("b", [Value.int 20]), ("c", [Value.int 30])]⟩ : Dataset Int)
      (some ["k"]) "left" = none := by decide

theorem flatten_replicate_length {β : Type} (n : Nat) (x : List β) :
    (List.replicate n x).flatten.length = n * x.length := by
  induction n with
  | zero => simp
  | succ k ih =>
    rw [List.replicate_succ, List.flatten_cons, List.length_append, ih]
    ring

theorem dget_append_left {β : Type} {A B : List (String × β)} {k : String}
    (h : (dget A k).isSome) : dget (A ++ B) k = dget A k := by
  rw [dget, dget, List.find?_append]
  rw [dget] at h
  cases hf : A.find? (fun p => p.1 == k) with
  | none => rw [hf] at h; exact absurd h (by simp)
  | some q => rfl

theorem dget_append_right {β : Type} {A B : List (String × β)} {k : String}
    (h : dget A k = none) : dget (A ++ B) k = dget B k := by
  rw [dget, dget, List.find?_append]
  rw [dget] at h
  cases hf : A.find? (fun p => p.1 == k) with
  | none => rfl
  | some q => rw [hf] at h; exact absurd h (by simp)

theorem dget_map_fun_none {β : Type} {f : String → β} {names : List String} {k : String}
    (hk : k ∉ names) : dget (names.map (fun c => (c, f c))) k = none := by
  rw [dget_map_fun, if_neg hk]

/-- C10 (amended): with a VALID `how`, merge with `on=None` delegates to
`full_outer_merge` whatever that `how` is; `full_outer_merge` demands
disjoint column-name sets (else it raises) and returns the cartesian
product: each left value repeated once per right row, each right column
tiled once per left row, `n*m` records in all. -/
theorem merge_on_none_spec {l r : Dataset α} {how : String}
    (hhow : how ∈ (["inner", "left", "right", "full"] : List String))
    (hlnd : l.colNames.Nodup) (hrnd : r.colNames.Nodup)
    (hdisj : ∀ c ∈ l.colNames, c ∉ r.colNames)
    (hlrect : l.rect = true) (hrrect : r.rect = true)
    (hn : 0 < l.recordCount) (hm : 0 < r.recordCount) :
    mergeD l r none how = fullOuterMergeD l r ∧
    (∃ e, fullOuterMergeD l r = some e ∧
      e.colNames = l.colNames ++ r.colNames ∧
      e.rect = true ∧
      e.recordCount = l.recordCount * r.recordCount ∧
      (∀ c ∈ l.colNames, e.getCol c =
        (l.getCol c).flatMap (fun v => List.replicate r.recordCount v)) ∧
      (∀ c ∈ r.colNames, e.getCol c =
        (List.replicate l.recordCount (r.getCol c)).flatten)) ∧
    (∀ (l' r' : Dataset α), (∃ c, c ∈ l'.colNames ∧ c ∈ r'.colNames) →
      fullOuterMergeD l' r' = none) := by
  have hLcne : l.cols ≠ [] := cols_ne_nil_of_recordCount hn
  have hLcolne : l.colNames ≠ [] := by simpa [Dataset.colNames] using hLcne
  have hML : l.recordCount = l.colLen := recordCount_of_rect hlrect hLcne
  have hRcne : r.cols ≠ [] := cols_ne_nil_of_recordCount hm
  have hMR : r.recordCount = r.colLen := recordCount_of_rect hrrect hRcne
  have hapnd : (l.colNames ++ r.colNames).Nodup := by
    apply List.Nodup.append hlnd hrnd
    intro a ha hb
    exact hdisj a ha hb
  have hcheck : l.colNames.length + r.colNames.length
      = (pyDedup (l.colNames ++ r.colNames)).length := by
    rw [pyDedup_eq_self_of_nodup hapnd, List.length_append]
  have hlenL : ∀ c ∈ l.colNames,
      ((l.getCol c).flatMap (fun v => List.replicate r.recordCount v)).length
        = l.recordCount * r.recordCount := by
    intro c hc
    rw [flatMap_length_const (fun v _ => List.length_replicate _ _),
      length_getCol_of_rect hlrect hc, ← hML]
  have hlenR : ∀ c ∈ r.colNames,
      ((List.replicate l.recordCount (r.getCol c)).flatten).length
        = l.recordCount * r.recordCount := by
    intro c hc
    rw [flatten_replicate_length, length_getCol_of_rect hrrect hc, ← hMR]
  have hlenAll : ∀ p ∈ (l.colNames.map (fun c =>
        (c, (l.getCol c).flatMap (fun v => List.replicate r.recordCount v)))) ++
      (r.colNames.map (fun c =>
        (c, (List.replicate l.recordCount (r.getCol c)).flatten))),
      p.2.length = l.recordCount * r.recordCount := by
    intro p hp
    rcases List.mem_append.mp hp with hp | hp
    · rcases List.mem_map.mp hp with ⟨c, hc, rfl⟩
      exact hlenL c hc
    · rcases List.mem_map.mp hp with ⟨c, hc, rfl⟩
      exact hlenR c hc
  have hfull : fullOuterMergeD l r = some (Dataset.mk
      ((l.colNames.map (fun c =>
        (c, (l.getCol c).flatMap (fun v => List.replicate r.recordCount v)))) ++
       (r.colNames.map (fun c =>
        (c, (List.replicate l.recordCount (r.getCol c)).flatten))))) := by
    rw [fullOuterMergeD, if_pos hcheck]
    exact mkDataset_some hlenAll
  refine ⟨?_, ⟨_, hfull, ?_, ?_, ?_, ?_, ?_⟩, ?_⟩
  · rw [mergeD.eq_def, if_pos hhow]
  · rw [Dataset.colNames]
    show ((l.colNames.map (fun c =>
        (c, (l.getCol c).flatMap (fun v => List.replicate r.recordCount v)))) ++
      (r.colNames.map (fun c =>
        (c, (List.replicate l.recordCount (r.getCol c)).flatten)))).map Prod.fst = _
    rw [List.map_append, List.map_map, List.map_map]
    rw [show (Prod.fst ∘ fun c => (c, (l.getCol c).flatMap
      (fun v => List.replicate r.recordCount v))) = id from rfl]
    rw [show (Prod.fst ∘ fun c => (c,
      (List.replicate l.recordCount (r.getCol c)).flatten)) = id from rfl]
    rw [List.map_id, List.map_id]
  · exact rect_of_uniform hlenAll
  · rw [Dataset.recordCount, Dataset.rows]
    apply pyZip_length
    · intro h
      rcases List.map_eq_nil.mp h with h'
      rcases List.append_eq_nil.mp h' with ⟨h1, _⟩
      rcases List.map_eq_nil.mp h1 with h2
      exact hLcolne h2
    · intro x hx
      rcases List.mem_map.mp hx with ⟨p, hp, rfl⟩
      exact hlenAll p hp
  · intro c hc
    rw [getCol_as_dget]
    show (dget ((l.colNames.map (fun c' =>
        (c', (l.getCol c').flatMap (fun v => List.replicate r.recordCount v)))) ++
      (r.colNames.map (fun c' =>
        (c', (List.replicate l.recordCount (r.getCol c')).flatten)))) c).getD [] = _
    rw [dget_append_left (by rw [dget_map_fun, if_pos hc]; rfl)]
    rw [dget_map_fun, if_pos hc]
    rfl
  · intro c hc
    have hcl : c ∉ l.colNames := fun hmem => hdisj c hmem hc
    rw [getCol_as_dget]
    show (dget ((l.colNames.map (fun c' =>
        (c', (l.getCol c').flatMap (fun v => List.replicate r.recordCount v)))) ++
      (r.colNames.map (fun c' =>
        (c', (List.replicate l.recordCount (r.getCol c')).flatten)))) c).getD [] = _
    rw [dget_append_right (dget_map_fun_none hcl)]
    rw [dget_map_fun, if_pos hc]
    rfl
  · intro l' r' hshare
    obtain ⟨c, hcl, hcr⟩ := hshare
    rw [fullOuterMergeD]
    have hnot : ¬(l'.colNames.length + r'.colNames.length
        = (pyDedup (l'.colNames ++ r'.colNames)).length) := by
      intro heq
      have hsub := pyDedup_sublist (l'.colNames ++ r'.colNames)
      have heq2 : pyDedup (l'.colNames ++ r'.colNames) = l'.colNames ++ r'.colNames :=
        hsub.eq_of_length (by rw [← heq, List.length_append])
      have hnd2 : (l'.colNames ++ r'.colNames).Nodup := by
        rw [← heq2]
        exact nodup_pyDedup _
      exact (List.nodup_append.mp hnd2).2.2 hcl hcr
    rw [if_neg hnot]
  done

/-- C10 counterexample: an invalid `how` is NOT ignored when `on=None` —
the `how` assertion fires before the `on is None` branch, although
`full_outer_merge` itself would succeed on these tables. -/
theorem merge_invalid_how_not_ignored :
    mergeD (⟨[("a", [Value.int 1])]⟩ : Dataset Int)
      (⟨[("b", [Value.int 2])]⟩ : Dataset Int) none "outer" = none ∧
    fullOuterMergeD (⟨[("a", [Value.int 1])]⟩ : Dataset Int)
      (⟨[("b", [Value.int 2])]⟩ : Dataset Int) =
      some ⟨[("a", [Value.int 1]), ("b", [Value.int 2])]⟩ := by decide

theorem merge_on_none_spec_witness :
    (mergeD (⟨[("a", [Value.int 1, Value.int 2])]⟩ : Dataset Int)
      (⟨[("b", [Value.int 5, Value.int 6, Value.int 7])]⟩ : Dataset Int) none "left" =
      fullOuterMergeD (⟨[("a", [Value.int 1, Value.int 2])]⟩ : Dataset Int)
        (⟨[("b", [Value.int 5, Value.int 6, Value.int 7])]⟩ : Dataset Int)) ∧
    (∃ e, fullOuterMergeD (⟨[("a", [Value.int 1, Value.int 2])]⟩ : Dataset Int)
        (⟨[("b", [Value.int 5, Value.int 6, Value.int 7])]⟩ : Dataset Int) = some e ∧
      e.colNames = (⟨[("a", [Value.int 1, Value.int 2])]⟩ : Dataset Int).colNames ++
        (⟨[("b", [Value.int 5, Value.int 6, Value.int 7])]⟩ : Dataset Int).colNames ∧
      e.rect = true ∧
      e.recordCount = (⟨[("a", [Value.int 1, Value.int 2])]⟩ : Dataset Int).recordCount *
        (⟨[("b", [Value.int 5, Value.int 6, Value.int 7])]⟩ : Dataset Int).recordCount ∧
      (∀ c ∈ (⟨[("a", [Value.int 1, Value.int 2])]⟩ : Dataset Int).colNames,
        e.getCol c = ((⟨[("a", [Value.int 1, Value.int 2])]⟩ : Dataset Int).getCol c).flatMap
          (fun v => List.replicate (⟨[("b", [Value.int 5, Value.int 6,
            Value.int 7])]⟩ : Dataset Int).recordCount v)) ∧
      (∀ c ∈ (⟨[("b", [Value.int 5, Value.int 6, Value.int 7])]⟩ : Dataset Int).colNames,
        e.getCol c = (List.replicate
          (⟨[("a", [Value.int 1, Value.int 2])]⟩ : Dataset Int).recordCount
          ((⟨[("b", [Value.int 5, Value.int 6, Value.int 7])]⟩ : Dataset Int).getCol
            c)).flatten)) ∧
    (∀ (l' r' : Dataset Int), (∃ c, c ∈ l'.colNames ∧ c ∈ r'.colNames) →
      fullOuterMergeD l' r' = none) :=
  merge_on_none_spec (by decide) (by decide) (by decide) (by decide) (by decide)
    (by decide) (by decide) (by decide)

/-- C5 (amended): the list-of-records constructor takes its column set
from the FIRST record profile only (Python iterates
`record_profiles[0]`, one arbitrary element of the profile set — the
model fixes first-occurrence order); keys a record lacks become null,
and values under keys outside that profile are silently dropped. -/
theorem fromRecords_spec {rec0 : List (String × Value α)}
    {rest : List (List (String × Value α))} (hne : rec0 ≠ []) :
    ∃ e, fromRecords (rec0 :: rest) = some e ∧
      e.colNames = rec0.map Prod.fst ∧
      e.rect = true ∧
      e.recordCount = rest.length + 1 ∧
      ∀ c ∈ rec0.map Prod.fst, e.getCol c =
        (rec0 :: rest).map (fun rec => (dget rec c).getD .null) := by
  have hprof : pyDedup ((rec0 :: rest).map (fun rec => rec.map Prod.fst)) =
      (rec0.map Prod.fst) :: pyDedupAux [rec0.map Prod.fst]
        (rest.map (fun rec => rec.map Prod.fst)) := by
    rw [List.map_cons, pyDedup, pyDedupAux, if_neg (List.not_mem_nil _)]
  have hfr : fromRecords (rec0 :: rest) = some (Dataset.mk ((rec0.map Prod.fst).map
      (fun c => (c, (rec0 :: rest).map (fun rec => (dget rec c).getD .null))))) := by
    rw [fromRecords.eq_def, hprof]
  have hlen : ∀ p ∈ (rec0.map Prod.fst).map
      (fun c => (c, (rec0 :: rest).map (fun rec => (dget rec c).getD .null))),
      p.2.length = rest.length + 1 := by
    intro p hp
    rcases List.mem_map.mp hp with ⟨c, hc, rfl⟩
    show ((rec0 :: rest).map (fun rec => (dget rec c).getD Value.null)).length = _
    rw [List.length_map, List.length_cons]
  refine ⟨_, hfr, ?_, rect_of_uniform hlen, ?_, ?_⟩
  · rw [Dataset.colNames]
    show ((rec0.map Prod.fst).map (fun c =>
      (c, (rec0 :: rest).map (fun rec => (dget rec c).getD .null)))).map Prod.fst = _
    rw [List.map_map]
    exact List.map_id _
  · rw [Dataset.recordCount, Dataset.rows]
    apply pyZip_length
    · intro h
      rcases List.map_eq_nil.mp h with h'
      rcases List.map_eq_nil.mp h' with h2
      exact hne (List.map_eq_nil.mp h2)
    · intro x hx
      rcases List.mem_map.mp hx with ⟨p, hp, rfl⟩
      exact hlen p hp
  · intro c hc
    exact getCol_map_fun hc

/-- C5 counterexample: two records with different key sets — the second
record's value is silently dropped, and the column set is NOT the union
of the key sets. -/
theorem fromRecords_drops_second_profile :
    fromRecords ([[("a", Value.int 1)], [("b", Value.int 2)]] :
        List (List (String × Value Int))) =
      some ⟨[("a", [Value.int 1, Value.null])]⟩ := by decide

theorem fromRecords_spec_witness :
    ∃ e, fromRecords ([[("a", Value.int 1), ("b", Value.int 2)], [("a", Value.int 3)]] :
        List (List (String × Value Int))) = some e ∧
      e.colNames = ([("a", Value.int 1), ("b", Value.int 2)] :
        List (String × Value Int)).map Prod.fst ∧
      e.rect = true ∧
      e.recordCount = ([[("a", Value.int 3)]] :
        List (List (String × Value Int))).length + 1 ∧
      ∀ c ∈ ([("a", Value.int 1), ("b", Value.int 2)] :
          List (String × Value Int)).map Prod.fst, e.getCol c =
        ([[("a", Value.int 1), ("b", Value.int 2)], [("a", Value.int 3)]] :
          List (List (String × Value Int))).map
            (fun rec => (dget rec c).getD .null) :=
  fromRecords_spec (by decide)

/-- Looking a renamed name up in the renamed dict: when the new names
are duplicate-free, each renamed column is found with its old values. -/
theorem dget_map_inj {β : Type} {g : String → String} {f : String → β} :
    ∀ {l : List String} {c : String}, (l.map g).Nodup → c ∈ l →
      dget (l.map (fun x => (g x, f x))) (g c) = some (f c) := by
  intro l
  induction l with
  | nil => intro c _ hc; exact absurd hc (List.not_mem_nil c)
  | cons x xs ih =>
    intro c hnd hc
    rw [List.map_cons] at hnd ⊢
    rcases List.mem_cons.mp hc with rfl | hc'
    · exact dget_cons_self
    · have hne : g c ≠ g x := by
        intro h
        exact (List.nodup_cons.mp hnd).1 (h ▸ List.mem_map_of_mem g hc')
      rw [dget_cons_ne hne]
      exact ih (List.nodup_cons.mp hnd).2 hc'

/-- C6 (amended): when the renamed column names are collision-free,
rename renames matching columns, passes the rest through with values
unchanged, and keeps the table shape.  A collision, however, is NOT an
error: the colliding columns are silently merged (the later one wins) —
see the counterexample. -/
theorem rename_correct {d : Dataset α} {rmap : List (String × String)}
    (hrect : d.rect = true)
    (hnodup : (d.colNames.map (fun c => (dget rmap c).getD c)).Nodup) :
    ∃ e, renameD d rmap = some e ∧
      e.colNames = d.colNames.map (fun c => (dget rmap c).getD c) ∧
      e.rect = true ∧
      e.recordCount = d.recordCount ∧
      ∀ c ∈ d.colNames, e.getCol ((dget rmap c).getD c) = d.getCol c := by
  have hdict : dictOf (d.colNames.map (fun c => ((dget rmap c).getD c, d.getCol c))) =
      d.colNames.map (fun c => ((dget rmap c).getD c, d.getCol c)) := by
    apply dictOf_eq_self
    rw [List.map_map]
    exact hnodup
  have hlen : ∀ p ∈ d.colNames.map (fun c => ((dget rmap c).getD c, d.getCol c)),
      p.2.length = d.colLen := by
    intro p hp
    rcases List.mem_map.mp hp with ⟨c, hc, rfl⟩
    exact length_getCol_of_rect hrect hc
  have hre : renameD d rmap = some (Dataset.mk
      (d.colNames.map (fun c => ((dget rmap c).getD c, d.getCol c)))) := by
    rw [renameD, hdict]
    exact mkDataset_some hlen
  refine ⟨_, hre, ?_, rect_of_uniform hlen, ?_, ?_⟩
  · rw [Dataset.colNames]
    show (d.colNames.map (fun c => ((dget rmap c).getD c, d.getCol c))).map Prod.fst = _
    rw [List.map_map]
    rfl
  · cases hcn : d.cols with
    | nil =>
      have hcne : d.colNames = [] := by rw [Dataset.colNames, hcn]; rfl
      show (Dataset.mk (d.colNames.map (fun c =>
        ((dget rmap c).getD c, d.getCol c)))).recordCount = d.recordCount
      rw [Dataset.recordCount, Dataset.recordCount, Dataset.rows, Dataset.rows, hcn, hcne]
      rfl
    | cons c0 cs =>
      have hM : d.recordCount = d.colLen :=
        recordCount_of_rect hrect (by rw [hcn]; exact List.cons_ne_nil c0 cs)
      rw [Dataset.recordCount, Dataset.rows, hM]
      apply pyZip_length
      · intro h
        rcases List.map_eq_nil.mp h with h'
        rcases List.map_eq_nil.mp h' with h2
        rw [Dataset.colNames, hcn, List.map_cons] at h2
        exact List.cons_ne_nil _ _ h2
      · intro x hx
        rcases List.mem_map.mp hx with ⟨p, hp, rfl⟩
        exact hlen p hp
  · intro c hc
    rw [getCol_as_dget]
    show (dget (d.colNames.map (fun c' =>
      ((dget rmap c').getD c', d.getCol c'))) ((dget rmap c).getD c)).getD [] = _
    rw [dget_map_inj hnodup hc]
    rfl

/-- C6 counterexample: renaming `a` to `b` while `b` exists raises no
error; the dict comprehension silently keeps only the untouched `b`
column — a column is dropped. -/
theorem rename_collision_overwrites :
    renameD (⟨[("a", [Value.int 1, Value.int 2]), ("b", [Value.int 3, Value.int 4])]⟩ :
        Dataset Int)
      [("a", "b")] = some ⟨[("b", [Value.int 3, Value.int 4])]⟩ := by decide

theorem rename_correct_witness :
    ∃ e, renameD (⟨[("a", [Value.int 1, Value.int 2]),
        ("b", [Value.int 3, Value.int 4])]⟩ : Dataset Int) [("a", "x")] = some e ∧
      e.colNames = (⟨[("a", [Value.int 1, Value.int 2]),
        ("b", [Value.int 3, Value.int 4])]⟩ : Dataset Int).colNames.map
          (fun c => (dget [("a", "x")] c).getD c) ∧
      e.rect = true ∧
      e.recordCount = (⟨[("a", [Value.int 1, Value.int 2]),
        ("b", [Value.int 3, Value.int 4])]⟩ : Dataset Int).recordCount ∧
      ∀ c ∈ (⟨[("a", [Value.int 1, Value.int 2]),
          ("b", [Value.int 3, Value.int 4])]⟩ : Dataset Int).colNames,
        e.getCol ((dget [("a", "x")] c).getD c) =
          (⟨[("a", [Value.int 1, Value.int 2]),
            ("b", [Value.int 3, Value.int 4])]⟩ : Dataset Int).getCol c :=
  rename_correct (by decide) (by decide)

end Martens
